import Mathlib

/-!
Shallow embedding of `board.py` (templedf/pidgin): a chess position container
(`Board`), polymorphic piece movement (`reach`), pin detection (`_get_pinned`,
`pinned`), and the PGN move resolver (`movePGN`).

Modelling conventions, matching Python 2 semantics of the source:
- machine ints are `Int`; Python 2 `/` on ints is floor division (`Int.fdiv`);
  division by zero raises, modelled with `Except Err`.
- Python objects are modelled by a heap: every piece gets a `Nat` pid; the
  64-cell array and the per-kind collections store pids, and the piece data
  (rank/file, mutated in place by the source) lives in `Board.objs`.
- exceptions are modelled with `Except Err`; operations that mutate the board
  before raising return the mutated board alongside the error (a Python
  exception does not roll back attribute/array writes already performed).
- the move-listener callback is never registered in the modelled scenarios,
  so the `self.callback` branches are omitted.
-/

namespace Pidgin

/-- Decidable equality for `Except`, so concrete runs of the embedded code can
be checked by `decide`. -/
instance {ε α : Type} [DecidableEq ε] [DecidableEq α] : DecidableEq (Except ε α)
  | .error a, .error c =>
    if h : a = c then isTrue (by rw [h]) else isFalse (fun hc => h (by cases hc; rfl))
  | .error _, .ok _ => isFalse (fun hc => by cases hc)
  | .ok _, .error _ => isFalse (fun hc => by cases hc)
  | .ok c, .ok d =>
    if h : c = d then isTrue (by rw [h]) else isFalse (fun hc => h (by cases hc; rfl))

/-- Error kinds raised by the source (each constructor corresponds to one
`raise` site or one implicit Python runtime error). -/
inductive Err where
  | invalidSquare      -- 'Rank or file out of range' (_test_rank_file)
  | indexError         -- Python list index out of range (pieces[i], i ≥ 64)
  | badIndex           -- 'Bad index' (_index_to_rf)
  | badPosition        -- _position_to_rf on a string whose length is not 2
  | emptySource        -- 'Source square is empty' (Board.move)
  | attrNone           -- Python AttributeError: attribute access on None
  | typeError          -- Python TypeError (e.g. constructor missing its id argument)
  | divZero            -- Python ZeroDivisionError
  | dupKing            -- 'Attempt to add second king' (Board.put)
  | kingRemoval        -- 'Attempt to remove king' (Board.take)
  | notInList          -- Python ValueError from list.remove on an absent element
  | impossibleCapture  -- 'Capture is not possible'
  | illegalMove        -- 'Move is not possible'
  | badIdentifier      -- 'Bad piece identifier'
  | checkNotResolved   -- 'Check not resolved'
  | castleImpossible   -- 'Castle is not possible'
  | badNotation        -- 'Bad move definition'
  | promotionInvalid   -- 'Promotion is not valid'
  | heapMiss           -- model-internal: dangling pid (unreachable from the API)
deriving Repr, DecidableEq

/-- Piece colors (`Board.WHITE` / `Board.BLACK`). -/
inductive Color where
  | white
  | black
deriving Repr, DecidableEq

/-- The opposite color (the `other_color` computations in the source). -/
def Color.other : Color → Color
  | .white => .black
  | .black => .white

/-- Piece kinds, the `name` letters used as `by_piece` keys ('P','N','B','R','Q','K'). -/
inductive Kind where
  | P
  | N
  | B
  | R
  | Q
  | K
deriving Repr, DecidableEq

/-- Piece object state (`Piece.name/color/rank/file/id`). `rank`/`file` are
`Option Int` because `Piece.take` sets them to `None`. -/
structure Pc where
  name : Kind
  color : Color
  rank : Option Int
  file : Option Int
  idn : Int
deriving Repr, DecidableEq

/-- A white/black pair of pid lists (one `by_piece[name]` dict entry for a
non-king kind). -/
structure SideL where
  w : List Nat
  b : List Nat
deriving Repr, DecidableEq

def SideL.get (s : SideL) : Color → List Nat
  | .white => s.w
  | .black => s.b

def SideL.set (s : SideL) : Color → List Nat → SideL
  | .white, l => ⟨l, s.b⟩
  | .black, l => ⟨s.w, l⟩

/-- The full board state: the piece heap (`objs`), the 64-cell array
(`cells`, storing pids), side to move, en-passant target, check color and the
per-kind piece collections (`by_piece`). -/
structure Board where
  objs : List (Nat × Pc)
  cells : List (Option Nat)
  toPlay : Color
  ep : Option (Int × Int × Int)
  chk : Option Color
  bpN : SideL
  bpB : SideL
  bpR : SideL
  bpQ : SideL
  bpP : SideL
  bpKw : Option Nat
  bpKb : Option Nat
  nextPid : Nat
deriving Repr, DecidableEq

/-- `Board.__init__`: an empty board. -/
def emptyBoard : Board :=
  ⟨[], List.replicate 64 none, .white, none, none, ⟨[], []⟩, ⟨[], []⟩, ⟨[], []⟩,
   ⟨[], []⟩, ⟨[], []⟩, none, none, 0⟩

/-- Dereference a pid in the object heap. -/
def heapGet (b : Board) (pid : Nat) : Option Pc :=
  (b.objs.find? (fun e => e.1 == pid)).map (·.2)

/-- Overwrite the piece data stored for a pid (an attribute mutation on the
Python object, visible through every reference to it). -/
def heapSet (b : Board) (pid : Nat) (pc : Pc) : Board :=
  { b with objs := b.objs.map (fun e => if e.1 == pid then (pid, pc) else e) }

/-- `by_piece['K'][color]`. -/
def Board.kOf (b : Board) : Color → Option Nat
  | .white => b.bpKw
  | .black => b.bpKb

def Board.setKOf (b : Board) : Color → Option Nat → Board
  | .white, v => { b with bpKw := v }
  | .black, v => { b with bpKb := v }

/-- `by_piece[kind][color]` for the non-king kinds (the king entry is not a
list in the source and is accessed through `Board.kOf`). -/
def Board.listOf (b : Board) (k : Kind) (c : Color) : List Nat :=
  match k with
  | .N => b.bpN.get c
  | .B => b.bpB.get c
  | .R => b.bpR.get c
  | .Q => b.bpQ.get c
  | .P => b.bpP.get c
  | .K => []

def Board.setListOf (b : Board) (k : Kind) (c : Color) (l : List Nat) : Board :=
  match k with
  | .N => { b with bpN := b.bpN.set c l }
  | .B => { b with bpB := b.bpB.set c l }
  | .R => { b with bpR := b.bpR.set c l }
  | .Q => { b with bpQ := b.bpQ.set c l }
  | .P => { b with bpP := b.bpP.set c l }
  | .K => b

/-- Python 2 floor division, raising `ZeroDivisionError` on a zero divisor. -/
def pyDivE (a c : Int) : Except Err Int :=
  if c = 0 then .error .divZero else .ok (Int.fdiv a c)

/-- Python `range(a, c, step)` for the steps `1` and `-1` used by the source. -/
def pyRange (a c step : Int) : List Int :=
  if step = 1 then (List.range (c - a).toNat).map (fun (i : Nat) => a + (i : Int))
  else if step = -1 then (List.range (a - c).toNat).map (fun (i : Nat) => a - (i : Int))
  else []

/-- `Board._test_rank_file`: note the source tests `rank > 8`, not `rank > 7`. -/
def testRankFile (rank file : Int) : Except Err Unit :=
  if file < 0 ∨ file > 7 ∨ rank < 0 ∨ rank > 8 then .error .invalidSquare else .ok ()

/-- `Board._rf_to_index`. -/
def rfToIndex (rank file : Int) : Except Err Int := do
  testRankFile rank file
  pure (file * 8 + rank)

/-- `Board._index_to_rf`. -/
def indexToRf (index : Int) : Except Err (Int × Int) :=
  if index < 0 ∨ index > 63 then .error .badIndex
  else .ok (Int.emod index 8, Int.fdiv index 8)

/-- Read `self.pieces[i]`; every live board has exactly 64 cells, and every
index produced by `rfToIndex` that is ≥ 64 raises IndexError in Python. -/
def cellIdx (b : Board) (i : Int) : Except Err (Option Nat) :=
  if 0 ≤ i ∧ i < 64 then .ok (b.cells.getD i.toNat none) else .error .indexError

/-- Write `self.pieces[i] = v`. -/
def setCellIdx (b : Board) (i : Int) (v : Option Nat) : Except Err Unit × Board :=
  if 0 ≤ i ∧ i < 64 then (.ok (), { b with cells := b.cells.set i.toNat v })
  else (.error .indexError, b)

/-- `Board.get` for a `(rank, file)` tuple position (the only form the modelled
call sites use). -/
def Board.get (b : Board) (pos : Int × Int) : Except Err (Option Nat) := do
  let i ← rfToIndex pos.1 pos.2
  cellIdx b i

/-- Direct view of a cell by rank and file, used to state properties (the
executable path through the code is `Board.get`). -/
def cellAt (b : Board) (r f : Int) : Option Nat :=
  (b.cells.getD (f * 8 + r).toNat none)

/-- `Board.put`: writes the array cell, then `piece.move(rank, file)`, then
updates `by_piece` — raising on a second king only after the first two writes. -/
def Board.put (b : Board) (pid : Nat) (pos : Int × Int) : Except Err Unit × Board :=
  match rfToIndex pos.1 pos.2 with
  | .error e => (.error e, b)
  | .ok i =>
    match heapGet b pid with
    | none => (.error .heapMiss, b)
    | some pc =>
      match setCellIdx b i (some pid) with
      | (.error e, b₁) => (.error e, b₁)
      | (.ok _, b₁) =>
        let b₂ := heapSet b₁ pid { pc with rank := some pos.1, file := some pos.2 }
        if pc.name = Kind.K then
          match b₂.kOf pc.color with
          | some _ => (.error .dupKing, b₂)
          | none => (.ok (), b₂.setKOf pc.color (some pid))
        else
          (.ok (), b₂.setListOf pc.name pc.color (b₂.listOf pc.name pc.color ++ [pid]))

/-- Remove the first occurrence (Python `list.remove`), raising if absent. -/
def removeFirst (pid : Nat) : List Nat → Except Err (List Nat)
  | [] => .error .notInList
  | x :: rest =>
    if x = pid then .ok rest
    else (removeFirst pid rest).map (fun l => x :: l)

/-- `Board.take`: clears the cell and nulls the piece's coordinates before the
king check, so a `kingRemoval` error leaves those writes in place. -/
def Board.take (b : Board) (pos : Int × Int) : Except Err Nat × Board :=
  match rfToIndex pos.1 pos.2 with
  | .error e => (.error e, b)
  | .ok i =>
    match cellIdx b i with
    | .error e => (.error e, b)
    | .ok pidOpt =>
      match setCellIdx b i none with
      | (.error e, b₁) => (.error e, b₁)
      | (.ok _, b₁) =>
        match pidOpt with
        | none => (.error .attrNone, b₁)
        | some pid =>
          match heapGet b₁ pid with
          | none => (.error .heapMiss, b₁)
          | some pc =>
            let b₂ := heapSet b₁ pid { pc with rank := none, file := none }
            if pc.name = Kind.K then (.error .kingRemoval, b₂)
            else
              match removeFirst pid (b₂.listOf pc.name pc.color) with
              | .error e => (.error e, b₂)
              | .ok l => (.ok pid, b₂.setListOf pc.name pc.color l)

/-- `Board.move`: relocates the piece at `src` to `dest`, returning whatever
was at `dest` (never removing it from `by_piece`). The source reads
`self.pieces[i2]` again after the two cell writes before calling `.move`. -/
def Board.move (b : Board) (src dest : Int × Int) : Except Err (Option Nat) × Board :=
  match rfToIndex src.1 src.2 with
  | .error e => (.error e, b)
  | .ok i1 =>
    match cellIdx b i1 with
    | .error e => (.error e, b)
    | .ok none => (.error .emptySource, b)
    | .ok (some _) =>
      match rfToIndex dest.1 dest.2 with
      | .error e => (.error e, b)
      | .ok i2 =>
        match cellIdx b i2 with
        | .error e => (.error e, b)
        | .ok captured =>
          match setCellIdx b i2 (cellIdx b i1).toOption.join with
          | (.error e, b₁) => (.error e, b₁)
          | (.ok _, b₁) =>
            match setCellIdx b₁ i1 none with
            | (.error e, b₂) => (.error e, b₂)
            | (.ok _, b₂) =>
              match cellIdx b₂ i2 with
              | .error e => (.error e, b₂)
              | .ok none => (.error .attrNone, b₂)
              | .ok (some mpid) =>
                match heapGet b₂ mpid with
                | none => (.error .heapMiss, b₂)
                | some mpc =>
                  (.ok captured,
                   heapSet b₂ mpid { mpc with rank := some dest.1, file := some dest.2 })

/-- `Piece.__init__`: allocate the object, set its fields, then `board.put`. -/
def mkPiece (b : Board) (k : Kind) (r f : Int) (c : Color) (idn : Int) :
    Except Err Nat × Board :=
  let pid := b.nextPid
  let pc : Pc := ⟨k, c, some r, some f, idn⟩
  let b₁ := { b with objs := b.objs ++ [(pid, pc)], nextPid := pid + 1 }
  match b₁.put pid (r, f) with
  | (.error e, b₂) => (.error e, b₂)
  | (.ok _, b₂) => (.ok pid, b₂)

/-- The encoding character for a piece (the `type(piece) ==` chain in
`Board.encode`; the trailing unknown-type raise is unreachable because the
kind type is closed). -/
def encChar (pc : Pc) : Char :=
  match pc.name, pc.color with
  | .R, .white => 'R'
  | .R, .black => 'r'
  | .N, .white => 'N'
  | .N, .black => 'n'
  | .B, .white => 'B'
  | .B, .black => 'b'
  | .Q, .white => 'Q'
  | .Q, .black => 'q'
  | .K, .white => 'K'
  | .K, .black => 'k'
  | .P, .white => 'P'
  | .P, .black => 'p'

/-- `Board.encode`: one character per cell in array order. -/
def Board.encode (b : Board) : Except Err String := do
  let cs ← b.cells.mapM (fun cell =>
    match cell with
    | none => pure 'x'
    | some pid =>
      match heapGet b pid with
      | some pc => pure (encChar pc)
      | none => Except.error Err.heapMiss)
  pure (String.mk cs)

/-- The characters `Board.decode` recognises as pieces. -/
def pieceChar (c : Char) : Bool :=
  c = 'R' ∨ c = 'r' ∨ c = 'N' ∨ c = 'n' ∨ c = 'B' ∨ c = 'b' ∨ c = 'Q' ∨ c = 'q' ∨
  c = 'K' ∨ c = 'k' ∨ c = 'P' ∨ c = 'p'

/-- The scan inside `Board.decode`: for every recognised piece character the
source invokes a piece constructor with four arguments, but every constructor
(after the `#DF: added id` change) requires a fifth `id` argument, so the call
raises `TypeError` before any piece is placed. Unrecognised characters
(including 'x') are skipped. -/
def decodeScan : Nat → List Char → Except Err Unit
  | _, [] => .ok ()
  | i, c :: rest => do
    let _ ← indexToRf (i : Int)
    if pieceChar c then Except.error Err.typeError
    else decodeScan (i + 1) rest

/-- `Board.decode`. A successful scan placed no piece, so the returned board
is the fresh `Board()` the method starts from. -/
def Board.decode (s : String) : Except Err Board := do
  decodeScan 0 s.toList
  pure emptyBoard

/-- The blocking loop shared by the sliding `reach` methods: walk the listed
squares, returning `false` at the first occupied one (the source initialises
`ret = True` and breaks with `ret = False`). -/
def allEmptyM (b : Board) : List (Int × Int) → Except Err Bool
  | [] => pure true
  | sq :: rest => do
    let o ← b.get sq
    if o = none then allEmptyM b rest else pure false

/-- `Pawn.reach`. The destination's own occupancy is never examined; the only
board read is the intermediate square of the two-square advance. -/
def pawnReach (b : Board) (c : Color) (sr sf : Int) (r f : Int) (capture : Bool) :
    Except Err Bool := do
  match c with
  | .white => do
    let fwd ←
      if ¬capture ∧ sf = f then
        if sr = r - 1 then pure true
        else if sr = 1 ∧ r = 3 then do
          let o ← b.get (2, f)
          pure (decide (o = none))
        else pure false
      else pure false
    if fwd then pure true
    else pure (decide (capture ∧ |sf - f| = 1 ∧ r - sr = 1))
  | .black => do
    let fwd ←
      if ¬capture ∧ sf = f then
        if sr = r + 1 then pure true
        else if sr = 6 ∧ r = 4 then do
          let o ← b.get (5, f)
          pure (decide (o = none))
        else pure false
      else pure false
    if fwd then pure true
    else pure (decide (capture ∧ |sf - f| = 1 ∧ sr - r = 1))

/-- `Knight.reach`. -/
def knightReach (sr sf : Int) (r f : Int) : Except Err Bool :=
  pure ((|sr - r| = 2 ∧ |sf - f| = 1) ∨ (|sr - r| = 1 ∧ |sf - f| = 2))

/-- `King.reach`. -/
def kingReach (sr sf : Int) (r f : Int) : Except Err Bool :=
  pure (|sr - r| ≤ 1 ∧ |sf - f| ≤ 1)

/-- `Rook.reach`: on a shared file or rank, walk the strictly-between squares;
the step `(r - self.rank) / abs(r - self.rank)` raises ZeroDivisionError when
the target square is the rook's own square. -/
def rookReach (b : Board) (sr sf : Int) (r f : Int) : Except Err Bool :=
  if sf = f then do
    let step ← pyDivE (r - sr) |r - sr|
    allEmptyM b ((pyRange (sr + step) r step).map (fun i => (i, f)))
  else if sr = r then do
    let step ← pyDivE (f - sf) |f - sf|
    allEmptyM b ((pyRange (sf + step) f step).map (fun i => (r, i)))
  else pure false

/-- `Bishop.reach`: the `max(1, ...)` denominators avoid division by zero, so
the bishop's own square falls through to an empty walk and returns `True`. -/
def bishopReach (b : Board) (sr sf : Int) (r f : Int) : Except Err Bool :=
  if |sr - r| = |sf - f| then
    let rFact := Int.fdiv (r - sr) (max 1 |r - sr|)
    let fFact := Int.fdiv (f - sf) (max 1 |f - sf|)
    allEmptyM b ((pyRange 1 |r - sr| 1).map (fun i => (sr + i * rFact, sf + i * fFact)))
  else pure false

/-- `Queen.reach`: the rook branches followed by the bishop branch. -/
def queenReach (b : Board) (sr sf : Int) (r f : Int) : Except Err Bool :=
  if sf = f then do
    let step ← pyDivE (r - sr) |r - sr|
    allEmptyM b ((pyRange (sr + step) r step).map (fun i => (i, f)))
  else if sr = r then do
    let step ← pyDivE (f - sf) |f - sf|
    allEmptyM b ((pyRange (sf + step) f step).map (fun i => (r, i)))
  else if |sr - r| = |sf - f| then
    let rFact := Int.fdiv (r - sr) (max 1 |r - sr|)
    let fFact := Int.fdiv (f - sf) (max 1 |f - sf|)
    allEmptyM b ((pyRange 1 |r - sr| 1).map (fun i => (sr + i * rFact, sf + i * fFact)))
  else pure false

/-- `piece.reach(rf, capture)`: dispatch on the object's class. A removed
piece (coordinates `None`) raises `TypeError` in the arithmetic of most kinds;
that state is unreachable for pieces still indexed on the board. -/
def reachPc (b : Board) (pc : Pc) (dest : Int × Int) (capture : Bool) : Except Err Bool :=
  match pc.rank, pc.file with
  | some sr, some sf =>
    match pc.name with
    | .P => pawnReach b pc.color sr sf dest.1 dest.2 capture
    | .N => knightReach sr sf dest.1 dest.2
    | .B => bishopReach b sr sf dest.1 dest.2
    | .R => rookReach b sr sf dest.1 dest.2
    | .Q => queenReach b sr sf dest.1 dest.2
    | .K => kingReach sr sf dest.1 dest.2
  | _, _ => .error .typeError

/-- Locate the king of a color and its coordinates: `by_piece['K'][color]` is
`None` (AttributeError on use) when that king was never placed. -/
def kingCoords (b : Board) (c : Color) : Except Err (Nat × Int × Int) :=
  match b.kOf c with
  | none => .error .attrNone
  | some kpid =>
    match heapGet b kpid with
    | none => .error .heapMiss
    | some kpc =>
      match kpc.rank, kpc.file with
      | some kr, some kf => .ok (kpid, kr, kf)
      | _, _ => .error .typeError

/-- The scan loop of the `pinned` methods: remember the first blocker, and
reset to `None` and break at a second one. -/
def pinScanM (b : Board) : List (Int × Int) → Option Nat → Except Err (Option Nat)
  | [], acc => pure acc
  | sq :: rest, acc => do
    let blocker ← b.get sq
    match blocker, acc with
    | some pid, none => pinScanM b rest (some pid)
    | some _, some _ => pure none
    | none, _ => pinScanM b rest acc

/-- `Rook.pinned`: walk from the rook toward the enemy king along a shared
file or rank. -/
def rookPinned (b : Board) (qc : Color) (qr qf : Int) : Except Err (Option Nat) := do
  let (_, kr, kf) ← kingCoords b qc.other
  if qf = kf then do
    let step ← pyDivE (kr - qr) |kr - qr|
    pinScanM b ((pyRange (qr + step) kr step).map (fun i => (i, kf))) none
  else if qr = kr then do
    let step ← pyDivE (kf - qf) |kf - qf|
    pinScanM b ((pyRange (qf + step) kf step).map (fun i => (kr, i))) none
  else pure none

/-- `Bishop.pinned`: walk from the bishop toward the enemy king along a shared
diagonal. -/
def bishopPinned (b : Board) (qc : Color) (qr qf : Int) : Except Err (Option Nat) := do
  let (_, kr, kf) ← kingCoords b qc.other
  if |qr - kr| = |qf - kf| then
    let rFact := Int.fdiv (kr - qr) (max 1 |kr - qr|)
    let fFact := Int.fdiv (kf - qf) (max 1 |kf - qf|)
    pinScanM b ((pyRange 1 |kr - qr| 1).map (fun i => (qr + i * rFact, qf + i * fFact))) none
  else pure none

/-- `Queen.pinned`: the rook walks followed by the bishop walk. -/
def queenPinned (b : Board) (qc : Color) (qr qf : Int) : Except Err (Option Nat) := do
  let (_, kr, kf) ← kingCoords b qc.other
  if qf = kf then do
    let step ← pyDivE (kr - qr) |kr - qr|
    pinScanM b ((pyRange (qr + step) kr step).map (fun i => (i, kf))) none
  else if qr = kr then do
    let step ← pyDivE (kf - qf) |kf - qf|
    pinScanM b ((pyRange (qf + step) kf step).map (fun i => (kr, i))) none
  else if |qr - kr| = |qf - kf| then
    let rFact := Int.fdiv (kr - qr) (max 1 |kr - qr|)
    let fFact := Int.fdiv (kf - qf) (max 1 |kf - qf|)
    pinScanM b ((pyRange 1 |kr - qr| 1).map (fun i => (qr + i * rFact, qf + i * fFact))) none
  else pure none

/-- `piece.pinned()`: dispatch on the object's class; the base `Piece.pinned`
returns `[]`, which the callers only test for truthiness, so it is modelled as
no pinnee. A slider with `None` coordinates compares them unequal to the
king's and finds no pinnee; modelled through the same `pure none` after the
king lookup the source performs. -/
def piecePinned (b : Board) (pc : Pc) : Except Err (Option Nat) :=
  match pc.name with
  | .R =>
    match pc.rank, pc.file with
    | some qr, some qf => rookPinned b pc.color qr qf
    | _, _ => do
      let _ ← kingCoords b pc.color.other
      pure none
  | .B =>
    match pc.rank, pc.file with
    | some qr, some qf => bishopPinned b pc.color qr qf
    | _, _ => do
      let _ ← kingCoords b pc.color.other
      pure none
  | .Q =>
    match pc.rank, pc.file with
    | some qr, some qf => queenPinned b pc.color qr qf
    | _, _ => do
      let _ ← kingCoords b pc.color.other
      pure none
  | _ => pure none

/-- The sign idiom `x / max(1, abs(x))` used by `_get_pinned` (Python 2 floor
division; exact because the denominator is `abs(x)` whenever `x ≠ 0`). -/
def signIdiom (x : Int) : Int := Int.fdiv x (max 1 |x|)

/-- The rook paragraph of `Board._get_pinned`: a discovered pinnee is added
unless the move destination stays on the rank/file line of the pin. -/
def scanRooks (b : Board) (rank file : Int) : List Nat → List Nat → Except Err (List Nat)
  | [], acc => pure acc
  | pid :: rest, acc => do
    match heapGet b pid with
    | none => .error .heapMiss
    | some pc => do
      let pinnee ← piecePinned b pc
      match pinnee with
      | none => scanRooks b rank file rest acc
      | some pn => do
        let (_, kr, kf) ← kingCoords b b.toPlay
        match pc.rank, pc.file with
        | some qr, some qf =>
          if (qr = kr ∧ rank ≠ kr) ∨ (qf = kf ∧ file ≠ kf) then
            scanRooks b rank file rest (acc.insert pn)
          else scanRooks b rank file rest acc
        | _, _ => .error .typeError

/-- The bishop paragraph of `Board._get_pinned`: the destination is off the
pin line when it is not on the king's diagonal or the two floor-division sign
tests disagree; capturing the pinning piece itself is excluded first. -/
def scanBishops (b : Board) (rank file : Int) : List Nat → List Nat → Except Err (List Nat)
  | [], acc => pure acc
  | pid :: rest, acc => do
    match heapGet b pid with
    | none => .error .heapMiss
    | some pc => do
      let pinnee ← piecePinned b pc
      match pinnee with
      | none => scanBishops b rank file rest acc
      | some pn => do
        let (_, kr, kf) ← kingCoords b b.toPlay
        match pc.rank, pc.file with
        | some qr, some qf =>
          if ¬(rank = qr ∧ file = qf) ∧
             (|rank - kr| ≠ |file - kf| ∨
              signIdiom (rank - kr) ≠ signIdiom (qr - rank) ∨
              signIdiom (file - kf) ≠ signIdiom (qf - file)) then
            scanBishops b rank file rest (acc.insert pn)
          else scanBishops b rank file rest acc
        | _, _ => .error .typeError

/-- The queen paragraph of `Board._get_pinned`: the rook line tests, else the
bishop diagonal tests guarded by the queen being on neither line. -/
def scanQueens (b : Board) (rank file : Int) : List Nat → List Nat → Except Err (List Nat)
  | [], acc => pure acc
  | pid :: rest, acc => do
    match heapGet b pid with
    | none => .error .heapMiss
    | some pc => do
      let pinnee ← piecePinned b pc
      match pinnee with
      | none => scanQueens b rank file rest acc
      | some pn => do
        let (_, kr, kf) ← kingCoords b b.toPlay
        match pc.rank, pc.file with
        | some qr, some qf =>
          if ¬(rank = qr ∧ file = qf) ∧
             ((qr = kr ∧ rank ≠ kr) ∨ (qf = kf ∧ file ≠ kf) ∨
              ((qr ≠ kr ∧ qf ≠ kf) ∧
               (|rank - kr| ≠ |file - kf| ∨
                signIdiom (rank - kr) ≠ signIdiom (qr - rank) ∨
                signIdiom (file - kf) ≠ signIdiom (qf - file)))) then
            scanQueens b rank file rest (acc.insert pn)
          else scanQueens b rank file rest acc
        | _, _ => .error .typeError

/-- `Board._get_pinned`: one shared set accumulated over the opponent's rooks,
bishops and queens. -/
def getPinned (b : Board) (dest : Int × Int) : Except Err (List Nat) := do
  let acc₁ ← scanRooks b dest.1 dest.2 (b.bpR.get b.toPlay.other) []
  let acc₂ ← scanBishops b dest.1 dest.2 (b.bpB.get b.toPlay.other) acc₁
  scanQueens b dest.1 dest.2 (b.bpQ.get b.toPlay.other) acc₂

/-- The candidate loops of `Board._find_piece`: first list entry (registration
order) passing the disambiguation filter, `reach`, and non-membership in the
pinned set. -/
def findLoop (b : Board) (dest : Int × Int) (capture : Bool) (pinned : List Nat)
    (pre : Pc → Bool) : List Nat → Except Err (Option Nat)
  | [] => pure none
  | pid :: rest => do
    match heapGet b pid with
    | none => .error .heapMiss
    | some pc =>
      if pre pc then do
        let rb ← reachPc b pc dest capture
        if rb ∧ ¬(pid ∈ pinned) then pure (some pid)
        else findLoop b dest capture pinned pre rest
      else findLoop b dest capture pinned pre rest

/-- `Board._find_piece`. A digit modifier disambiguates by rank (`int(...)`
succeeds), any other character by file (`ord(...) - 97`); the identifier check
uses Python truthiness, so a parsed 0 is never rejected. Kings bypass the pin
set entirely. -/
def findPiece (b : Board) (src : Kind) (dest : Int × Int) (modifier : Option Char)
    (capture : Bool) : Except Err (Option Nat) := do
  let rk : Option Int :=
    match modifier with
    | some c => if c.isDigit then some ((c.toNat : Int) - 48 - 1) else none
    | none => none
  let fl : Option Int :=
    match modifier with
    | some c => if c.isDigit then none else some ((c.toNat : Int) - 97)
    | none => none
  if (match rk with | some v => decide (v ≠ 0 ∧ (v < 0 ∨ v > 7)) | none => false) ||
     (match fl with | some v => decide (v ≠ 0 ∧ (v < 0 ∨ v > 7)) | none => false) then
    .error .badIdentifier
  else if src ≠ Kind.K then do
    let pinned ← getPinned b dest
    match rk, fl with
    | some rank, _ =>
      findLoop b dest capture pinned (fun pc => pc.rank = some rank) (b.listOf src b.toPlay)
    | none, some file =>
      findLoop b dest capture pinned (fun pc => pc.file = some file) (b.listOf src b.toPlay)
    | none, none =>
      findLoop b dest capture pinned (fun _ => true) (b.listOf src b.toPlay)
  else
    match b.kOf b.toPlay with
    | none => .error .attrNone
    | some kpid =>
      match heapGet b kpid with
      | none => .error .heapMiss
      | some kpc => do
        let rb ← reachPc b kpc dest capture
        pure (if rb then some kpid else none)

/-- The six capture groups of a successful `_move_pattern` match. -/
structure PM where
  g1 : Option Char
  g2 : Option Char
  g3 : Bool
  d1 : Char
  d2 : Char
  g5 : Option Char
  g6 : Bool
deriving Repr, DecidableEq

/-- Group 6, `(\+)?`: present iff the next character is '+'. -/
def tailChk : List Char → Bool
  | '+' :: _ => true
  | _ => false

/-- Groups 5 and 6, `(=[NBRQ])?(\+)?`; everything after them is unanchored
trailing text `re.match` ignores. -/
def parseTail : List Char → Option Char × Bool
  | '=' :: c :: rest =>
    if c = 'N' ∨ c = 'B' ∨ c = 'R' ∨ c = 'Q' then (some c, tailChk rest)
    else (none, tailChk ('=' :: c :: rest))
  | l => (none, tailChk l)

/-- Group 4, `([a-h][1-8])`, the only mandatory group. -/
def tryG4 (g1 g2 : Option Char) (cap : Bool) : List Char → Option PM
  | a :: c :: rest =>
    if ('a' ≤ a ∧ a ≤ 'h') ∧ ('1' ≤ c ∧ c ≤ '8') then
      let t := parseTail rest
      some ⟨g1, g2, cap, a, c, t.1, t.2⟩
    else none
  | _ => none

/-- Group 3, `(x?)`: greedily consume an 'x', backtracking if the destination
then fails to match. -/
def withG3 (g1 g2 : Option Char) (l : List Char) : Option PM :=
  match l with
  | 'x' :: rest => (tryG4 g1 g2 true rest).orElse (fun _ => tryG4 g1 g2 false l)
  | _ => tryG4 g1 g2 false l

/-- The character class `[1-h1-8]` of group 2: every character between '1' and
'h' (the `1-8` alternative is subsumed by `1-h`). -/
def inG2Class (c : Char) : Bool := decide ('1' ≤ c ∧ c ≤ 'h')

/-- Group 2, `([1-h1-8]?)`, greedy with backtracking. -/
def withG2 (g1 : Option Char) (l : List Char) : Option PM :=
  match l with
  | c :: rest =>
    if inG2Class c then (withG3 g1 (some c) rest).orElse (fun _ => withG3 g1 none l)
    else withG3 g1 none l
  | [] => withG3 g1 none []

def inG1Class (c : Char) : Bool :=
  c = 'R' ∨ c = 'N' ∨ c = 'B' ∨ c = 'Q' ∨ c = 'K'

/-- `Board._move_pattern.match(move)`: anchored at the start, leftmost-greedy
with backtracking, trailing characters ignored. -/
def parseMove (s : String) : Option PM :=
  match s.toList with
  | c :: rest =>
    if inG1Class c then (withG2 (some c) rest).orElse (fun _ => withG2 none (c :: rest))
    else withG2 none (c :: rest)
  | [] => withG2 none []

/-- The `by_piece` key for a parsed kind letter; an absent group 1 defaults to
the pawn key 'P'. -/
def kindOfLetter (c : Char) : Kind :=
  if c = 'R' then .R
  else if c = 'N' then .N
  else if c = 'B' then .B
  else if c = 'Q' then .Q
  else if c = 'K' then .K
  else .P

/-- The `by_piece` key of a parsed move (`src`; a missing group 1 defaults to
the pawn key). -/
def pmSrc (pm : PM) : Kind :=
  match pm.g1 with
  | some c => kindOfLetter c
  | none => Kind.P

/-- The destination rank of a parsed move (`_position_to_rf`, second char). -/
def pmRank (pm : PM) : Int := (pm.d2.toNat : Int) - 48 - 1

/-- The destination file of a parsed move (`_position_to_rf`, first char). -/
def pmFile (pm : PM) : Int := (pm.d1.toNat : Int) - 97

/-- The en-passant detection block of `movePGN`: computes `capture_rank`
(the rank of the actually-captured pawn) and raises `ImpossibleCapture` for a
declared capture onto an empty square that does not match the current
en-passant target with a pawn mover. -/
def epCaptureRank (b : Board) (pm : PM) : Except Err Int :=
  if pm.g3 then do
    let i ← rfToIndex (pmRank pm) (pmFile pm)
    let dc ← cellIdx b i
    if dc = none then
      match b.ep with
      | some (e0, e1, e2) =>
        if pmSrc pm = Kind.P ∧ pmRank pm = e0 ∧ pmFile pm = e1 then pure e2
        else Except.error Err.impossibleCapture
      | none => Except.error Err.impossibleCapture
    else pure (pmRank pm)
  else pure (pmRank pm)

/-- The capture-removal step of `movePGN`: `take((capture_rank, file))` when a
capture was declared. -/
def capturePhase (b : Board) (pm : PM) (cr : Int) : Except Err Board :=
  if pm.g3 then
    match b.take (cr, pmFile pm) with
    | (.error e, _) => Except.error e
    | (.ok _, b') => pure b'
  else pure b

/-- The en-passant target update of `movePGN`: set to the jumped square (plus
the landing rank) on a pawn's two-square advance, cleared otherwise. -/
def epUpdate (b₁ : Board) (pc : Pc) (rank file : Int) : Except Err Board :=
  if pc.name = Kind.P ∧ pc.file = some file then
    match pc.rank with
    | none => Except.error Err.typeError
    | some pr =>
      if |pr - rank| = 2 then
        pure { b₁ with ep := some (rank + Int.fdiv (pr - rank) 2, file, rank) }
      else pure { b₁ with ep := none }
  else pure { b₁ with ep := none }

/-- The relocation-or-promotion step of `movePGN`: a plain `move`, or (for a
promotion suffix) `take` of the pawn and construction of the promoted piece,
whose `id` is the current length of the promoted kind's list and whose color
is the side to move at entry (`toPlay0`). -/
def relocateOrPromote (b₂ : Board) (pc : Pc) (pm : PM) (toPlay0 : Color) : Except Err Board :=
  match pm.g5 with
  | none =>
    match pc.rank, pc.file with
    | some pr, some pf =>
      match b₂.move (pr, pf) (pmRank pm, pmFile pm) with
      | (.error e, _) => Except.error e
      | (.ok _, b') => pure b'
    | _, _ => Except.error Err.invalidSquare
  | some promoC =>
    match pc.rank, pc.file with
    | some pr, some pf =>
      match b₂.take (pr, pf) with
      | (.error e, _) => Except.error e
      | (.ok _, b') =>
        let k : Option Kind :=
          if promoC = 'N' then some .N
          else if promoC = 'B' then some .B
          else if promoC = 'R' then some .R
          else if promoC = 'Q' then some .Q
          else none
        match k with
        | none => Except.error Err.promotionInvalid
        | some k =>
          let cnt : Int := (b'.listOf k pc.color).length
          match mkPiece b' k (pmRank pm) (pmFile pm) toPlay0 cnt with
          | (.error e, _) => Except.error e
          | (.ok _, b'') => pure b''
    | _, _ => Except.error Err.invalidSquare

/-- The regex-branch body of `Board.movePGN`, from en-passant detection up to
and including the turn toggle (the post-move check validation and the check
flag update follow it in `movePGNParsed`). -/
def applyParsedCore (b : Board) (pm : PM) : Except Err Board := do
  let cr ← epCaptureRank b pm
  let pieceOpt ← findPiece b (pmSrc pm) (pmRank pm, pmFile pm) pm.g2 pm.g3
  match pieceOpt with
  | none => Except.error Err.illegalMove
  | some pid => do
    let b₁ ← capturePhase b pm cr
    match heapGet b₁ pid with
    | none => Except.error Err.heapMiss
    | some pc => do
      let b₂ ← epUpdate b₁ pc (pmRank pm) (pmFile pm)
      let b₃ ← relocateOrPromote b₂ pc pm b.toPlay
      pure { b₃ with toPlay := b₃.toPlay.other }

/-- One inner loop of the post-move check validation: raise on the first piece
of the list that can reach the checked king's square as a capture. -/
def scanReachList (b : Board) (c : Color) : List Nat → Except Err Unit
  | [] => pure ()
  | pid :: rest => do
    match heapGet b pid with
    | none => Except.error Err.heapMiss
    | some pc => do
      let (_, kr, kf) ← kingCoords b c
      let rb ← reachPc b pc (kr, kf) true
      if rb then Except.error Err.checkNotResolved else scanReachList b c rest

/-- The post-move check validation of `movePGN`: if the check flag is set,
scan every non-king list of the side now to move against the flagged color's
king. The king's coordinates are only dereferenced per scanned piece, as in
the source's loop body. -/
def checkValidate (b : Board) : Except Err Unit :=
  match b.chk with
  | none => pure ()
  | some c => do
    scanReachList b c (b.listOf .N b.toPlay)
    scanReachList b c (b.listOf .B b.toPlay)
    scanReachList b c (b.listOf .R b.toPlay)
    scanReachList b c (b.listOf .Q b.toPlay)
    scanReachList b c (b.listOf .P b.toPlay)

/-- The final check-flag update of the regex branch: the declared check marker
is recorded against the side now to move, with no verification. -/
def setCheckFlag (b : Board) (mark : Bool) : Board :=
  if mark then { b with chk := some b.toPlay } else { b with chk := none }

/-- The whole regex branch of `Board.movePGN`. -/
def movePGNParsed (b : Board) (pm : PM) : Except Err Board := do
  let b₁ ← applyParsedCore b pm
  checkValidate b₁
  pure (setCheckFlag b₁ pm.g6)

/-- Kind of the piece on a cell (`type(self.pieces[idx]) == ...` comparisons;
`None` yields no kind). -/
def cellKindIs (b : Board) (r f : Int) (k : Kind) : Except Err Bool := do
  let i ← rfToIndex r f
  let o ← cellIdx b i
  match o with
  | none => pure false
  | some pid =>
    match heapGet b pid with
    | none => Except.error Err.heapMiss
    | some pc => pure (decide (pc.name = k))

def cellEmpty (b : Board) (r f : Int) : Except Err Bool := do
  let i ← rfToIndex r f
  let o ← cellIdx b i
  pure (decide (o = none))

/-- The `O-O-O` branch of `movePGN`: fixed-square kind tests and emptiness
tests (no color or attack validation), two `Board.move` calls, turn toggle,
and the check flag set purely from the trailing '+'. The en-passant target is
not touched. -/
def castleQueenside (b : Board) (plus : Bool) : Except Err Board := do
  let wk ← cellKindIs b 0 4 .K
  let wr ← cellKindIs b 0 0 .R
  let w1 ← cellEmpty b 0 1
  let w2 ← cellEmpty b 0 2
  let w3 ← cellEmpty b 0 3
  let bk ← cellKindIs b 7 4 .K
  let br ← cellKindIs b 7 0 .R
  let b1 ← cellEmpty b 7 1
  let b2 ← cellEmpty b 7 2
  let b3 ← cellEmpty b 7 3
  let b₁ ←
    if decide (b.toPlay = .white) && wk && wr && w1 && w2 && w3 then
      match b.move (0, 0) (0, 3) with
      | (.error e, _) => Except.error e
      | (.ok _, bA) =>
        match bA.move (0, 4) (0, 2) with
        | (.error e, _) => Except.error e
        | (.ok _, bB) => pure bB
    else if decide (b.toPlay = .black) && bk && br && b1 && b2 && b3 then
      match b.move (7, 0) (7, 3) with
      | (.error e, _) => Except.error e
      | (.ok _, bA) =>
        match bA.move (7, 4) (7, 2) with
        | (.error e, _) => Except.error e
        | (.ok _, bB) => pure bB
    else Except.error Err.castleImpossible
  let b₂ := { b₁ with toPlay := b₁.toPlay.other }
  pure (if plus then { b₂ with chk := some b₂.toPlay } else { b₂ with chk := none })

/-- The `O-O` branch of `movePGN`, symmetric to `castleQueenside`. -/
def castleKingside (b : Board) (plus : Bool) : Except Err Board := do
  let wk ← cellKindIs b 0 4 .K
  let wr ← cellKindIs b 0 7 .R
  let w1 ← cellEmpty b 0 5
  let w2 ← cellEmpty b 0 6
  let bk ← cellKindIs b 7 4 .K
  let br ← cellKindIs b 7 7 .R
  let b1 ← cellEmpty b 7 5
  let b2 ← cellEmpty b 7 6
  let b₁ ←
    if decide (b.toPlay = .white) && wk && wr && w1 && w2 then
      match b.move (0, 7) (0, 5) with
      | (.error e, _) => Except.error e
      | (.ok _, bA) =>
        match bA.move (0, 4) (0, 6) with
        | (.error e, _) => Except.error e
        | (.ok _, bB) => pure bB
    else if decide (b.toPlay = .black) && bk && br && b1 && b2 then
      match b.move (7, 7) (7, 5) with
      | (.error e, _) => Except.error e
      | (.ok _, bA) =>
        match bA.move (7, 4) (7, 6) with
        | (.error e, _) => Except.error e
        | (.ok _, bB) => pure bB
    else Except.error Err.castleImpossible
  let b₂ := { b₁ with toPlay := b₁.toPlay.other }
  pure (if plus then { b₂ with chk := some b₂.toPlay } else { b₂ with chk := none })

/-- `move[-1] == '+'` for the castle branches. -/
def lastIsPlus (s : String) : Bool :=
  match s.toList.getLast? with
  | some '+' => true
  | _ => false

/-- `p` is a prefix of the character list (Python `str.startswith`). -/
def listPrefix : List Char → List Char → Bool
  | [], _ => true
  | _ :: _, [] => false
  | a :: as, c :: cs => a = c && listPrefix as cs

/-- Python `move.startswith(p)`. -/
def strStarts (p s : String) : Bool := listPrefix p.toList s.toList

/-- `Board.movePGN`: the regex branch, else the two castle prefixes, else
'Bad move definition'. -/
def movePGN (b : Board) (m : String) : Except Err Board :=
  match parseMove m with
  | some pm => movePGNParsed b pm
  | none =>
    if strStarts "O-O-O" m then castleQueenside b (lastIsPlus m)
    else if strStarts "O-O" m then castleKingside b (lastIsPlus m)
    else Except.error Err.badNotation

/-- `Board.set_to_play`. -/
def Board.setToPlay (b : Board) (c : Color) : Board := { b with toPlay := c }

/-! ### Evaluation lemmas for the square primitives -/

theorem testRankFile_ok {r f : Int} (hr : 0 ≤ r) (hr8 : r ≤ 8) (hf : 0 ≤ f) (hf7 : f ≤ 7) :
    testRankFile r f = .ok () := by
  unfold testRankFile
  rw [if_neg]
  omega

theorem rfToIndex_ok {r f : Int} (hr : 0 ≤ r) (hr8 : r ≤ 8) (hf : 0 ≤ f) (hf7 : f ≤ 7) :
    rfToIndex r f = .ok (f * 8 + r) := by
  unfold rfToIndex
  rw [testRankFile_ok hr hr8 hf hf7]
  rfl

theorem cellIdx_ok {b : Board} {i : Int} (h0 : 0 ≤ i) (h64 : i < 64) :
    cellIdx b i = .ok (b.cells.getD i.toNat none) := by
  unfold cellIdx
  rw [if_pos ⟨h0, h64⟩]

theorem get_ok {b : Board} {r f : Int}
    (hr : 0 ≤ r) (hr7 : r ≤ 7) (hf : 0 ≤ f) (hf7 : f ≤ 7) :
    Board.get b (r, f) = .ok (cellAt b r f) := by
  unfold Board.get
  rw [rfToIndex_ok hr (by omega) hf hf7]
  show cellIdx b (f * 8 + r) = _
  rw [cellIdx_ok (by omega) (by omega)]
  rfl

theorem pyRange_one_eq (a c : Int) :
    pyRange a c 1 = (List.range (c - a).toNat).map (fun (i : Nat) => a + (i : Int)) := by
  simp [pyRange]

theorem pyRange_negone_eq (a c : Int) :
    pyRange a c (-1) = (List.range (a - c).toNat).map (fun (i : Nat) => a - (i : Int)) := by
  simp [pyRange]

theorem mem_pyRange_one {a c x : Int} : x ∈ pyRange a c 1 ↔ a ≤ x ∧ x < c := by
  rw [pyRange_one_eq]
  simp only [List.mem_map, List.mem_range]
  constructor
  · rintro ⟨i, hi, rfl⟩
    omega
  · rintro ⟨h₁, h₂⟩
    exact ⟨(x - a).toNat, by omega, by omega⟩

theorem mem_pyRange_negone {a c x : Int} : x ∈ pyRange a c (-1) ↔ c < x ∧ x ≤ a := by
  rw [pyRange_negone_eq]
  simp only [List.mem_map, List.mem_range]
  constructor
  · rintro ⟨i, hi, rfl⟩
    omega
  · rintro ⟨h₁, h₂⟩
    exact ⟨(a - x).toNat, by omega, by omega⟩

theorem fdiv_abs_sign {x : Int} (h : x ≠ 0) : x.fdiv |x| = Int.sign x := by
  rcases lt_trichotomy x 0 with hx | hx | hx
  · rw [abs_of_neg hx, Int.sign_eq_neg_one_of_neg hx]
    have h2 : x = -1 * -x := by ring
    nth_rewrite 1 [h2]
    exact Int.mul_fdiv_cancel _ (by omega)
  · omega
  · rw [abs_of_pos hx, Int.sign_eq_one_of_pos hx]
    have h2 : x = 1 * x := by ring
    nth_rewrite 1 [h2]
    exact Int.mul_fdiv_cancel _ (by omega)

theorem except_bind_ok {ε α β : Type} (a : α) (f : α → Except ε β) :
    (Except.ok a >>= f : Except ε β) = f a := rfl

theorem except_pure {ε α : Type} (a : α) : (pure a : Except ε α) = Except.ok a := rfl

theorem one_le_abs_of_ne {x : Int} (h : x ≠ 0) : 1 ≤ |x| := by
  rcases lt_trichotomy x 0 with hx | hx | hx
  · rw [abs_of_neg hx]; omega
  · omega
  · rw [abs_of_pos hx]; omega

theorem pyDivE_abs {x : Int} (h : x ≠ 0) : pyDivE x |x| = .ok (Int.sign x) := by
  unfold pyDivE
  rw [if_neg (by simpa using h), fdiv_abs_sign h]

/-- `x / max(1, abs(x))` computes `sign(x)`, including at `x = 0`. -/
theorem signIdiom_eq_sign (x : Int) : signIdiom x = Int.sign x := by
  unfold signIdiom
  rcases eq_or_ne x 0 with rfl | h
  · rfl
  · rw [max_eq_right (one_le_abs_of_ne h), fdiv_abs_sign h]

/-- The same computation with `max 1 |x|` in `Int.fdiv` form, as it appears in
the diagonal `reach`/`pinned` walks. -/
theorem fdiv_max_sign (x : Int) : Int.fdiv x (max 1 |x|) = Int.sign x :=
  signIdiom_eq_sign x

/-- The sliding-walk loop evaluates without error over in-range squares and
computes the conjunction of per-square emptiness. -/
theorem allEmptyM_ok {b : Board} :
    ∀ {l : List (Int × Int)},
      (∀ sq ∈ l, 0 ≤ sq.1 ∧ sq.1 ≤ 7 ∧ 0 ≤ sq.2 ∧ sq.2 ≤ 7) →
      allEmptyM b l = .ok (l.all (fun sq => decide (cellAt b sq.1 sq.2 = none))) := by
  intro l
  induction l with
  | nil => intro _; rfl
  | cons sq rest ih =>
    intro h
    have hsq := h sq (List.mem_cons_self _ _)
    have hrest := fun x hx => h x (List.mem_cons_of_mem _ hx)
    unfold allEmptyM
    rw [show b.get sq = .ok (cellAt b sq.1 sq.2) from
      get_ok hsq.1 hsq.2.1 hsq.2.2.1 hsq.2.2.2]
    by_cases hc : cellAt b sq.1 sq.2 = none
    · simp [except_bind_ok, except_pure, hc, ih hrest]
    · simp [except_bind_ok, except_pure, hc]

/-- The value the `pinned` scan loop computes from the accumulator and the
occupied squares it will visit. -/
def soleOcc : Option Nat → List Nat → Option Nat
  | none, [x] => some x
  | none, _ => none
  | some a, [] => some a
  | some _, _ => none

theorem soleOcc_shift (p : Nat) (t : List Nat) : soleOcc none (p :: t) = soleOcc (some p) t := by
  cases t <;> rfl

/-- The `pinned` scan loop evaluates without error over in-range squares and
returns the unique blocker, if exactly one square on the walk is occupied. -/
theorem pinScanM_ok {b : Board} :
    ∀ {l : List (Int × Int)} (acc : Option Nat),
      (∀ sq ∈ l, 0 ≤ sq.1 ∧ sq.1 ≤ 7 ∧ 0 ≤ sq.2 ∧ sq.2 ≤ 7) →
      pinScanM b l acc =
        .ok (soleOcc acc (l.filterMap (fun sq => cellAt b sq.1 sq.2))) := by
  intro l
  induction l with
  | nil =>
    intro acc _
    cases acc <;> rfl
  | cons sq rest ih =>
    intro acc h
    have hsq := h sq (List.mem_cons_self _ _)
    have hrest := fun x hx => h x (List.mem_cons_of_mem _ hx)
    unfold pinScanM
    rw [show b.get sq = .ok (cellAt b sq.1 sq.2) from
      get_ok hsq.1 hsq.2.1 hsq.2.2.1 hsq.2.2.2]
    rcases hoc : cellAt b sq.1 sq.2 with _ | p
    · simpa [except_bind_ok, except_pure, hoc] using ih acc hrest
    · cases acc with
      | none => simp [except_bind_ok, except_pure, hoc, ih (some p) hrest, soleOcc_shift]
      | some a => simp [except_bind_ok, except_pure, hoc, soleOcc]

/-- A square strictly between two aligned squares `a` and `c` (file, rank or
diagonal line): `a + t·step` for `0 < t < distance`. -/
def SBetween (a c x : Int × Int) : Prop :=
  ∃ t : Int, 0 < t ∧ t < max |c.1 - a.1| |c.2 - a.2| ∧
    x.1 = a.1 + t * Int.sign (c.1 - a.1) ∧ x.2 = a.2 + t * Int.sign (c.2 - a.2)

/-- Every square strictly between `a` and `c` is empty: the spec's "blocked by
the first occupied square in the path" condition for an aligned pair. -/
def PathClear (b : Board) (a c : Int × Int) : Prop :=
  ∀ x : Int × Int, SBetween a c x → cellAt b x.1 x.2 = none

theorem sbetween_file {sr sf r f x1 x2 : Int} (hf : sf = f) (hr : sr ≠ r) :
    SBetween (sr, sf) (r, f) (x1, x2) ↔
      x2 = f ∧ ((sr < x1 ∧ x1 < r) ∨ (r < x1 ∧ x1 < sr)) := by
  unfold SBetween
  subst hf
  rcases lt_trichotomy sr r with hc | hc | hc
  · rw [show Int.sign (r - sr) = 1 from Int.sign_eq_one_of_pos (by omega)]
    rw [show Int.sign (sf - sf) = 0 from by simp]
    rw [show |r - sr| = r - sr from abs_of_pos (by omega), show |sf - sf| = 0 from by simp]
    constructor
    · rintro ⟨t, h1, h2, rfl, rfl⟩
      constructor
      · ring
      · left
        omega
    · rintro ⟨rfl, h⟩
      exact ⟨x1 - sr, by omega, by omega, by ring_nf, by ring_nf⟩
  · omega
  · rw [show Int.sign (r - sr) = -1 from Int.sign_eq_neg_one_of_neg (by omega)]
    rw [show Int.sign (sf - sf) = 0 from by simp]
    rw [show |r - sr| = -(r - sr) from abs_of_neg (by omega), show |sf - sf| = 0 from by simp]
    constructor
    · rintro ⟨t, h1, h2, rfl, rfl⟩
      constructor
      · ring
      · right
        omega
    · rintro ⟨rfl, h⟩
      exact ⟨sr - x1, by omega, by omega, by ring_nf, by ring_nf⟩

theorem sbetween_rank {sr sf r f x1 x2 : Int} (hr : sr = r) (hf : sf ≠ f) :
    SBetween (sr, sf) (r, f) (x1, x2) ↔
      x1 = r ∧ ((sf < x2 ∧ x2 < f) ∨ (f < x2 ∧ x2 < sf)) := by
  unfold SBetween
  subst hr
  rcases lt_trichotomy sf f with hc | hc | hc
  · rw [show Int.sign (f - sf) = 1 from Int.sign_eq_one_of_pos (by omega)]
    rw [show Int.sign (sr - sr) = 0 from by simp]
    rw [show |f - sf| = f - sf from abs_of_pos (by omega), show |sr - sr| = 0 from by simp]
    constructor
    · rintro ⟨t, h1, h2, rfl, rfl⟩
      constructor
      · ring
      · left
        omega
    · rintro ⟨rfl, h⟩
      exact ⟨x2 - sf, by omega, by omega, by ring_nf, by ring_nf⟩
  · omega
  · rw [show Int.sign (f - sf) = -1 from Int.sign_eq_neg_one_of_neg (by omega)]
    rw [show Int.sign (sr - sr) = 0 from by simp]
    rw [show |f - sf| = -(f - sf) from abs_of_neg (by omega), show |sr - sr| = 0 from by simp]
    constructor
    · rintro ⟨t, h1, h2, rfl, rfl⟩
      constructor
      · ring
      · right
        omega
    · rintro ⟨rfl, h⟩
      exact ⟨sf - x2, by omega, by omega, by ring_nf, by ring_nf⟩

theorem sbetween_diag {sr sf r f x1 x2 : Int} (hd : |sr - r| = |sf - f|) :
    SBetween (sr, sf) (r, f) (x1, x2) ↔
      ∃ t : Int, 0 < t ∧ t < |r - sr| ∧
        x1 = sr + t * Int.sign (r - sr) ∧ x2 = sf + t * Int.sign (f - sf) := by
  unfold SBetween
  have : max |r - sr| |f - sf| = |r - sr| := by
    rw [max_eq_left]
    rw [abs_sub_comm r sr, abs_sub_comm f sf, hd]
  rw [this]

/-- Membership in the same-file walk of the sliding `reach`/`pinned` loops. -/
theorem mem_fileWalk {sr r f : Int} (hne : sr ≠ r) {x : Int × Int} :
    x ∈ (pyRange (sr + Int.sign (r - sr)) r (Int.sign (r - sr))).map (fun i => (i, f)) ↔
      x.2 = f ∧ ((sr < x.1 ∧ x.1 < r) ∨ (r < x.1 ∧ x.1 < sr)) := by
  rcases lt_trichotomy sr r with hc | hc | hc
  · rw [show Int.sign (r - sr) = 1 from Int.sign_eq_one_of_pos (by omega)]
    simp only [List.mem_map]
    constructor
    · rintro ⟨i, hi, rfl⟩
      rw [mem_pyRange_one] at hi
      exact ⟨rfl, by omega⟩
    · rintro ⟨h2, h1⟩
      refine ⟨x.1, ?_, ?_⟩
      · rw [mem_pyRange_one]
        omega
      · rw [← h2]
  · omega
  · rw [show Int.sign (r - sr) = -1 from Int.sign_eq_neg_one_of_neg (by omega)]
    simp only [List.mem_map]
    constructor
    · rintro ⟨i, hi, rfl⟩
      rw [mem_pyRange_negone] at hi
      exact ⟨rfl, by omega⟩
    · rintro ⟨h2, h1⟩
      refine ⟨x.1, ?_, ?_⟩
      · rw [mem_pyRange_negone]
        omega
      · rw [← h2]

/-- Membership in the same-rank walk of the sliding `reach`/`pinned` loops. -/
theorem mem_rankWalk {sf f r : Int} (hne : sf ≠ f) {x : Int × Int} :
    x ∈ (pyRange (sf + Int.sign (f - sf)) f (Int.sign (f - sf))).map (fun i => (r, i)) ↔
      x.1 = r ∧ ((sf < x.2 ∧ x.2 < f) ∨ (f < x.2 ∧ x.2 < sf)) := by
  rcases lt_trichotomy sf f with hc | hc | hc
  · rw [show Int.sign (f - sf) = 1 from Int.sign_eq_one_of_pos (by omega)]
    simp only [List.mem_map]
    constructor
    · rintro ⟨i, hi, rfl⟩
      rw [mem_pyRange_one] at hi
      exact ⟨rfl, by omega⟩
    · rintro ⟨h2, h1⟩
      refine ⟨x.2, ?_, ?_⟩
      · rw [mem_pyRange_one]
        omega
      · rw [← h2]
  · omega
  · rw [show Int.sign (f - sf) = -1 from Int.sign_eq_neg_one_of_neg (by omega)]
    simp only [List.mem_map]
    constructor
    · rintro ⟨i, hi, rfl⟩
      rw [mem_pyRange_negone] at hi
      exact ⟨rfl, by omega⟩
    · rintro ⟨h2, h1⟩
      refine ⟨x.2, ?_, ?_⟩
      · rw [mem_pyRange_negone]
        omega
      · rw [← h2]

/-- Membership in the diagonal walk of the sliding `reach`/`pinned` loops is
exactly `SBetween` for a diagonally aligned pair. -/
theorem mem_diagWalk {sr sf r f : Int} (hd : |sr - r| = |sf - f|) {x : Int × Int} :
    x ∈ (pyRange 1 |r - sr| 1).map
        (fun i => (sr + i * Int.sign (r - sr), sf + i * Int.sign (f - sf))) ↔
      SBetween (sr, sf) (r, f) x := by
  obtain ⟨x1, x2⟩ := x
  rw [sbetween_diag hd]
  simp only [List.mem_map]
  constructor
  · rintro ⟨i, hi, h⟩
    rw [mem_pyRange_one] at hi
    refine ⟨i, by omega, by omega, ?_, ?_⟩
    · exact (congrArg Prod.fst h).symm
    · exact (congrArg Prod.snd h).symm
  · rintro ⟨t, h1, h2, h3, h4⟩
    refine ⟨t, ?_, ?_⟩
    · rw [mem_pyRange_one]
      omega
    · rw [h3, h4]

/-- `Rook.reach` evaluated at in-range squares distinct from the rook's own:
no error, true exactly on an aligned destination with a clear strict path.
The destination square's own content is never consulted. -/
theorem rookReach_char {b : Board} {sr sf r f : Int}
    (hsr : 0 ≤ sr) (hsr7 : sr ≤ 7) (hsf : 0 ≤ sf) (hsf7 : sf ≤ 7)
    (hr : 0 ≤ r) (hr7 : r ≤ 7) (hf : 0 ≤ f) (hf7 : f ≤ 7)
    (hne : ¬(r = sr ∧ f = sf)) :
    ∃ v : Bool, rookReach b sr sf r f = .ok v ∧
      (v = true ↔ (sf = f ∨ sr = r) ∧ PathClear b (sr, sf) (r, f)) := by
  unfold rookReach
  by_cases hff : sf = f
  · have hrr : sr ≠ r := fun h => hne ⟨h.symm, hff.symm⟩
    rw [if_pos hff, pyDivE_abs (show r - sr ≠ 0 by omega), except_bind_ok]
    rw [allEmptyM_ok (by
      intro sq hsq
      rw [mem_fileWalk hrr] at hsq
      omega)]
    refine ⟨_, rfl, ?_⟩
    rw [List.all_eq_true]
    constructor
    · intro hall
      refine ⟨Or.inl hff, ?_⟩
      intro x hx
      have hx' : x.2 = f ∧ ((sr < x.1 ∧ x.1 < r) ∨ (r < x.1 ∧ x.1 < sr)) := by
        obtain ⟨x1, x2⟩ := x
        rw [sbetween_file hff hrr] at hx
        exact hx
      have := hall x ((mem_fileWalk hrr).2 hx')
      exact of_decide_eq_true this
    · rintro ⟨-, hclear⟩
      intro x hx
      rw [mem_fileWalk hrr] at hx
      refine decide_eq_true ?_
      refine hclear x ?_
      obtain ⟨x1, x2⟩ := x
      rw [sbetween_file hff hrr]
      exact hx
  · rw [if_neg hff]
    by_cases hrr : sr = r
    · have hff' : sf ≠ f := hff
      rw [if_pos hrr, pyDivE_abs (show f - sf ≠ 0 by omega), except_bind_ok]
      rw [allEmptyM_ok (by
        intro sq hsq
        rw [mem_rankWalk hff'] at hsq
        omega)]
      refine ⟨_, rfl, ?_⟩
      rw [List.all_eq_true]
      constructor
      · intro hall
        refine ⟨Or.inr hrr, ?_⟩
        intro x hx
        have hx' : x.1 = r ∧ ((sf < x.2 ∧ x.2 < f) ∨ (f < x.2 ∧ x.2 < sf)) := by
          obtain ⟨x1, x2⟩ := x
          rw [sbetween_rank hrr hff'] at hx
          exact hx
        have := hall x ((mem_rankWalk hff').2 hx')
        exact of_decide_eq_true this
      · rintro ⟨-, hclear⟩
        intro x hx
        rw [mem_rankWalk hff'] at hx
        refine decide_eq_true ?_
        refine hclear x ?_
        obtain ⟨x1, x2⟩ := x
        rw [sbetween_rank hrr hff']
        exact hx
    · rw [if_neg hrr]
      refine ⟨false, rfl, ?_⟩
      constructor
      · intro h
        exact Bool.noConfusion h
      · rintro ⟨hal, -⟩
        rcases hal with h | h
        · exact (hff h).elim
        · exact (hrr h).elim

/-- A point strictly between two in-range diagonally aligned squares is in
range. -/
theorem diagWalk_sq_range {sr sf r f t : Int}
    (hd : |sr - r| = |sf - f|) (h1 : 0 < t) (h2 : t < |r - sr|)
    (hsr : 0 ≤ sr) (hsr7 : sr ≤ 7) (hsf : 0 ≤ sf) (hsf7 : sf ≤ 7)
    (hr : 0 ≤ r) (hr7 : r ≤ 7) (hf : 0 ≤ f) (hf7 : f ≤ 7) :
    0 ≤ sr + t * Int.sign (r - sr) ∧ sr + t * Int.sign (r - sr) ≤ 7 ∧
      0 ≤ sf + t * Int.sign (f - sf) ∧ sf + t * Int.sign (f - sf) ≤ 7 := by
  have hd' : |r - sr| = |f - sf| := by
    rw [abs_sub_comm sr r, abs_sub_comm sf f] at hd
    exact hd
  rcases lt_trichotomy sr r with hc | hc | hc
  · rw [Int.sign_eq_one_of_pos (show (0 : Int) < r - sr by omega)]
    rw [abs_of_pos (show (0 : Int) < r - sr by omega)] at h2 hd'
    rcases lt_trichotomy sf f with hcf | hcf | hcf
    · rw [Int.sign_eq_one_of_pos (show (0 : Int) < f - sf by omega)]
      rw [abs_of_pos (show (0 : Int) < f - sf by omega)] at hd'
      omega
    · subst hcf
      simp only [sub_self, abs_zero] at hd'
      omega
    · rw [Int.sign_eq_neg_one_of_neg (show f - sf < 0 by omega)]
      rw [abs_of_neg (show f - sf < 0 by omega)] at hd'
      omega
  · subst hc
    simp only [sub_self, abs_zero] at h2
    omega
  · rw [Int.sign_eq_neg_one_of_neg (show r - sr < 0 by omega)]
    rw [abs_of_neg (show r - sr < 0 by omega)] at h2 hd'
    rcases lt_trichotomy sf f with hcf | hcf | hcf
    · rw [Int.sign_eq_one_of_pos (show (0 : Int) < f - sf by omega)]
      rw [abs_of_pos (show (0 : Int) < f - sf by omega)] at hd'
      omega
    · subst hcf
      simp only [sub_self, abs_zero] at hd'
      omega
    · rw [Int.sign_eq_neg_one_of_neg (show f - sf < 0 by omega)]
      rw [abs_of_neg (show f - sf < 0 by omega)] at hd'
      omega

/-- `Bishop.reach` evaluated at in-range squares distinct from the bishop's
own: no error, true exactly on a diagonal destination with a clear strict
path. -/
theorem bishopReach_char {b : Board} {sr sf r f : Int}
    (hsr : 0 ≤ sr) (hsr7 : sr ≤ 7) (hsf : 0 ≤ sf) (hsf7 : sf ≤ 7)
    (hr : 0 ≤ r) (hr7 : r ≤ 7) (hf : 0 ≤ f) (hf7 : f ≤ 7) :
    ∃ v : Bool, bishopReach b sr sf r f = .ok v ∧
      (v = true ↔ |sr - r| = |sf - f| ∧ PathClear b (sr, sf) (r, f)) := by
  unfold bishopReach
  by_cases hd : |sr - r| = |sf - f|
  · rw [if_pos hd, fdiv_max_sign, fdiv_max_sign]
    rw [allEmptyM_ok (by
      intro sq hsq
      rw [mem_diagWalk hd] at hsq
      obtain ⟨x1, x2⟩ := sq
      rw [sbetween_diag hd] at hsq
      obtain ⟨t, h1, h2, h3, h4⟩ := hsq
      show 0 ≤ x1 ∧ x1 ≤ 7 ∧ 0 ≤ x2 ∧ x2 ≤ 7
      rw [h3, h4]
      exact diagWalk_sq_range hd h1 h2 hsr hsr7 hsf hsf7 hr hr7 hf hf7)]
    refine ⟨_, rfl, ?_⟩
    rw [List.all_eq_true]
    constructor
    · intro hall
      refine ⟨hd, ?_⟩
      intro x hx
      exact of_decide_eq_true (hall x ((mem_diagWalk hd).2 hx))
    · rintro ⟨-, hclear⟩
      intro x hx
      exact decide_eq_true (hclear x ((mem_diagWalk hd).1 hx))
  · rw [if_neg hd]
    refine ⟨false, rfl, ?_⟩
    constructor
    · intro h
      exact Bool.noConfusion h
    · rintro ⟨hal, -⟩
      exact (hd hal).elim

/-- `Queen.reach` evaluated at in-range squares distinct from the queen's
own: no error, true exactly on an aligned (file, rank or diagonal) destination
with a clear strict path. -/
theorem queenReach_char {b : Board} {sr sf r f : Int}
    (hsr : 0 ≤ sr) (hsr7 : sr ≤ 7) (hsf : 0 ≤ sf) (hsf7 : sf ≤ 7)
    (hr : 0 ≤ r) (hr7 : r ≤ 7) (hf : 0 ≤ f) (hf7 : f ≤ 7)
    (hne : ¬(r = sr ∧ f = sf)) :
    ∃ v : Bool, queenReach b sr sf r f = .ok v ∧
      (v = true ↔ (sf = f ∨ sr = r ∨ |sr - r| = |sf - f|) ∧ PathClear b (sr, sf) (r, f)) := by
  unfold queenReach
  by_cases hff : sf = f
  · have hrr : sr ≠ r := fun h => hne ⟨h.symm, hff.symm⟩
    rw [if_pos hff, pyDivE_abs (show r - sr ≠ 0 by omega), except_bind_ok]
    rw [allEmptyM_ok (by
      intro sq hsq
      rw [mem_fileWalk hrr] at hsq
      omega)]
    refine ⟨_, rfl, ?_⟩
    rw [List.all_eq_true]
    constructor
    · intro hall
      refine ⟨Or.inl hff, ?_⟩
      intro x hx
      have hx' : x.2 = f ∧ ((sr < x.1 ∧ x.1 < r) ∨ (r < x.1 ∧ x.1 < sr)) := by
        obtain ⟨x1, x2⟩ := x
        rw [sbetween_file hff hrr] at hx
        exact hx
      exact of_decide_eq_true (hall x ((mem_fileWalk hrr).2 hx'))
    · rintro ⟨-, hclear⟩
      intro x hx
      rw [mem_fileWalk hrr] at hx
      refine decide_eq_true (hclear x ?_)
      obtain ⟨x1, x2⟩ := x
      rw [sbetween_file hff hrr]
      exact hx
  · rw [if_neg hff]
    by_cases hrr : sr = r
    · have hff' : sf ≠ f := hff
      rw [if_pos hrr, pyDivE_abs (show f - sf ≠ 0 by omega), except_bind_ok]
      rw [allEmptyM_ok (by
        intro sq hsq
        rw [mem_rankWalk hff'] at hsq
        omega)]
      refine ⟨_, rfl, ?_⟩
      rw [List.all_eq_true]
      constructor
      · intro hall
        refine ⟨Or.inr (Or.inl hrr), ?_⟩
        intro x hx
        have hx' : x.1 = r ∧ ((sf < x.2 ∧ x.2 < f) ∨ (f < x.2 ∧ x.2 < sf)) := by
          obtain ⟨x1, x2⟩ := x
          rw [sbetween_rank hrr hff'] at hx
          exact hx
        exact of_decide_eq_true (hall x ((mem_rankWalk hff').2 hx'))
      · rintro ⟨-, hclear⟩
        intro x hx
        rw [mem_rankWalk hff'] at hx
        refine decide_eq_true (hclear x ?_)
        obtain ⟨x1, x2⟩ := x
        rw [sbetween_rank hrr hff']
        exact hx
    · rw [if_neg hrr]
      by_cases hd : |sr - r| = |sf - f|
      · rw [if_pos hd, fdiv_max_sign, fdiv_max_sign]
        rw [allEmptyM_ok (by
          intro sq hsq
          rw [mem_diagWalk hd] at hsq
          obtain ⟨x1, x2⟩ := sq
          rw [sbetween_diag hd] at hsq
          obtain ⟨t, h1, h2, h3, h4⟩ := hsq
          show 0 ≤ x1 ∧ x1 ≤ 7 ∧ 0 ≤ x2 ∧ x2 ≤ 7
          rw [h3, h4]
          exact diagWalk_sq_range hd h1 h2 hsr hsr7 hsf hsf7 hr hr7 hf hf7)]
        refine ⟨_, rfl, ?_⟩
        rw [List.all_eq_true]
        constructor
        · intro hall
          refine ⟨Or.inr (Or.inr hd), ?_⟩
          intro x hx
          exact of_decide_eq_true (hall x ((mem_diagWalk hd).2 hx))
        · rintro ⟨-, hclear⟩
          intro x hx
          exact decide_eq_true (hclear x ((mem_diagWalk hd).1 hx))
      · rw [if_neg hd]
        refine ⟨false, rfl, ?_⟩
        constructor
        · intro h
          exact Bool.noConfusion h
        · rintro ⟨hal, -⟩
          rcases hal with h | h | h
          · exact (hff h).elim
          · exact (hrr h).elim
          · exact (hd h).elim

/-- `Rook.reach` at the rook's own square: `(r - self.rank) / abs(r - self.rank)`
divides by zero. -/
theorem rookReach_own (b : Board) (sr sf : Int) :
    rookReach b sr sf sr sf = .error .divZero := by
  unfold rookReach
  rw [if_pos rfl]
  simp only [sub_self, abs_zero]
  rfl

/-- `Queen.reach` at the queen's own square: same division by zero. -/
theorem queenReach_own (b : Board) (sr sf : Int) :
    queenReach b sr sf sr sf = .error .divZero := by
  unfold queenReach
  rw [if_pos rfl]
  simp only [sub_self, abs_zero]
  rfl

/-- `Bishop.reach` at the bishop's own square returns `True`: the `max(1, ...)`
denominators avoid the division and the walk is empty. -/
theorem bishopReach_own (b : Board) (sr sf : Int) :
    bishopReach b sr sf sr sf = .ok true := by
  unfold bishopReach
  simp only [sub_self, abs_zero, if_pos rfl]
  rfl

/-- `King.reach` at the king's own square returns `True`. -/
theorem kingReach_own (sr sf : Int) : kingReach sr sf sr sf = .ok true := by
  unfold kingReach
  simp [sub_self, abs_zero, except_pure]

/-- `Knight.reach` at the knight's own square returns `False`. -/
theorem knightReach_own (sr sf : Int) : knightReach sr sf sr sf = .ok false := by
  unfold knightReach
  simp [sub_self, abs_zero, except_pure]

/-- `Pawn.reach` at the pawn's own square returns `False` for both capture
flags. -/
theorem pawnReach_own (b : Board) (c : Color) (sr sf : Int) (cap : Bool) :
    pawnReach b c sr sf sr sf cap = .ok false := by
  have h1 : ¬(sr = sr - 1) := by omega
  have h2 : ¬(sr = 1 ∧ sr = 3) := by omega
  have h3 : ¬(sr = sr + 1) := by omega
  have h4 : ¬(sr = 6 ∧ sr = 4) := by omega
  cases c <;> by_cases hcap : cap <;>
    simp [pawnReach, hcap, h1, h2, h3, h4, except_bind_ok, except_pure, sub_self, abs_zero]

/-- `Pawn.reach` never raises at an in-range destination: the only board read
is the guarded intermediate square of the double advance, which is in range. -/
theorem pawnReach_total (b : Board) (c : Color) (sr sf r f : Int) (cap : Bool)
    (hf : 0 ≤ f) (hf7 : f ≤ 7) :
    ∃ v, pawnReach b c sr sf r f cap = .ok v := by
  cases c
  · simp only [pawnReach]
    by_cases hg : ¬(cap = true) ∧ sf = f
    · rw [if_pos hg]
      by_cases h1 : sr = r - 1
      · rw [if_pos h1]
        exact ⟨true, rfl⟩
      · rw [if_neg h1]
        by_cases h2 : sr = 1 ∧ r = 3
        · rw [if_pos h2]
          rw [show b.get (2, f) = .ok (cellAt b 2 f) from get_ok (by omega) (by omega) hf hf7]
          by_cases ho : cellAt b 2 f = none
          · exact ⟨true, by simp [except_bind_ok, except_pure, ho]⟩
          · exact ⟨cap && (decide (|sf - f| = 1) && decide (r - sr = 1)),
              by simp [except_bind_ok, except_pure, ho]⟩
        · rw [if_neg h2]
          exact ⟨_, rfl⟩
    · rw [if_neg hg]
      exact ⟨_, rfl⟩
  · simp only [pawnReach]
    by_cases hg : ¬(cap = true) ∧ sf = f
    · rw [if_pos hg]
      by_cases h1 : sr = r + 1
      · rw [if_pos h1]
        exact ⟨true, rfl⟩
      · rw [if_neg h1]
        by_cases h2 : sr = 6 ∧ r = 4
        · rw [if_pos h2]
          rw [show b.get (5, f) = .ok (cellAt b 5 f) from get_ok (by omega) (by omega) hf hf7]
          by_cases ho : cellAt b 5 f = none
          · exact ⟨true, by simp [except_bind_ok, except_pure, ho]⟩
          · exact ⟨cap && (decide (|sf - f| = 1) && decide (sr - r = 1)),
              by simp [except_bind_ok, except_pure, ho]⟩
        · rw [if_neg h2]
          exact ⟨_, rfl⟩
    · rw [if_neg hg]
      exact ⟨_, rfl⟩

/-- A pawn's forward direction: +1 for White, -1 for Black. -/
def pawnDir : Color → Int
  | .white => 1
  | .black => -1

/-- A pawn's starting rank: 1 for White, 6 for Black. -/
def pawnStart : Color → Int
  | .white => 1
  | .black => 6

/-- `Pawn.reach` characterised: a non-capture is one square forward on the
same file, or the double advance from the starting rank with an empty
intermediate square (the destination's occupancy is never read); a capture is
one square diagonally forward (neither the occupancy nor the occupant's color
of the destination is read). -/
theorem pawnReach_char (b : Board) (c : Color) (sr sf r f : Int)
    (hf : 0 ≤ f) (hf7 : f ≤ 7) :
    (pawnReach b c sr sf r f false = .ok true ↔
      sf = f ∧ (r = sr + pawnDir c ∨
        (sr = pawnStart c ∧ r = sr + 2 * pawnDir c ∧ cellAt b (sr + pawnDir c) f = none))) ∧
    (pawnReach b c sr sf r f true = .ok true ↔ |sf - f| = 1 ∧ r = sr + pawnDir c) := by
  cases c
  · constructor
    · simp only [pawnReach, pawnDir, pawnStart]
      by_cases hfe : sf = f
      · rw [if_pos (show ¬(false = true) ∧ sf = f from ⟨by simp, hfe⟩)]
        by_cases h1 : sr = r - 1
        · rw [if_pos h1]
          simp only [except_bind_ok, except_pure, if_pos rfl]
          constructor
          · intro _
            exact ⟨hfe, Or.inl (by omega)⟩
          · intro _
            rfl
        · rw [if_neg h1]
          by_cases h2 : sr = 1 ∧ r = 3
          · rw [if_pos h2]
            rw [show b.get (2, f) = .ok (cellAt b 2 f) from
              get_ok (by omega) (by omega) hf hf7]
            by_cases ho : cellAt b 2 f = none
            · simp only [except_bind_ok, except_pure, ho, decide_True, if_pos rfl]
              constructor
              · intro _
                refine ⟨hfe, Or.inr ⟨h2.1, by omega, ?_⟩⟩
                rw [show sr + 1 = 2 by omega]
                exact ho
              · intro _
                rfl
            · simp only [except_bind_ok, except_pure, ho, decide_False]
              constructor
              · intro h
                simp at h
              · rintro ⟨-, h | ⟨ha, hb, hc⟩⟩
                · omega
                · rw [show sr + 1 = 2 by omega] at hc
                  exact (ho hc).elim
          · rw [if_neg h2]
            simp only [except_bind_ok, except_pure]
            constructor
            · intro h
              simp at h
            · rintro ⟨-, h | ⟨ha, hb, -⟩⟩
              · omega
              · exact (h2 ⟨ha, by omega⟩).elim
      · rw [if_neg (fun hc => hfe hc.2)]
        simp only [except_bind_ok, except_pure]
        constructor
        · intro h
          simp at h
        · rintro ⟨hc, -⟩
          exact (hfe hc).elim
    · simp only [pawnReach, pawnDir]
      rw [if_neg (by simp)]
      simp only [except_bind_ok, except_pure]
      rw [if_neg Bool.false_ne_true]
      constructor
      · intro h
        simp only [Except.ok.injEq] at h
        have := of_decide_eq_true h
        exact ⟨this.2.1, by omega⟩
      · rintro ⟨h1, h2⟩
        simp only [Except.ok.injEq]
        exact decide_eq_true ⟨trivial, h1, by omega⟩
  · constructor
    · simp only [pawnReach, pawnDir, pawnStart]
      by_cases hfe : sf = f
      · rw [if_pos (show ¬(false = true) ∧ sf = f from ⟨by simp, hfe⟩)]
        by_cases h1 : sr = r + 1
        · rw [if_pos h1]
          simp only [except_bind_ok, except_pure, if_pos rfl]
          constructor
          · intro _
            exact ⟨hfe, Or.inl (by omega)⟩
          · intro _
            rfl
        · rw [if_neg h1]
          by_cases h2 : sr = 6 ∧ r = 4
          · rw [if_pos h2]
            rw [show b.get (5, f) = .ok (cellAt b 5 f) from
              get_ok (by omega) (by omega) hf hf7]
            by_cases ho : cellAt b 5 f = none
            · simp only [except_bind_ok, except_pure, ho, decide_True, if_pos rfl]
              constructor
              · intro _
                refine ⟨hfe, Or.inr ⟨h2.1, by omega, ?_⟩⟩
                rw [show sr + -1 = 5 by omega]
                exact ho
              · intro _
                rfl
            · simp only [except_bind_ok, except_pure, ho, decide_False]
              constructor
              · intro h
                simp at h
              · rintro ⟨-, h | ⟨ha, hb, hc⟩⟩
                · omega
                · rw [show sr + -1 = 5 by omega] at hc
                  exact (ho hc).elim
          · rw [if_neg h2]
            simp only [except_bind_ok, except_pure]
            constructor
            · intro h
              simp at h
            · rintro ⟨-, h | ⟨ha, hb, -⟩⟩
              · omega
              · exact (h2 ⟨ha, by omega⟩).elim
      · rw [if_neg (fun hc => hfe hc.2)]
        simp only [except_bind_ok, except_pure]
        constructor
        · intro h
          simp at h
        · rintro ⟨hc, -⟩
          exact (hfe hc).elim
    · simp only [pawnReach, pawnDir]
      rw [if_neg (by simp)]
      simp only [except_bind_ok, except_pure]
      rw [if_neg Bool.false_ne_true]
      constructor
      · intro h
        simp only [Except.ok.injEq] at h
        have := of_decide_eq_true h
        exact ⟨this.2.1, by omega⟩
      · rintro ⟨h1, h2⟩
        simp only [Except.ok.injEq]
        exact decide_eq_true ⟨trivial, h1, by omega⟩

/-- Writing `None` over a slot that already reads as `None` leaves the list
unchanged (also beyond the end, where both the read default and the write are
no-ops). -/
theorem list_set_none_self :
    ∀ (l : List (Option Nat)) (n : Nat), l.getD n none = none → l.set n none = l := by
  intro l
  induction l with
  | nil => intro n _; rfl
  | cons a t ih =>
    intro n h
    cases n with
    | zero =>
      simp only [List.getD, List.get?, Option.getD_some] at h
      simp [List.set, h]
    | succ m =>
      simp only [List.getD_cons_succ] at h
      simp [List.set, ih m h]

theorem heapGet_set_cells (b : Board) (x : List (Option Nat)) (pid : Nat) :
    heapGet { b with cells := x } pid = heapGet b pid := rfl

/-! ### Preservation of the scalar fields

`put`, `take`, `move` and piece construction touch only the cell array, the
heap and the `by_piece` collections: the side to move, the en-passant target
and the check flag pass through them unchanged. -/

theorem setCellIdx_meta (b : Board) (i : Int) (v : Option Nat) :
    ((setCellIdx b i v).2).ep = b.ep ∧ ((setCellIdx b i v).2).chk = b.chk ∧
    ((setCellIdx b i v).2).toPlay = b.toPlay := by
  unfold setCellIdx
  split <;> exact ⟨rfl, rfl, rfl⟩

theorem setCellIdx_eq_meta {X : Board} {i : Int} {v : Option Nat} {r : Except Err Unit}
    {B : Board} (h : setCellIdx X i v = (r, B)) :
    B.ep = X.ep ∧ B.chk = X.chk ∧ B.toPlay = X.toPlay := by
  have m := setCellIdx_meta X i v
  rw [h] at m
  exact m

theorem move_meta (b : Board) (s d : Int × Int) :
    ((Board.move b s d).2).ep = b.ep ∧ ((Board.move b s d).2).chk = b.chk ∧
    ((Board.move b s d).2).toPlay = b.toPlay := by
  unfold Board.move
  rcases h1 : rfToIndex s.1 s.2 with e | i1
  · exact ⟨rfl, rfl, rfl⟩
  try simp only []
  rcases h2 : cellIdx b i1 with e | o
  · exact ⟨rfl, rfl, rfl⟩
  try simp only []
  rcases o with _ | spid
  · exact ⟨rfl, rfl, rfl⟩
  try simp only []
  rcases h3 : rfToIndex d.1 d.2 with e | i2
  · exact ⟨rfl, rfl, rfl⟩
  try simp only []
  rcases h4 : cellIdx b i2 with e | captured
  · exact ⟨rfl, rfl, rfl⟩
  try simp only []
  rcases h5 : setCellIdx b i2 (Except.ok (some spid) : Except Err (Option Nat)).toOption.join
    with ⟨r5, b1⟩
  obtain ⟨m51, m52, m53⟩ := setCellIdx_eq_meta h5
  try simp only []
  rcases r5 with e | u5
  · exact ⟨m51, m52, m53⟩
  try simp only []
  rcases h6 : setCellIdx b1 i1 none with ⟨r6, b2⟩
  obtain ⟨m61, m62, m63⟩ := setCellIdx_eq_meta h6
  have m2 : b2.ep = b.ep ∧ b2.chk = b.chk ∧ b2.toPlay = b.toPlay :=
    ⟨m61.trans m51, m62.trans m52, m63.trans m53⟩
  try simp only []
  rcases r6 with e | u6
  · exact m2
  try simp only []
  rcases h7 : cellIdx b2 i2 with e | o7
  · exact m2
  try simp only []
  rcases o7 with _ | mpid
  · exact m2
  try simp only []
  rcases h8 : heapGet b2 mpid with _ | mpc
  · exact m2
  try simp only []
  exact m2

theorem take_meta (b : Board) (pos : Int × Int) :
    ((Board.take b pos).2).ep = b.ep ∧ ((Board.take b pos).2).chk = b.chk ∧
    ((Board.take b pos).2).toPlay = b.toPlay := by
  have hset : ∀ (x : Board) (k : Kind) (c : Color) (l' : List Nat),
      (x.setListOf k c l').ep = x.ep ∧ (x.setListOf k c l').chk = x.chk ∧
      (x.setListOf k c l').toPlay = x.toPlay := by
    intro x k c l'
    cases k <;> exact ⟨rfl, rfl, rfl⟩
  unfold Board.take
  rcases h1 : rfToIndex pos.1 pos.2 with e | i
  · exact ⟨rfl, rfl, rfl⟩
  try simp only []
  rcases h2 : cellIdx b i with e | pidOpt
  · exact ⟨rfl, rfl, rfl⟩
  try simp only []
  rcases h3 : setCellIdx b i none with ⟨r3, b1⟩
  obtain ⟨m31, m32, m33⟩ := setCellIdx_eq_meta h3
  try simp only []
  rcases r3 with e | u3
  · exact ⟨m31, m32, m33⟩
  try simp only []
  rcases pidOpt with _ | pid
  · exact ⟨m31, m32, m33⟩
  try simp only []
  rcases h4 : heapGet b1 pid with _ | pc
  · exact ⟨m31, m32, m33⟩
  try simp only []
  by_cases hk : pc.name = Kind.K
  · rw [if_pos hk]
    exact ⟨m31, m32, m33⟩
  rw [if_neg hk]
  rcases h5 : removeFirst pid
      ((heapSet b1 pid { pc with rank := none, file := none }).listOf pc.name pc.color) with
    e | l
  · exact ⟨m31, m32, m33⟩
  obtain ⟨e1, e2, e3⟩ := hset (heapSet b1 pid { pc with rank := none, file := none })
    pc.name pc.color l
  exact ⟨e1.trans m31, e2.trans m32, e3.trans m33⟩

theorem put_meta (b : Board) (pid : Nat) (pos : Int × Int) :
    ((Board.put b pid pos).2).ep = b.ep ∧ ((Board.put b pid pos).2).chk = b.chk ∧
    ((Board.put b pid pos).2).toPlay = b.toPlay := by
  have hset : ∀ (x : Board) (k : Kind) (c : Color) (l' : List Nat),
      (x.setListOf k c l').ep = x.ep ∧ (x.setListOf k c l').chk = x.chk ∧
      (x.setListOf k c l').toPlay = x.toPlay := by
    intro x k c l'
    cases k <;> exact ⟨rfl, rfl, rfl⟩
  have hsk : ∀ (x : Board) (c : Color) (v : Option Nat),
      (x.setKOf c v).ep = x.ep ∧ (x.setKOf c v).chk = x.chk ∧
      (x.setKOf c v).toPlay = x.toPlay := by
    intro x c v
    cases c <;> exact ⟨rfl, rfl, rfl⟩
  unfold Board.put
  rcases h1 : rfToIndex pos.1 pos.2 with e | i
  · exact ⟨rfl, rfl, rfl⟩
  try simp only []
  rcases h2 : heapGet b pid with _ | pc
  · exact ⟨rfl, rfl, rfl⟩
  try simp only []
  rcases h3 : setCellIdx b i (some pid) with ⟨r3, b1⟩
  obtain ⟨m31, m32, m33⟩ := setCellIdx_eq_meta h3
  try simp only []
  rcases r3 with e | u3
  · exact ⟨m31, m32, m33⟩
  try simp only []
  by_cases hk : pc.name = Kind.K
  · rw [if_pos hk]
    rcases h5 : (heapSet b1 pid { pc with rank := some pos.1, file := some pos.2 }).kOf
        pc.color with _ | kp
    · try simp only []
      obtain ⟨e1, e2, e3⟩ :=
        hsk (heapSet b1 pid { pc with rank := some pos.1, file := some pos.2 })
          pc.color (some pid)
      exact ⟨e1.trans m31, e2.trans m32, e3.trans m33⟩
    · try simp only []
      exact ⟨m31, m32, m33⟩
  · rw [if_neg hk]
    obtain ⟨e1, e2, e3⟩ := hset
      (heapSet b1 pid { pc with rank := some pos.1, file := some pos.2 }) pc.name pc.color
      ((heapSet b1 pid { pc with rank := some pos.1, file := some pos.2 }).listOf
        pc.name pc.color ++ [pid])
    exact ⟨e1.trans m31, e2.trans m32, e3.trans m33⟩

theorem mkPiece_meta (b : Board) (k : Kind) (r f : Int) (c : Color) (idn : Int) :
    ((mkPiece b k r f c idn).2).ep = b.ep ∧ ((mkPiece b k r f c idn).2).chk = b.chk ∧
    ((mkPiece b k r f c idn).2).toPlay = b.toPlay := by
  simp only [mkPiece]
  rcases h1 :
    Board.put
      { b with
        objs := b.objs ++ [(b.nextPid, ⟨k, c, some r, some f, idn⟩)]
        nextPid := b.nextPid + 1 }
      b.nextPid (r, f) with ⟨r1, b1⟩
  have m1 :=
    put_meta
      { b with
        objs := b.objs ++ [(b.nextPid, ⟨k, c, some r, some f, idn⟩)]
        nextPid := b.nextPid + 1 }
      b.nextPid (r, f)
  rw [h1] at m1
  try simp only []
  rcases r1 with e | pid
  · exact m1
  · exact m1

/-! ### Claim C10 — square-range validation

`_test_rank_file` checks `rank > 8` where its own docstring ("Test that the
rank and file values are valid") and the `file > 7` test beside it call for
`rank > 7`: rank 8 passes validation, and `_rf_to_index(8, f) = f*8 + 8`
collides with the flat index of the legitimate square `(0, f+1)`. -/

/-- Board with one white rook on the in-range square (rank 0, file 7), built
through `Board.put`. -/
def c10Board : Board := (mkPiece emptyBoard Kind.R 0 7 Color.white 0).2

/-- C10: the out-of-range square (rank 8, file 6) is accepted by
`_test_rank_file`, its flat index 56 collides with the in-range square
(rank 0, file 7), and `Board.get` on it reads that in-range square's content
(the rook placed there) instead of raising `InvalidSquare`. -/
theorem c10_rank_eight_accepted :
    testRankFile 8 6 = Except.ok () ∧
    rfToIndex 8 6 = Except.ok 56 ∧
    rfToIndex 0 7 = Except.ok 56 ∧
    Board.get c10Board (8, 6) = Except.ok (some 0) ∧
    Board.get c10Board (0, 7) = Except.ok (some 0) := by
  decide

/-! ### Claim C1 — board snapshot round trip

Every piece constructor takes a mandatory `id` parameter (the `#DF: added id`
change), but `Board.decode` still calls the constructors with four arguments,
so decoding any string that contains a piece character raises `TypeError`.
The same arity error breaks the module's own scenario tests
(`test_rook_capture` etc. construct pieces without ids). -/

/-- Board with one white king on square a1, built through `Board.put`. -/
def c1Board : Board := (mkPiece emptyBoard Kind.K 0 0 Color.white 0).2

/-- The encoding of `c1Board`: 'K' then 63 'x'. -/
def c1Str : String := "K" ++ String.mk (List.replicate 63 'x')

/-- C1: `encode` produces a 64-character string over the documented alphabet,
but `decode` fails with `TypeError` on any encode output containing a piece
(the constructors' `id` argument is missing at every `decode` call site);
the round trip only survives on the piece-free encoding of the empty board. -/
theorem c1_decode_type_error :
    Board.encode c1Board = Except.ok c1Str ∧
    c1Str.length = 64 ∧
    Board.decode c1Str = Except.error Err.typeError ∧
    Board.encode emptyBoard = Except.ok (String.mk (List.replicate 64 'x')) ∧
    Board.decode (String.mk (List.replicate 64 'x')) = Except.ok emptyBoard := by
  decide

/-! ### Claim C9 — atomicity of put and remove/take on failure

`Board.take` runs `self.pieces[i] = None` and `piece.take()` (nulling the
piece's rank and file) before the king check, and `Board.put` runs
`self.pieces[i] = piece` and `piece.move(...)` before the duplicate-king
check, so those two failures leave the position mutated; only removal from an
empty square fails before any effective write. -/

/-- Board with one white king on a1 for the take-a-king counterexample. -/
def c9Board : Board := (mkPiece emptyBoard Kind.K 0 0 Color.white 0).2

/-- C9 counterexample: removing the king at a1 raises `KingRemoval`, yet
afterwards the a1 cell is empty and the king object's coordinates are nulled —
the position is not unchanged. -/
theorem c9_take_king_mutates :
    (Board.take c9Board (0, 0)).1 = Except.error Err.kingRemoval ∧
    cellAt c9Board 0 0 = some 0 ∧
    cellAt (Board.take c9Board (0, 0)).2 0 0 = none ∧
    heapGet c9Board 0 = some ⟨Kind.K, Color.white, some 0, some 0, 0⟩ ∧
    heapGet (Board.take c9Board (0, 0)).2 0 = some ⟨Kind.K, Color.white, none, none, 0⟩ := by
  decide

/-- C9 amended: `take` on an empty in-range square fails with the position
unchanged (the `None` write is a no-op and the failure precedes the `by_piece`
update); but `take` on a king and `put` of a second king of a color fail only
after the cell write and the piece-coordinate write, leaving exactly those
mutations behind. -/
theorem c9_single_square_failure_effects :
    (∀ (b : Board) (r f : Int), 0 ≤ r → r ≤ 7 → 0 ≤ f → f ≤ 7 →
        cellAt b r f = none →
        Board.take b (r, f) = (Except.error Err.attrNone, b)) ∧
    (∀ (b : Board) (r f : Int) (pid : Nat) (pc : Pc), 0 ≤ r → r ≤ 7 → 0 ≤ f → f ≤ 7 →
        cellAt b r f = some pid → heapGet b pid = some pc → pc.name = Kind.K →
        Board.take b (r, f) =
          (Except.error Err.kingRemoval,
           heapSet { b with cells := b.cells.set (f * 8 + r).toNat none } pid
             { pc with rank := none, file := none })) ∧
    (∀ (b : Board) (r f : Int) (pid : Nat) (pc : Pc) (kpid : Nat),
        0 ≤ r → r ≤ 7 → 0 ≤ f → f ≤ 7 →
        heapGet b pid = some pc → pc.name = Kind.K → b.kOf pc.color = some kpid →
        Board.put b pid (r, f) =
          (Except.error Err.dupKing,
           heapSet { b with cells := b.cells.set (f * 8 + r).toNat (some pid) } pid
             { pc with rank := some r, file := some f })) := by
  refine ⟨?_, ?_, ?_⟩
  · intro b r f hr hr7 hf hf7 hnone
    unfold Board.take
    rw [rfToIndex_ok hr (by omega) hf hf7]
    have hlt : (0 : Int) ≤ f * 8 + r ∧ f * 8 + r < 64 := by omega
    simp only [cellIdx, if_pos hlt, setCellIdx, if_pos hlt]
    rw [show b.cells.getD (f * 8 + r).toNat none = none from hnone]
    rw [list_set_none_self _ _ hnone]
  · intro b r f pid pc hr hr7 hf hf7 hcell hheap hk
    unfold Board.take
    rw [rfToIndex_ok hr (by omega) hf hf7]
    have hlt : (0 : Int) ≤ f * 8 + r ∧ f * 8 + r < 64 := by omega
    simp only [cellIdx, if_pos hlt, setCellIdx,
      show b.cells.getD (f * 8 + r).toNat none = some pid from hcell,
      heapGet_set_cells, hheap, hk, if_pos rfl, if_true]
  · intro b r f pid pc kpid hr hr7 hf hf7 hheap hk hking
    unfold Board.put
    rw [rfToIndex_ok hr (by omega) hf hf7]
    have hlt : (0 : Int) ≤ f * 8 + r ∧ f * 8 + r < 64 := by omega
    have hkof : ∀ (x : List (Option Nat)) (pc' : Pc),
        (heapSet { b with cells := x } pid pc').kOf pc.color = b.kOf pc.color := by
      intro x pc'
      cases pc.color <;> rfl
    simp only [hheap, setCellIdx, if_pos hlt, hk, if_pos rfl, if_true, hkof, hking]

/-- Board with an empty square d4 and a doubled white-king attempt: white king
on a1 (pid 0) plus a second allocated white king object (pid 1) not yet
placed. -/
def c9PutBoard : Board :=
  let s := (mkPiece emptyBoard Kind.K 0 0 Color.white 0).2
  { s with objs := s.objs ++ [(1, ⟨Kind.K, Color.white, some 5, some 5, 1⟩)],
           nextPid := 2 }

/-- Witness for `c9_single_square_failure_effects` at concrete inputs:
an empty square, the king square of `c9Board`, and a duplicate-king put. -/
theorem c9_single_square_failure_effects_witness :
    Board.take c9Board (3, 3) = (Except.error Err.attrNone, c9Board) ∧
    Board.take c9Board (0, 0) =
      (Except.error Err.kingRemoval,
       heapSet { c9Board with cells := c9Board.cells.set 0 none } 0
         ⟨Kind.K, Color.white, none, none, 0⟩) ∧
    Board.put c9PutBoard 1 (3, 3) =
      (Except.error Err.dupKing,
       heapSet { c9PutBoard with cells := c9PutBoard.cells.set 27 (some 1) } 1
         ⟨Kind.K, Color.white, some 3, some 3, 1⟩) := by
  refine ⟨?_, ?_, ?_⟩
  · exact c9_single_square_failure_effects.1 c9Board 3 3 (by decide) (by decide)
      (by decide) (by decide) (by decide)
  · exact c9_single_square_failure_effects.2.1 c9Board 0 0 0
      ⟨Kind.K, Color.white, some 0, some 0, 0⟩ (by decide) (by decide) (by decide)
      (by decide) (by decide) (by decide) (by decide)
  · exact c9_single_square_failure_effects.2.2 c9PutBoard 3 3 1
      ⟨Kind.K, Color.white, some 5, some 5, 1⟩ 0 (by decide) (by decide) (by decide)
      (by decide) (by decide) (by decide) (by decide)

theorem except_ok_inj_iff {ε α : Type} {a c : α} :
    (Except.ok a : Except ε α) = .ok c ↔ a = c := by
  constructor
  · intro h
    injection h
  · intro h
    rw [h]

/-! ### Claim C6 — pawn reach geometry

`Pawn.reach` is pure geometry except for the double advance's intermediate
square: it never reads the destination square, so a forward move onto an
occupied square and a diagonal capture onto an empty or friendly square are
all reported reachable. Occupancy filtering lives in `Pawn.reaches`, not in
`reach`. -/

/-- Board with a single black pawn on a3 (rank 2, file 0). -/
def c6Board : Board := (mkPiece emptyBoard Kind.P 2 0 Color.black 0).2

/-- C6 counterexample: a white pawn's geometry from a2 reports the occupied
square a3 reachable without capture (the claim requires it unoccupied), and
reports the empty square b3 reachable as a capture (the claim requires an
enemy occupant). -/
theorem c6_pawn_reach_ignores_occupancy :
    pawnReach c6Board Color.white 1 0 2 0 false = Except.ok true ∧
    cellAt c6Board 2 0 = some 0 ∧
    heapGet c6Board 0 = some ⟨Kind.P, Color.black, some 2, some 0, 0⟩ ∧
    pawnReach c6Board Color.white 1 0 2 1 true = Except.ok true ∧
    cellAt c6Board 2 1 = none := by
  decide

/-- C6 amended: for every in-range destination, `reach(t, false)` holds iff
`t` is one square straight forward, or the piece is on its starting rank and
`t` is two squares straight forward with the intermediate square unoccupied —
the destination's own occupancy is not examined; and `reach(t, true)` holds
iff `t` is one square diagonally forward — the destination's occupancy and
occupant color are not examined. -/
theorem c6_pawn_reach_geometry :
    ∀ (b : Board) (c : Color) (sr sf r f : Int),
      0 ≤ r → r ≤ 7 → 0 ≤ f → f ≤ 7 →
      (pawnReach b c sr sf r f false = .ok true ↔
        sf = f ∧ (r = sr + pawnDir c ∨
          (sr = pawnStart c ∧ r = sr + 2 * pawnDir c ∧
            cellAt b (sr + pawnDir c) f = none))) ∧
      (pawnReach b c sr sf r f true = .ok true ↔ |sf - f| = 1 ∧ r = sr + pawnDir c) :=
  fun b c sr sf r f _ _ hf hf7 => pawnReach_char b c sr sf r f hf hf7

/-- Witness for `c6_pawn_reach_geometry`: the double advance d2-d4 on the
empty board, concluded through the characterisation. -/
theorem c6_pawn_reach_geometry_witness :
    pawnReach emptyBoard Color.white 1 3 3 3 false = Except.ok true :=
  ((c6_pawn_reach_geometry emptyBoard Color.white 1 3 3 3 (by decide) (by decide)
    (by decide) (by decide)).1).2 (by decide)

/-! ### Claim C7 — sliding-piece reach geometry

The sliding `reach` methods test alignment and the strictly-between squares
but never read the destination square, so a destination occupied by a piece of
the mover's own color is still reported reachable; the "empty or
enemy-occupied" filter lives in `reaches`, not in `reach`. -/

/-- Board with a white rook on a1 and a white pawn on d1. -/
def c7Board : Board :=
  (mkPiece (mkPiece emptyBoard Kind.R 0 0 Color.white 0).2 Kind.P 0 3 Color.white 0).2

/-- C7 counterexample: the rook's `reach` reports d1 reachable although d1
holds a piece of the rook's own color, contradicting the claim's "never by a
piece of the mover's own color". -/
theorem c7_sliding_reach_ignores_destination :
    rookReach c7Board 0 0 0 3 = Except.ok true ∧
    cellAt c7Board 0 3 = some 1 ∧
    heapGet c7Board 1 = some ⟨Kind.P, Color.white, some 0, some 3, 0⟩ := by
  decide

/-- C7 amended: for every in-range destination distinct from the piece's own
square, sliding `reach` is true iff the destination is aligned (file/rank for
Rook, diagonal for Bishop, either for Queen) and every square strictly between
is empty. The destination square's own occupancy is not part of the
condition. -/
theorem c7_sliding_reach_geometry :
    ∀ (b : Board) (sr sf r f : Int),
      0 ≤ sr → sr ≤ 7 → 0 ≤ sf → sf ≤ 7 → 0 ≤ r → r ≤ 7 → 0 ≤ f → f ≤ 7 →
      ¬(r = sr ∧ f = sf) →
      (rookReach b sr sf r f = .ok true ↔
        (sf = f ∨ sr = r) ∧ PathClear b (sr, sf) (r, f)) ∧
      (bishopReach b sr sf r f = .ok true ↔
        |sr - r| = |sf - f| ∧ PathClear b (sr, sf) (r, f)) ∧
      (queenReach b sr sf r f = .ok true ↔
        (sf = f ∨ sr = r ∨ |sr - r| = |sf - f|) ∧ PathClear b (sr, sf) (r, f)) := by
  intro b sr sf r f hsr hsr7 hsf hsf7 hr hr7 hf hf7 hne
  refine ⟨?_, ?_, ?_⟩
  · obtain ⟨v, he, hv⟩ := rookReach_char hsr hsr7 hsf hsf7 hr hr7 hf hf7 hne
    rw [he, except_ok_inj_iff]
    exact hv
  · obtain ⟨v, he, hv⟩ := bishopReach_char hsr hsr7 hsf hsf7 hr hr7 hf hf7
    rw [he, except_ok_inj_iff]
    exact hv
  · obtain ⟨v, he, hv⟩ := queenReach_char hsr hsr7 hsf hsf7 hr hr7 hf hf7 hne
    rw [he, except_ok_inj_iff]
    exact hv

/-- Witness for `c7_sliding_reach_geometry`: from the computed reach of the
rook from a1 to d1 on `c7Board`, the characterisation yields alignment and the
clear strict path. -/
theorem c7_sliding_reach_geometry_witness :
    ((0 : Int) = 3 ∨ (0 : Int) = 0) ∧ PathClear c7Board (0, 0) (0, 3) :=
  ((c7_sliding_reach_geometry c7Board 0 0 0 3 (by decide) (by decide) (by decide)
    (by decide) (by decide) (by decide) (by decide) (by decide) (by decide)).1).1
    (by decide)

/-! ### Claim C8 — totality of reach, and reach at the piece's own square

`Rook.reach` and `Queen.reach` raise ZeroDivisionError at the piece's own
square (the step `(r - self.rank) / abs(r - self.rank)`), and `Bishop.reach`
and `King.reach` return `True` there — not the claimed universal boolean
result of `False`. Away from the own square all six kinds return a boolean
without raising. -/

/-- C8 counterexample: at the piece's own square, `Rook.reach` raises a
ZeroDivisionError instead of returning `False`, and `Bishop.reach` returns
`True` instead of `False`. -/
theorem c8_reach_own_square_raises :
    rookReach emptyBoard 0 0 0 0 = Except.error Err.divZero ∧
    queenReach emptyBoard 3 3 3 3 = Except.error Err.divZero ∧
    bishopReach emptyBoard 3 3 3 3 = Except.ok true ∧
    kingReach 3 3 3 3 = Except.ok true := by
  decide

/-- C8 amended: at any in-range destination other than the piece's own square,
every kind's `reach` returns a boolean without raising; at the piece's own
square, Rook and Queen raise ZeroDivisionError, Bishop and King return `True`,
and Knight and Pawn return `False`. -/
theorem c8_reach_totality :
    ∀ (b : Board) (c : Color) (cap : Bool) (sr sf r f : Int),
      0 ≤ sr → sr ≤ 7 → 0 ≤ sf → sf ≤ 7 → 0 ≤ r → r ≤ 7 → 0 ≤ f → f ≤ 7 →
      (rookReach b sr sf sr sf = .error .divZero ∧
       queenReach b sr sf sr sf = .error .divZero ∧
       bishopReach b sr sf sr sf = .ok true ∧
       kingReach sr sf sr sf = .ok true ∧
       knightReach sr sf sr sf = .ok false ∧
       pawnReach b c sr sf sr sf cap = .ok false) ∧
      (¬(r = sr ∧ f = sf) →
        (∃ v, rookReach b sr sf r f = .ok v) ∧
        (∃ v, queenReach b sr sf r f = .ok v) ∧
        (∃ v, bishopReach b sr sf r f = .ok v) ∧
        (∃ v, kingReach sr sf r f = .ok v) ∧
        (∃ v, knightReach sr sf r f = .ok v) ∧
        (∃ v, pawnReach b c sr sf r f cap = .ok v)) := by
  intro b c cap sr sf r f hsr hsr7 hsf hsf7 hr hr7 hf hf7
  constructor
  · exact ⟨rookReach_own b sr sf, queenReach_own b sr sf, bishopReach_own b sr sf,
      kingReach_own sr sf, knightReach_own sr sf, pawnReach_own b c sr sf cap⟩
  · intro hne
    obtain ⟨v1, he1, -⟩ := rookReach_char (b := b) hsr hsr7 hsf hsf7 hr hr7 hf hf7 hne
    obtain ⟨v2, he2, -⟩ := queenReach_char (b := b) hsr hsr7 hsf hsf7 hr hr7 hf hf7 hne
    obtain ⟨v3, he3, -⟩ := bishopReach_char (b := b) hsr hsr7 hsf hsf7 hr hr7 hf hf7
    exact ⟨⟨v1, he1⟩, ⟨v2, he2⟩, ⟨v3, he3⟩, ⟨_, rfl⟩, ⟨_, rfl⟩,
      pawnReach_total b c sr sf r f cap hf hf7⟩

/-- Witness for `c8_reach_totality` on the empty board. -/
theorem c8_reach_totality_witness :
    rookReach emptyBoard 0 0 0 0 = Except.error Err.divZero ∧
    (∃ v, queenReach emptyBoard 0 0 5 3 = Except.ok v) := by
  have h := c8_reach_totality emptyBoard Color.white false 0 0 5 3 (by decide) (by decide)
    (by decide) (by decide) (by decide) (by decide) (by decide) (by decide)
  exact ⟨h.1.1, (h.2 (by decide)).2.1⟩

theorem except_bind_error {ε α β : Type} (e : ε) (f : α → Except ε β) :
    (Except.error e >>= f : Except ε β) = Except.error e := rfl

theorem setCheckFlag_ep (b : Board) (m : Bool) : (setCheckFlag b m).ep = b.ep := by
  unfold setCheckFlag
  split <;> rfl

/-- The `O-O` branch leaves the en-passant target untouched. -/
theorem castleKingside_ep (b : Board) (plus : Bool) {s' : Board}
    (h : castleKingside b plus = .ok s') : s'.ep = b.ep := by
  unfold castleKingside at h
  rcases e1 : cellKindIs b 0 4 .K with e | v1 <;> rw [e1] at h
  · rw [except_bind_error] at h
    cases h
  simp only [except_bind_ok] at h
  rcases e2 : cellKindIs b 0 7 .R with e | v2 <;> rw [e2] at h
  · rw [except_bind_error] at h
    cases h
  simp only [except_bind_ok] at h
  rcases e3 : cellEmpty b 0 5 with e | v3 <;> rw [e3] at h
  · rw [except_bind_error] at h
    cases h
  simp only [except_bind_ok] at h
  rcases e4 : cellEmpty b 0 6 with e | v4 <;> rw [e4] at h
  · rw [except_bind_error] at h
    cases h
  simp only [except_bind_ok] at h
  rcases e5 : cellKindIs b 7 4 .K with e | v5 <;> rw [e5] at h
  · rw [except_bind_error] at h
    cases h
  simp only [except_bind_ok] at h
  rcases e6 : cellKindIs b 7 7 .R with e | v6 <;> rw [e6] at h
  · rw [except_bind_error] at h
    cases h
  simp only [except_bind_ok] at h
  rcases e7 : cellEmpty b 7 5 with e | v7 <;> rw [e7] at h
  · rw [except_bind_error] at h
    cases h
  simp only [except_bind_ok] at h
  rcases e8 : cellEmpty b 7 6 with e | v8 <;> rw [e8] at h
  · rw [except_bind_error] at h
    cases h
  simp only [except_bind_ok] at h
  by_cases hw : (decide (b.toPlay = Color.white) && v1 && v2 && v3 && v4) = true
  · rw [if_pos hw] at h
    rcases m1 : b.move (0, 7) (0, 5) with ⟨r1, bA⟩
    have hm1 := move_meta b (0, 7) (0, 5)
    rw [m1] at hm1 h
    rcases r1 with e | u1 <;> try simp only [] at h
    · rw [except_bind_error] at h
      cases h
    rcases m2 : bA.move (0, 4) (0, 6) with ⟨r2, bB⟩
    have hm2 := move_meta bA (0, 4) (0, 6)
    rw [m2] at hm2 h
    rcases r2 with e | u2 <;> try simp only [] at h
    · rw [except_bind_error] at h
      cases h
    simp only [except_pure, except_bind_ok] at h
    injection h with h2
    rw [← h2]
    split <;> exact hm2.1.trans hm1.1
  · rw [if_neg hw] at h
    by_cases hb : (decide (b.toPlay = Color.black) && v5 && v6 && v7 && v8) = true
    · rw [if_pos hb] at h
      rcases m1 : b.move (7, 7) (7, 5) with ⟨r1, bA⟩
      have hm1 := move_meta b (7, 7) (7, 5)
      rw [m1] at hm1 h
      rcases r1 with e | u1 <;> try simp only [] at h
      · rw [except_bind_error] at h
        cases h
      rcases m2 : bA.move (7, 4) (7, 6) with ⟨r2, bB⟩
      have hm2 := move_meta bA (7, 4) (7, 6)
      rw [m2] at hm2 h
      rcases r2 with e | u2 <;> try simp only [] at h
      · rw [except_bind_error] at h
        cases h
      simp only [except_pure, except_bind_ok] at h
      injection h with h2
      rw [← h2]
      split <;> exact hm2.1.trans hm1.1
    · rw [if_neg hb, except_bind_error] at h
      cases h

/-- The `O-O-O` branch leaves the en-passant target untouched. -/
theorem castleQueenside_ep (b : Board) (plus : Bool) {s' : Board}
    (h : castleQueenside b plus = .ok s') : s'.ep = b.ep := by
  unfold castleQueenside at h
  rcases e1 : cellKindIs b 0 4 .K with e | v1 <;> rw [e1] at h
  · rw [except_bind_error] at h
    cases h
  simp only [except_bind_ok] at h
  rcases e2 : cellKindIs b 0 0 .R with e | v2 <;> rw [e2] at h
  · rw [except_bind_error] at h
    cases h
  simp only [except_bind_ok] at h
  rcases e3 : cellEmpty b 0 1 with e | v3 <;> rw [e3] at h
  · rw [except_bind_error] at h
    cases h
  simp only [except_bind_ok] at h
  rcases e4 : cellEmpty b 0 2 with e | v4 <;> rw [e4] at h
  · rw [except_bind_error] at h
    cases h
  simp only [except_bind_ok] at h
  rcases e5 : cellEmpty b 0 3 with e | v5 <;> rw [e5] at h
  · rw [except_bind_error] at h
    cases h
  simp only [except_bind_ok] at h
  rcases e6 : cellKindIs b 7 4 .K with e | v6 <;> rw [e6] at h
  · rw [except_bind_error] at h
    cases h
  simp only [except_bind_ok] at h
  rcases e7 : cellKindIs b 7 0 .R with e | v7 <;> rw [e7] at h
  · rw [except_bind_error] at h
    cases h
  simp only [except_bind_ok] at h
  rcases e8 : cellEmpty b 7 1 with e | v8 <;> rw [e8] at h
  · rw [except_bind_error] at h
    cases h
  simp only [except_bind_ok] at h
  rcases e9 : cellEmpty b 7 2 with e | v9 <;> rw [e9] at h
  · rw [except_bind_error] at h
    cases h
  simp only [except_bind_ok] at h
  rcases e10 : cellEmpty b 7 3 with e | v10 <;> rw [e10] at h
  · rw [except_bind_error] at h
    cases h
  simp only [except_bind_ok] at h
  by_cases hw : (decide (b.toPlay = Color.white) && v1 && v2 && v3 && v4 && v5) = true
  · rw [if_pos hw] at h
    rcases m1 : b.move (0, 0) (0, 3) with ⟨r1, bA⟩
    have hm1 := move_meta b (0, 0) (0, 3)
    rw [m1] at hm1 h
    rcases r1 with e | u1 <;> try simp only [] at h
    · rw [except_bind_error] at h
      cases h
    rcases m2 : bA.move (0, 4) (0, 2) with ⟨r2, bB⟩
    have hm2 := move_meta bA (0, 4) (0, 2)
    rw [m2] at hm2 h
    rcases r2 with e | u2 <;> try simp only [] at h
    · rw [except_bind_error] at h
      cases h
    simp only [except_pure, except_bind_ok] at h
    injection h with h2
    rw [← h2]
    split <;> exact hm2.1.trans hm1.1
  · rw [if_neg hw] at h
    by_cases hb : (decide (b.toPlay = Color.black) && v6 && v7 && v8 && v9 && v10) = true
    · rw [if_pos hb] at h
      rcases m1 : b.move (7, 0) (7, 3) with ⟨r1, bA⟩
      have hm1 := move_meta b (7, 0) (7, 3)
      rw [m1] at hm1 h
      rcases r1 with e | u1 <;> try simp only [] at h
      · rw [except_bind_error] at h
        cases h
      rcases m2 : bA.move (7, 4) (7, 2) with ⟨r2, bB⟩
      have hm2 := move_meta bA (7, 4) (7, 2)
      rw [m2] at hm2 h
      rcases r2 with e | u2 <;> try simp only [] at h
      · rw [except_bind_error] at h
        cases h
      simp only [except_pure, except_bind_ok] at h
      injection h with h2
      rw [← h2]
      split <;> exact hm2.1.trans hm1.1
    · rw [if_neg hb, except_bind_error] at h
      cases h

/-- The relocation-or-promotion step never changes the en-passant target, the
check flag or the side to move. -/
theorem relocateOrPromote_meta {b₂ : Board} {pc : Pc} {pm : PM} {t : Color} {b₃ : Board}
    (h : relocateOrPromote b₂ pc pm t = .ok b₃) :
    b₃.ep = b₂.ep ∧ b₃.chk = b₂.chk ∧ b₃.toPlay = b₂.toPlay := by
  unfold relocateOrPromote at h
  rcases hg5 : pm.g5 with _ | promoC <;> rw [hg5] at h <;> try simp only [] at h
  · rcases hr : pc.rank with _ | pr <;> rw [hr] at h <;> try simp only [] at h
    · cases h
    rcases hf : pc.file with _ | pf <;> rw [hf] at h <;> try simp only [] at h
    · cases h
    rcases m1 : b₂.move (pr, pf) (pmRank pm, pmFile pm) with ⟨r1, bA⟩
    have hm1 := move_meta b₂ (pr, pf) (pmRank pm, pmFile pm)
    rw [m1] at hm1 h
    rcases r1 with e | u1 <;> try simp only [] at h
    · cases h
    rw [except_pure] at h
    injection h with h2
    rw [← h2]
    exact hm1
  · rcases hr : pc.rank with _ | pr <;> rw [hr] at h <;> try simp only [] at h
    · cases h
    rcases hf : pc.file with _ | pf <;> rw [hf] at h <;> try simp only [] at h
    · cases h
    rcases m1 : b₂.take (pr, pf) with ⟨r1, bA⟩
    have hm1 := take_meta b₂ (pr, pf)
    rw [m1] at hm1 h
    rcases r1 with e | u1 <;> try simp only [] at h
    · cases h
    rcases hko : (if promoC = 'N' then some Kind.N
        else if promoC = 'B' then some Kind.B
        else if promoC = 'R' then some Kind.R
        else if promoC = 'Q' then some Kind.Q
        else none) with _ | k <;> rw [hko] at h <;> try simp only [] at h
    · cases h
    rcases m2 : mkPiece bA k (pmRank pm) (pmFile pm) t ((bA.listOf k pc.color).length)
        with ⟨r2, bB⟩
    have hm2 := mkPiece_meta bA k (pmRank pm) (pmFile pm) t ((bA.listOf k pc.color).length)
    rw [m2] at hm2 h
    rcases r2 with e | u2 <;> try simp only [] at h
    · cases h
    rw [except_pure] at h
    injection h with h2
    rw [← h2]
    exact ⟨hm2.1.trans hm1.1, hm2.2.1.trans hm1.2.1, hm2.2.2.trans hm1.2.2⟩

/-- Characterisation of the en-passant target update step: the target is set
exactly for a pawn whose recorded rank is two away from the destination rank,
and the step touches nothing but the target. -/
theorem epUpdate_char {b₁ : Board} {pc : Pc} {rank file : Int} {b₂ : Board}
    (h : epUpdate b₁ pc rank file = .ok b₂) :
    (b₂.ep ≠ none →
      pc.name = Kind.P ∧ pc.file = some file ∧ ∃ pr, pc.rank = some pr ∧ |pr - rank| = 2 ∧
        b₂.ep = some (rank + Int.fdiv (pr - rank) 2, file, rank)) ∧
    (∀ pr, pc.name = Kind.P → pc.file = some file → pc.rank = some pr → |pr - rank| = 2 →
      b₂.ep = some (rank + Int.fdiv (pr - rank) 2, file, rank)) ∧
    b₂.chk = b₁.chk ∧ b₂.toPlay = b₁.toPlay := by
  unfold epUpdate at h
  by_cases hc : pc.name = Kind.P ∧ pc.file = some file
  · rw [if_pos hc] at h
    rcases hpr : pc.rank with _ | pr <;> rw [hpr] at h <;> try simp only [] at h
    · cases h
    by_cases h2 : |pr - rank| = 2
    · rw [if_pos h2, except_pure] at h
      injection h with h3
      rw [← h3]
      refine ⟨fun _ => ⟨hc.1, hc.2, pr, rfl, h2, rfl⟩, ?_, rfl, rfl⟩
      intro pr' _ _ hpr' _
      injection hpr' with h4
      subst h4
      rfl
    · rw [if_neg h2, except_pure] at h
      injection h with h3
      rw [← h3]
      refine ⟨fun hne => (hne rfl).elim, ?_, rfl, rfl⟩
      intro pr' _ _ hpr' h2'
      injection hpr' with h4
      subst h4
      exact (h2 h2').elim
  · rw [if_neg hc, except_pure] at h
    injection h with h3
    rw [← h3]
    refine ⟨fun hne => (hne rfl).elim, ?_, rfl, rfl⟩
    intro pr' hn hf _ _
    exact (hc ⟨hn, hf⟩).elim

/-! ### Claims C4 and C5 — en-passant target lifecycle and empty-square
captures

The two castle branches of `movePGN` never touch `en_passant_target`, so the
target set by a double pawn push survives a castling reply: the lifecycle
invariant fails after a castle, and an en-passant capture two plies after the
push (with a castle in between) is accepted instead of failing with
`ImpossibleCapture`. -/

/-- Scenario board: White Ke1, Pd2, Pc2; Black Ke8, Rh8 with f8/g8 empty so
Black can castle king-side. -/
def castleEpBoard : Board :=
  let s := emptyBoard
  let s := (mkPiece s Kind.K 0 4 Color.white 0).2
  let s := (mkPiece s Kind.P 1 3 Color.white 0).2
  let s := (mkPiece s Kind.P 1 2 Color.white 1).2
  let s := (mkPiece s Kind.K 7 4 Color.black 0).2
  let s := (mkPiece s Kind.R 7 7 Color.black 0).2
  s

/-- The position after 1. d4 O-O. -/
def castleEpAfterTwo : Board :=
  ((movePGN castleEpBoard "d4").bind (fun s => movePGN s "O-O")).toOption.getD emptyBoard

/-- C4 counterexample: 1. d4 sets the en-passant target; Black's successful
castling move (the non-regex branch, `parseMove = none`) is not a two-square
pawn advance, yet it leaves the target set instead of clearing it. -/
theorem c4_castle_keeps_ep_target :
    (movePGN castleEpBoard "d4").bind (fun s => movePGN s "O-O") = .ok castleEpAfterTwo ∧
    parseMove "O-O" = none ∧
    castleEpAfterTwo.ep = some (2, 3, 3) := by
  decide

/-- The parse of "d4". -/
def pmD4 : PM := ⟨none, none, false, 'd', '4', none, false⟩

/-- The position after 1. d4 from `castleEpBoard`. -/
def c4Mid : Board := (movePGNParsed castleEpBoard pmD4).toOption.getD emptyBoard

/-- C4 (amended): after a successful regex-branch move, the en-passant target
is non-null exactly when the resolved piece was a pawn whose recorded rank was
two away from the destination rank (a two-square advance), in which case the
target records the jumped square and the landing rank; but a successful
castling move (the non-regex branch) leaves the previous target unchanged
rather than clearing it, so the lifecycle invariant holds for regex moves only
and fails for castling. -/
theorem c4_ep_lifecycle :
    (∀ (b : Board) (pm : PM) (s' : Board), movePGNParsed b pm = .ok s' →
      ((s'.ep ≠ none) ↔
        ∃ (cr : Int) (pid : Nat) (b₁ : Board) (pc : Pc) (pr : Int),
          epCaptureRank b pm = .ok cr ∧
          findPiece b (pmSrc pm) (pmRank pm, pmFile pm) pm.g2 pm.g3 = .ok (some pid) ∧
          capturePhase b pm cr = .ok b₁ ∧
          heapGet b₁ pid = some pc ∧
          pc.name = Kind.P ∧ pc.file = some (pmFile pm) ∧ pc.rank = some pr ∧
          |pr - pmRank pm| = 2 ∧
          s'.ep = some (pmRank pm + Int.fdiv (pr - pmRank pm) 2, pmFile pm, pmRank pm))) ∧
    (∀ (b : Board) (m : String) (s' : Board), parseMove m = none →
      movePGN b m = .ok s' → s'.ep = b.ep) := by
  constructor
  · intro b pm s' h
    unfold movePGNParsed at h
    rcases hc : applyParsedCore b pm with e | s₁ <;> rw [hc] at h
    · rw [except_bind_error] at h
      cases h
    simp only [except_bind_ok] at h
    rcases hv : checkValidate s₁ with e | u <;> rw [hv] at h
    · rw [except_bind_error] at h
      cases h
    simp only [except_bind_ok, except_pure] at h
    injection h with hflag
    have hse : s'.ep = s₁.ep := by
      rw [← hflag]
      exact setCheckFlag_ep s₁ pm.g6
    unfold applyParsedCore at hc
    rcases h1 : epCaptureRank b pm with e | cr <;> rw [h1] at hc
    · rw [except_bind_error] at hc
      cases hc
    simp only [except_bind_ok] at hc
    rcases h2f : findPiece b (pmSrc pm) (pmRank pm, pmFile pm) pm.g2 pm.g3 with e | pOpt <;>
      rw [h2f] at hc
    · rw [except_bind_error] at hc
      cases hc
    simp only [except_bind_ok] at hc
    rcases pOpt with _ | pid <;> try simp only [] at hc
    · cases hc
    rcases h3 : capturePhase b pm cr with e | b₁ <;> rw [h3] at hc
    · rw [except_bind_error] at hc
      cases hc
    simp only [except_bind_ok] at hc
    rcases h4 : heapGet b₁ pid with _ | pc <;> rw [h4] at hc <;> try simp only [] at hc
    · cases hc
    rcases h5 : epUpdate b₁ pc (pmRank pm) (pmFile pm) with e | b₂ <;> rw [h5] at hc
    · rw [except_bind_error] at hc
      cases hc
    simp only [except_bind_ok] at hc
    rcases h6 : relocateOrPromote b₂ pc pm b.toPlay with e | b₃ <;> rw [h6] at hc
    · rw [except_bind_error] at hc
      cases hc
    simp only [except_bind_ok, except_pure] at hc
    injection hc with h7
    have hchain : s'.ep = b₂.ep := by
      rw [hse, ← h7]
      exact (relocateOrPromote_meta h6).1
    constructor
    · intro hne
      rw [hchain] at hne
      obtain ⟨hn, hf, pr, hpr, h2d, hval⟩ := (epUpdate_char h5).1 hne
      exact ⟨cr, pid, b₁, pc, pr, rfl, rfl, h3, h4, hn, hf, hpr, h2d, by rw [hchain, hval]⟩
    · rintro ⟨cr', pid', b₁', pc', pr', hh1, hh2, hh3, hh4, hh5, hh6, hh7, hh8, hh9⟩
      rw [hh9]
      exact Option.some_ne_none _
  · intro b m s' hpm h
    unfold movePGN at h
    rw [hpm] at h
    try simp only [] at h
    by_cases hq : strStarts "O-O-O" m = true
    · rw [if_pos hq] at h
      exact castleQueenside_ep b (lastIsPlus m) h
    · rw [if_neg hq] at h
      by_cases hk : strStarts "O-O" m = true
      · rw [if_pos hk] at h
        exact castleKingside_ep b (lastIsPlus m) h
      · rw [if_neg hk] at h
        cases h

/-- Witness for `c4_ep_lifecycle`: 1. d4 (a double push, target set) followed
by Black's O-O (a castle, target preserved). -/
theorem c4_ep_lifecycle_witness :
    c4Mid.ep ≠ none ∧ castleEpAfterTwo.ep = c4Mid.ep :=
  ⟨(c4_ep_lifecycle.1 castleEpBoard pmD4 c4Mid (by decide)).2
      ⟨3, 1, castleEpBoard, ⟨Kind.P, Color.white, some 1, some 3, 0⟩, 1,
        by decide, by decide, by decide, by decide, by decide, by decide, by decide,
        by decide, by decide⟩,
    c4_ep_lifecycle.2 c4Mid "O-O" castleEpAfterTwo (by decide) (by decide)⟩

/-- C5 counterexample: two plies after the double push (the intervening move
being the castle), the declared capture `xd3` onto the still-empty target
square succeeds — removing White's own d4 pawn — where the claim requires
`ImpossibleCapture` for any attempt later than the immediately following
move. -/
theorem c5_late_en_passant_accepted :
    castleEpAfterTwo.ep = some (2, 3, 3) ∧
    castleEpAfterTwo.toPlay = Color.white ∧
    cellAt castleEpAfterTwo 2 3 = none ∧
    (movePGN castleEpAfterTwo "xd3").isOk = true ∧
    cellAt ((movePGN castleEpAfterTwo "xd3").toOption.getD emptyBoard) 3 3 = none := by
  decide

theorem movePGNParsed_epErr {b : Board} {pm : PM} {e : Err}
    (h : epCaptureRank b pm = .error e) : movePGNParsed b pm = .error e := by
  unfold movePGNParsed applyParsedCore
  rw [h, except_bind_error, except_bind_error]

/-- The parse of "xd3". -/
def pmXd3 : PM := ⟨none, none, true, 'd', '3', none, false⟩

/-- The position after the late en-passant capture `xd3` from
`castleEpAfterTwo`. -/
def c5After : Board := (movePGNParsed castleEpAfterTwo pmXd3).toOption.getD emptyBoard

/-- C5 (amended): a declared capture onto an empty in-range destination fails
with `ImpossibleCapture` unless the mover key is Pawn and the destination rank
and file equal the first two components of the *current* en-passant target; on
success the removed pawn is the one on the target's recorded rank, not the
destination rank. The window is not limited to the immediately following move:
castling never clears the target, so a stale target still authorizes the
capture. -/
theorem c5_empty_capture (b : Board) (pm : PM)
    (hg3 : pm.g3 = true)
    (hr0 : 0 ≤ pmRank pm) (hr7 : pmRank pm ≤ 7) (hf0 : 0 ≤ pmFile pm) (hf7 : pmFile pm ≤ 7)
    (hempty : cellAt b (pmRank pm) (pmFile pm) = none) :
    ((∀ e0 e1 e2, b.ep = some (e0, e1, e2) →
        ¬(pmSrc pm = Kind.P ∧ pmRank pm = e0 ∧ pmFile pm = e1)) →
      movePGNParsed b pm = .error Err.impossibleCapture) ∧
    (∀ s', movePGNParsed b pm = .ok s' →
      ∃ e0 e1 e2, b.ep = some (e0, e1, e2) ∧
        pmSrc pm = Kind.P ∧ pmRank pm = e0 ∧ pmFile pm = e1 ∧
        epCaptureRank b pm = .ok e2 ∧
        capturePhase b pm e2 = .ok ((Board.take b (e2, pmFile pm)).2)) := by
  have hi : rfToIndex (pmRank pm) (pmFile pm) = .ok (pmFile pm * 8 + pmRank pm) :=
    rfToIndex_ok hr0 (by omega) hf0 hf7
  have hcell : cellIdx b (pmFile pm * 8 + pmRank pm) = .ok none := by
    rw [cellIdx_ok (by omega) (by omega)]
    exact congrArg Except.ok hempty
  have hep : epCaptureRank b pm =
      (match b.ep with
       | some (e0, e1, e2) =>
         if pmSrc pm = Kind.P ∧ pmRank pm = e0 ∧ pmFile pm = e1 then pure e2
         else Except.error Err.impossibleCapture
       | none => Except.error Err.impossibleCapture) := by
    unfold epCaptureRank
    rw [if_pos hg3, hi]
    simp only [except_bind_ok]
    rw [hcell]
    simp only [except_bind_ok]
    rw [if_pos trivial]
  constructor
  · intro hno
    rcases hepv : b.ep with _ | ⟨e0, e1, e2⟩ <;> rw [hepv] at hep <;> try simp only [] at hep
    · exact movePGNParsed_epErr hep
    · rw [if_neg (hno e0 e1 e2 hepv)] at hep
      exact movePGNParsed_epErr hep
  · intro s' hs
    unfold movePGNParsed at hs
    rcases happ : applyParsedCore b pm with e | s₁ <;> rw [happ] at hs
    · rw [except_bind_error] at hs
      cases hs
    unfold applyParsedCore at happ
    rcases h1 : epCaptureRank b pm with e | cr <;> rw [h1] at happ
    · rw [except_bind_error] at happ
      cases happ
    simp only [except_bind_ok] at happ
    rcases h2f : findPiece b (pmSrc pm) (pmRank pm, pmFile pm) pm.g2 pm.g3 with e | pOpt <;>
      rw [h2f] at happ
    · rw [except_bind_error] at happ
      cases happ
    simp only [except_bind_ok] at happ
    rcases pOpt with _ | pid <;> try simp only [] at happ
    · cases happ
    rcases h3 : capturePhase b pm cr with e | b₁ <;> rw [h3] at happ
    · rw [except_bind_error] at happ
      cases happ
    rcases hepv : b.ep with _ | ⟨e0, e1, e2⟩ <;> rw [hepv] at hep <;> try simp only [] at hep
    · rw [hep] at h1
      cases h1
    by_cases hcond : pmSrc pm = Kind.P ∧ pmRank pm = e0 ∧ pmFile pm = e1
    · rw [if_pos hcond, except_pure] at hep
      rw [hep] at h1
      injection h1 with hcr
      subst hcr
      rcases ht : Board.take b (e2, pmFile pm) with ⟨rt, bT⟩
      unfold capturePhase at h3
      rw [if_pos hg3, ht] at h3
      rcases rt with e | u <;> try simp only [] at h3
      · cases h3
      refine ⟨e0, e1, e2, rfl, hcond.1, hcond.2.1, hcond.2.2, rfl, ?_⟩
      unfold capturePhase
      rw [if_pos hg3, ht]
      rfl
    · rw [if_neg hcond] at hep
      rw [hep] at h1
      cases h1

/-- Witness for `c5_empty_capture`: `xd3` onto the empty d3 square fails with
`ImpossibleCapture` when no target is set, and succeeds two plies after the
double push (target kept alive by the castle), removing the pawn on the
recorded rank. -/
theorem c5_empty_capture_witness :
    movePGNParsed castleEpBoard pmXd3 = .error Err.impossibleCapture ∧
    (∃ e0 e1 e2, castleEpAfterTwo.ep = some (e0, e1, e2) ∧
      pmSrc pmXd3 = Kind.P ∧ pmRank pmXd3 = e0 ∧ pmFile pmXd3 = e1 ∧
      epCaptureRank castleEpAfterTwo pmXd3 = .ok e2 ∧
      capturePhase castleEpAfterTwo pmXd3 e2 =
        .ok ((Board.take castleEpAfterTwo (e2, pmFile pmXd3)).2)) :=
  ⟨(c5_empty_capture castleEpBoard pmXd3 (by decide) (by decide) (by decide) (by decide)
      (by decide) (by decide)).1
      (fun e0 e1 e2 h =>
        Option.noConfusion (h.symm.trans (by decide : castleEpBoard.ep = none))),
    (c5_empty_capture castleEpAfterTwo pmXd3 (by decide) (by decide) (by decide) (by decide)
      (by decide) (by decide)).2 c5After (by decide)⟩

/-! ### Claim C3 — post-move check validation

When the check flag is set, `movePGN` validates the move by scanning the
pieces of the side to move *after* the toggle (the opponent of the mover)
against the king of the color recorded in the check flag — not, as the claim
states, the mover's pieces against the enemy king. -/

/-- Scenario board: White Ka1 and Qh2, Black Kh8, check flag set for White
(White to move, nominally in check). -/
def c3Board : Board :=
  let s := emptyBoard
  let s := (mkPiece s Kind.K 0 0 Color.white 0).2
  let s := (mkPiece s Kind.Q 1 7 Color.white 0).2
  let s := (mkPiece s Kind.K 7 7 Color.black 0).2
  { s with chk := some Color.white }

/-- The position after Qh3 from `c3Board`. -/
def c3After : Board := (movePGN c3Board "Qh3").toOption.getD emptyBoard

/-- C3 counterexample: with the check flag set, White plays Qh3; afterwards
the mover's queen (pid 1, now on h3) still reaches the enemy king on h8, so
the claim's re-scan of "the mover's non-King pieces against the enemy king"
demands an illegal-move failure — but the call succeeds, because the code
scans the opponent's pieces against the flagged color's own king. -/
theorem c3_validation_direction :
    c3Board.chk = some Color.white ∧
    movePGN c3Board "Qh3" = .ok c3After ∧
    heapGet c3After 1 = some ⟨Kind.Q, Color.white, some 2, some 7, 0⟩ ∧
    c3After.bpKb = some 2 ∧
    heapGet c3After 2 = some ⟨Kind.K, Color.black, some 7, some 7, 0⟩ ∧
    reachPc c3After ⟨Kind.Q, Color.white, some 2, some 7, 0⟩ (7, 7) true = .ok true := by
  decide

/-- The loop-body condition of the post-move scan, as a boolean: the piece's
heap record exists, the flagged king's coordinates resolve, and `reach` of the
king's square as a capture evaluates to `True`. -/
def attacksB (b : Board) (c : Color) (pid : Nat) : Bool :=
  match heapGet b pid with
  | none => false
  | some pc =>
    match kingCoords b c with
    | .error _ => false
    | .ok kco =>
      match reachPc b pc (kco.2.1, kco.2.2) true with
      | .ok true => true
      | _ => false

/-- Evaluability of the post-move scan over a piece list: every element has a
heap record, the king's coordinates resolve, and its `reach` call returns a
boolean rather than raising. -/
def scanEvalB (b : Board) (c : Color) : List Nat → Bool
  | [] => true
  | pid :: rest =>
    (match heapGet b pid with
     | none => false
     | some pc =>
       match kingCoords b c with
       | .error _ => false
       | .ok kco =>
         match reachPc b pc (kco.2.1, kco.2.2) true with
         | .error _ => false
         | .ok _ => true) && scanEvalB b c rest

/-- The pieces scanned by the post-move check validation: the five non-King
lists of the side to move, in the scan order N, B, R, Q, P. -/
def nonKingPids (b : Board) : List Nat :=
  b.listOf .N b.toPlay ++ b.listOf .B b.toPlay ++ b.listOf .R b.toPlay ++
  b.listOf .Q b.toPlay ++ b.listOf .P b.toPlay

theorem scanReachList_ok (b : Board) (c : Color) (l : List Nat)
    (hev : scanEvalB b c l = true)
    (hall : ∀ pid ∈ l, attacksB b c pid = false) :
    scanReachList b c l = .ok () := by
  induction l with
  | nil => rfl
  | cons pid rest ih =>
    simp only [scanEvalB, Bool.and_eq_true] at hev
    obtain ⟨hhd, htl⟩ := hev
    have hatk := hall pid (List.mem_cons_self pid rest)
    unfold attacksB at hatk
    rcases hh : heapGet b pid with _ | pc <;> rw [hh] at hhd hatk <;>
      try simp only [] at hhd hatk
    · cases hhd
    rcases hk : kingCoords b c with e | kco <;> rw [hk] at hhd hatk <;>
      try simp only [] at hhd hatk
    · cases hhd
    rcases kco with ⟨kpid, kr, kf⟩
    try simp only [] at hhd hatk
    rcases hr : reachPc b pc (kr, kf) true with e | rb <;> rw [hr] at hhd hatk <;>
      try simp only [] at hhd hatk
    · cases hhd
    rcases rb with _ | _
    · simp only [scanReachList]
      rw [hh]
      try simp only []
      rw [hk]
      simp only [except_bind_ok]
      try simp only []
      rw [hr]
      simp only [except_bind_ok]
      rw [if_neg Bool.false_ne_true]
      exact ih htl (fun q hq => hall q (List.mem_cons_of_mem pid hq))
    · cases hatk

theorem scanReachList_err (b : Board) (c : Color) (l : List Nat)
    (hev : scanEvalB b c l = true)
    (hex : ∃ pid ∈ l, attacksB b c pid = true) :
    scanReachList b c l = .error Err.checkNotResolved := by
  induction l with
  | nil =>
    obtain ⟨q, hm, _⟩ := hex
    cases hm
  | cons pid rest ih =>
    simp only [scanEvalB, Bool.and_eq_true] at hev
    obtain ⟨hhd, htl⟩ := hev
    rcases hh : heapGet b pid with _ | pc <;> rw [hh] at hhd <;> try simp only [] at hhd
    · cases hhd
    rcases hk : kingCoords b c with e | kco <;> rw [hk] at hhd <;> try simp only [] at hhd
    · cases hhd
    rcases kco with ⟨kpid, kr, kf⟩
    try simp only [] at hhd
    rcases hr : reachPc b pc (kr, kf) true with e | rb <;> rw [hr] at hhd <;>
      try simp only [] at hhd
    · cases hhd
    rcases rb with _ | _
    · have hex' : ∃ q ∈ rest, attacksB b c q = true := by
        obtain ⟨q, hm, hq⟩ := hex
        rcases List.mem_cons.mp hm with hq1 | hq2
        · subst hq1
          unfold attacksB at hq
          rw [hh] at hq
          try simp only [] at hq
          rw [hk] at hq
          try simp only [] at hq
          rw [hr] at hq
          try simp only [] at hq
          cases hq
        · exact ⟨q, hq2, hq⟩
      simp only [scanReachList]
      rw [hh]
      try simp only []
      rw [hk]
      simp only [except_bind_ok]
      try simp only []
      rw [hr]
      simp only [except_bind_ok]
      rw [if_neg Bool.false_ne_true]
      exact ih htl hex'
    · simp only [scanReachList]
      rw [hh]
      try simp only []
      rw [hk]
      simp only [except_bind_ok]
      try simp only []
      rw [hr]
      simp only [except_bind_ok]
      rw [if_pos trivial]

theorem scanEvalB_append (b : Board) (c : Color) (l₁ l₂ : List Nat) :
    scanEvalB b c (l₁ ++ l₂) = (scanEvalB b c l₁ && scanEvalB b c l₂) := by
  induction l₁ with
  | nil => simp [scanEvalB]
  | cons pid rest ih => simp only [List.cons_append, scanEvalB, List.append_eq, ih, Bool.and_assoc]

/-- The five-list decomposition of the post-move check validation, under the
assumption that every scanned `reach` call evaluates. -/
theorem checkValidate_char (s : Board) (c : Color) (hc : s.chk = some c)
    (hev : scanEvalB s c (nonKingPids s) = true) :
    ((∀ pid ∈ nonKingPids s, attacksB s c pid = false) → checkValidate s = .ok ()) ∧
    ((∃ pid ∈ nonKingPids s, attacksB s c pid = true) →
      checkValidate s = .error Err.checkNotResolved) := by
  simp only [nonKingPids, scanEvalB_append, Bool.and_eq_true] at hev
  obtain ⟨⟨⟨⟨hev1, hev2⟩, hev3⟩, hev4⟩, hev5⟩ := hev
  have sub1 : ∀ q, q ∈ s.listOf .N s.toPlay → q ∈ nonKingPids s := by
    intro q hq
    simp only [nonKingPids]
    exact List.mem_append_left _ (List.mem_append_left _ (List.mem_append_left _
      (List.mem_append_left _ hq)))
  have sub2 : ∀ q, q ∈ s.listOf .B s.toPlay → q ∈ nonKingPids s := by
    intro q hq
    simp only [nonKingPids]
    exact List.mem_append_left _ (List.mem_append_left _ (List.mem_append_left _
      (List.mem_append_right _ hq)))
  have sub3 : ∀ q, q ∈ s.listOf .R s.toPlay → q ∈ nonKingPids s := by
    intro q hq
    simp only [nonKingPids]
    exact List.mem_append_left _ (List.mem_append_left _ (List.mem_append_right _ hq))
  have sub4 : ∀ q, q ∈ s.listOf .Q s.toPlay → q ∈ nonKingPids s := by
    intro q hq
    simp only [nonKingPids]
    exact List.mem_append_left _ (List.mem_append_right _ hq)
  have sub5 : ∀ q, q ∈ s.listOf .P s.toPlay → q ∈ nonKingPids s := by
    intro q hq
    simp only [nonKingPids]
    exact List.mem_append_right _ hq
  have toAll : ∀ (L : List Nat), ¬(∃ q ∈ L, attacksB s c q = true) →
      ∀ q ∈ L, attacksB s c q = false := by
    intro L hN q hq
    cases hb : attacksB s c q
    · rfl
    · exact (hN ⟨q, hq, hb⟩).elim
  have hcv : checkValidate s = (do
      scanReachList s c (s.listOf .N s.toPlay)
      scanReachList s c (s.listOf .B s.toPlay)
      scanReachList s c (s.listOf .R s.toPlay)
      scanReachList s c (s.listOf .Q s.toPlay)
      scanReachList s c (s.listOf .P s.toPlay)) := by
    unfold checkValidate
    rw [hc]
  constructor
  · intro hall
    rw [hcv]
    rw [scanReachList_ok s c _ hev1 (fun q hq => hall q (sub1 q hq))]
    simp only [except_bind_ok]
    rw [scanReachList_ok s c _ hev2 (fun q hq => hall q (sub2 q hq))]
    simp only [except_bind_ok]
    rw [scanReachList_ok s c _ hev3 (fun q hq => hall q (sub3 q hq))]
    simp only [except_bind_ok]
    rw [scanReachList_ok s c _ hev4 (fun q hq => hall q (sub4 q hq))]
    simp only [except_bind_ok]
    exact scanReachList_ok s c _ hev5 (fun q hq => hall q (sub5 q hq))
  · intro hex
    rw [hcv]
    by_cases h1 : ∃ q ∈ s.listOf .N s.toPlay, attacksB s c q = true
    · rw [scanReachList_err s c _ hev1 h1, except_bind_error]
    rw [scanReachList_ok s c _ hev1 (toAll _ h1)]
    simp only [except_bind_ok]
    by_cases h2 : ∃ q ∈ s.listOf .B s.toPlay, attacksB s c q = true
    · rw [scanReachList_err s c _ hev2 h2, except_bind_error]
    rw [scanReachList_ok s c _ hev2 (toAll _ h2)]
    simp only [except_bind_ok]
    by_cases h3 : ∃ q ∈ s.listOf .R s.toPlay, attacksB s c q = true
    · rw [scanReachList_err s c _ hev3 h3, except_bind_error]
    rw [scanReachList_ok s c _ hev3 (toAll _ h3)]
    simp only [except_bind_ok]
    by_cases h4 : ∃ q ∈ s.listOf .Q s.toPlay, attacksB s c q = true
    · rw [scanReachList_err s c _ hev4 h4, except_bind_error]
    rw [scanReachList_ok s c _ hev4 (toAll _ h4)]
    simp only [except_bind_ok]
    have h5 : ∃ q ∈ s.listOf .P s.toPlay, attacksB s c q = true := by
      obtain ⟨q, hm, hq⟩ := hex
      simp only [nonKingPids] at hm
      rcases List.mem_append.mp hm with h14 | h5m
      · rcases List.mem_append.mp h14 with h13 | h4m
        · rcases List.mem_append.mp h13 with h12 | h3m
          · rcases List.mem_append.mp h12 with h1m | h2m
            · exact (h1 ⟨q, h1m, hq⟩).elim
            · exact (h2 ⟨q, h2m, hq⟩).elim
          · exact (h3 ⟨q, h3m, hq⟩).elim
        · exact (h4 ⟨q, h4m, hq⟩).elim
      · exact ⟨q, h5m, hq⟩
    exact scanReachList_err s c _ hev5 h5

/-- Full decomposition of a successful `applyParsedCore` run into its stages. -/
theorem applyParsedCore_parts {b : Board} {pm : PM} {s₁ : Board}
    (h : applyParsedCore b pm = .ok s₁) :
    ∃ cr pid b₁ pc b₂ b₃,
      epCaptureRank b pm = .ok cr ∧
      findPiece b (pmSrc pm) (pmRank pm, pmFile pm) pm.g2 pm.g3 = .ok (some pid) ∧
      capturePhase b pm cr = .ok b₁ ∧
      heapGet b₁ pid = some pc ∧
      epUpdate b₁ pc (pmRank pm) (pmFile pm) = .ok b₂ ∧
      relocateOrPromote b₂ pc pm b.toPlay = .ok b₃ ∧
      s₁ = { b₃ with toPlay := b₃.toPlay.other } := by
  unfold applyParsedCore at h
  rcases h1 : epCaptureRank b pm with e | cr <;> rw [h1] at h
  · rw [except_bind_error] at h
    cases h
  simp only [except_bind_ok] at h
  rcases h2 : findPiece b (pmSrc pm) (pmRank pm, pmFile pm) pm.g2 pm.g3 with e | pOpt <;>
    rw [h2] at h
  · rw [except_bind_error] at h
    cases h
  simp only [except_bind_ok] at h
  rcases pOpt with _ | pid <;> try simp only [] at h
  · cases h
  rcases h3 : capturePhase b pm cr with e | b₁ <;> rw [h3] at h
  · rw [except_bind_error] at h
    cases h
  simp only [except_bind_ok] at h
  rcases h4 : heapGet b₁ pid with _ | pc <;> rw [h4] at h <;> try simp only [] at h
  · cases h
  rcases h5 : epUpdate b₁ pc (pmRank pm) (pmFile pm) with e | b₂ <;> rw [h5] at h
  · rw [except_bind_error] at h
    cases h
  simp only [except_bind_ok] at h
  rcases h6 : relocateOrPromote b₂ pc pm b.toPlay with e | b₃ <;> rw [h6] at h
  · rw [except_bind_error] at h
    cases h
  simp only [except_bind_ok, except_pure] at h
  injection h with h7
  exact ⟨cr, pid, b₁, pc, b₂, b₃, rfl, rfl, h3, h4, h5, h6, h7.symm⟩

theorem capturePhase_meta {b : Board} {pm : PM} {cr : Int} {b₁ : Board}
    (h : capturePhase b pm cr = .ok b₁) :
    b₁.ep = b.ep ∧ b₁.chk = b.chk ∧ b₁.toPlay = b.toPlay := by
  unfold capturePhase at h
  by_cases hg : pm.g3 = true
  · rw [if_pos hg] at h
    rcases ht : Board.take b (cr, pmFile pm) with ⟨rt, bT⟩
    have hm := take_meta b (cr, pmFile pm)
    rw [ht] at hm h
    rcases rt with e | u <;> try simp only [] at h
    · cases h
    rw [except_pure] at h
    injection h with h2
    rw [← h2]
    exact hm
  · rw [if_neg hg, except_pure] at h
    injection h with h2
    rw [← h2]
    exact ⟨rfl, rfl, rfl⟩

/-- A successful `applyParsedCore` keeps the check flag and toggles the side
to move. -/
theorem applyParsedCore_meta {b : Board} {pm : PM} {s₁ : Board}
    (h : applyParsedCore b pm = .ok s₁) :
    s₁.chk = b.chk ∧ s₁.toPlay = b.toPlay.other := by
  obtain ⟨cr, pid, b₁, pc, b₂, b₃, h1, h2, h3, h4, h5, h6, h7⟩ := applyParsedCore_parts h
  have m3 := capturePhase_meta h3
  have m5 := epUpdate_char h5
  have m6 := relocateOrPromote_meta h6
  subst h7
  constructor
  · exact m6.2.1.trans (m5.2.2.1.trans m3.2.1)
  · show b₃.toPlay.other = b.toPlay.other
    rw [m6.2.2, m5.2.2.2, m3.2.2]

theorem movePGNParsed_validate_ok {b : Board} {pm : PM} {s₁ : Board}
    (happ : applyParsedCore b pm = .ok s₁) (hv : checkValidate s₁ = .ok ()) :
    movePGNParsed b pm = .ok (setCheckFlag s₁ pm.g6) := by
  unfold movePGNParsed
  rw [happ]
  simp only [except_bind_ok]
  rw [hv]
  simp only [except_bind_ok]
  rfl

theorem movePGNParsed_validate_err {b : Board} {pm : PM} {s₁ : Board} {e : Err}
    (happ : applyParsedCore b pm = .ok s₁) (hv : checkValidate s₁ = .error e) :
    movePGNParsed b pm = .error e := by
  unfold movePGNParsed
  rw [happ]
  simp only [except_bind_ok]
  rw [hv, except_bind_error]

/-- The parse of "Qh3". -/
def pmQh3 : PM := ⟨some 'Q', none, false, 'h', '3', none, false⟩

/-- The board produced by the move body of Qh3 from `c3Board`, before the
check validation and the flag update. -/
def c3S1 : Board := (applyParsedCore c3Board pmQh3).toOption.getD emptyBoard

/-- C3 (amended): with the check flag recording color `c`, the regex branch
validates the applied move by scanning the non-King pieces of the side to
move *after* the turn toggle — the mover's opponent, not the mover — for
reachability (as a capture) of `c`'s *own* king's square — not the enemy
king's. Provided every scanned `reach` call evaluates, the move fails with
`CheckNotResolved` exactly when one of those opponent pieces reaches that
square, and otherwise succeeds with the check flag rewritten from the move's
trailing `+` alone. -/
theorem c3_check_validation (b : Board) (pm : PM) (s₁ : Board) (c : Color)
    (happ : applyParsedCore b pm = .ok s₁) (hchk : b.chk = some c)
    (hev : scanEvalB s₁ c (nonKingPids s₁) = true) :
    s₁.toPlay = b.toPlay.other ∧ s₁.chk = some c ∧
    (movePGNParsed b pm = .ok (setCheckFlag s₁ pm.g6) ↔
      ∀ pid ∈ nonKingPids s₁, attacksB s₁ c pid = false) ∧
    (movePGNParsed b pm = .error Err.checkNotResolved ↔
      ∃ pid ∈ nonKingPids s₁, attacksB s₁ c pid = true) := by
  obtain ⟨hchk1, htp⟩ := applyParsedCore_meta happ
  have hc1 : s₁.chk = some c := hchk1.trans hchk
  have hcc := checkValidate_char s₁ c hc1 hev
  refine ⟨htp, hc1, ?_, ?_⟩
  all_goals
    by_cases hA : ∃ pid ∈ nonKingPids s₁, attacksB s₁ c pid = true
  case pos =>
    have herr := movePGNParsed_validate_err happ (hcc.2 hA)
    constructor
    · intro hok
      rw [herr] at hok
      cases hok
    · intro hall
      obtain ⟨q, hm, hq⟩ := hA
      rw [hall q hm] at hq
      cases hq
  case neg =>
    have hall : ∀ pid ∈ nonKingPids s₁, attacksB s₁ c pid = false := by
      intro q hm
      cases hb : attacksB s₁ c q
      · rfl
      · exact (hA ⟨q, hm, hb⟩).elim
    have hok := movePGNParsed_validate_ok happ (hcc.1 hall)
    exact ⟨fun _ => hall, fun _ => hok⟩
  case pos =>
    have herr := movePGNParsed_validate_err happ (hcc.2 hA)
    exact ⟨fun _ => hA, fun _ => herr⟩
  case neg =>
    have hall : ∀ pid ∈ nonKingPids s₁, attacksB s₁ c pid = false := by
      intro q hm
      cases hb : attacksB s₁ c q
      · rfl
      · exact (hA ⟨q, hm, hb⟩).elim
    have hok := movePGNParsed_validate_ok happ (hcc.1 hall)
    constructor
    · intro herr
      rw [hok] at herr
      cases herr
    · intro hEx
      exact (hA hEx).elim

/-- Witness for `c3_check_validation`: Qh3 from the flagged position. The
opponent (Black) has no non-King pieces, so the scan is empty and the move
succeeds even though the mover's queen attacks the enemy king. -/
theorem c3_check_validation_witness :
    c3S1.toPlay = c3Board.toPlay.other ∧ c3S1.chk = some Color.white ∧
    (movePGNParsed c3Board pmQh3 = .ok (setCheckFlag c3S1 pmQh3.g6) ↔
      ∀ pid ∈ nonKingPids c3S1, attacksB c3S1 Color.white pid = false) ∧
    (movePGNParsed c3Board pmQh3 = .error Err.checkNotResolved ↔
      ∃ pid ∈ nonKingPids c3S1, attacksB c3S1 Color.white pid = true) :=
  c3_check_validation c3Board pmQh3 c3S1 Color.white (by decide) (by decide) (by decide)

theorem Color.other_other (c : Color) : c.other.other = c := by
  cases c <;> rfl

theorem soleOcc_none_eq_some {m : List Nat} {p : Nat} :
    soleOcc none m = some p ↔ m = [p] := by
  rcases m with _ | ⟨x, _ | ⟨y, t⟩⟩ <;> simp [soleOcc]

theorem filterMap_eq_singleton {α β : Type} {l : List α} {f : α → Option β} {p : β}
    (hnd : l.Nodup) :
    l.filterMap f = [p] ↔ ∃ x ∈ l, f x = some p ∧ ∀ y ∈ l, y ≠ x → f y = none := by
  induction l with
  | nil => simp
  | cons a t ih =>
    rw [List.nodup_cons] at hnd
    obtain ⟨ha, ht⟩ := hnd
    rcases hfa : f a with _ | b
    · simp only [List.filterMap_cons, hfa]
      rw [ih ht]
      constructor
      · rintro ⟨x, hx, hfx, hall⟩
        refine ⟨x, List.mem_cons_of_mem a hx, hfx, ?_⟩
        intro y hy hne
        rcases List.mem_cons.mp hy with rfl | hy2
        · exact hfa
        · exact hall y hy2 hne
      · rintro ⟨x, hx, hfx, hall⟩
        rcases List.mem_cons.mp hx with rfl | hx2
        · rw [hfa] at hfx
          cases hfx
        · refine ⟨x, hx2, hfx, ?_⟩
          intro y hy hne
          exact hall y (List.mem_cons_of_mem a hy) hne
    · simp only [List.filterMap_cons, hfa]
      constructor
      · intro h
        injection h with hb ht0
        rw [List.filterMap_eq_nil_iff] at ht0
        subst hb
        refine ⟨a, List.mem_cons_self a t, hfa, ?_⟩
        intro y hy hne
        rcases List.mem_cons.mp hy with rfl | hy2
        · exact (hne rfl).elim
        · exact ht0 y hy2
      · rintro ⟨x, hx, hfx, hall⟩
        rcases List.mem_cons.mp hx with heq | hx2
        · subst heq
          rw [hfa] at hfx
          injection hfx with hb
          rw [hb]
          have ht0 : List.filterMap f t = [] := by
            rw [List.filterMap_eq_nil_iff]
            intro y hy
            exact hall y (List.mem_cons_of_mem x hy) (fun h => ha (h ▸ hy))
          rw [ht0]
        · have := hall a (List.mem_cons_self a t) (fun h => ha (h ▸ hx2))
          rw [hfa] at this
          cases this

theorem pyRange_one_nodup (a c : Int) : (pyRange a c 1).Nodup := by
  rw [pyRange_one_eq]
  refine List.Nodup.map ?_ (List.nodup_range _)
  intro i j h
  simp only [] at h
  omega

theorem pyRange_negone_nodup (a c : Int) : (pyRange a c (-1)).Nodup := by
  rw [pyRange_negone_eq]
  refine List.Nodup.map ?_ (List.nodup_range _)
  intro i j h
  simp only [] at h
  omega

/-- `p` is the sole occupant of the open segment between `q` and `k`: the
claim's "lies alone on the sliding piece's ray to the king". -/
def SolePin (b : Board) (q k : Int × Int) (p : Nat) : Prop :=
  ∃ x, SBetween q k x ∧ cellAt b x.1 x.2 = some p ∧
    ∀ y, SBetween q k y → y ≠ x → cellAt b y.1 y.2 = none

/-- `Rook.pinned` characterised: evaluates without error (given the enemy
king's coordinates and in-range squares), and reports `p` exactly when the
rook shares a file or rank with the king and `p` is alone strictly between. -/
theorem rookPinned_char {b : Board} {qc : Color} {qr qf : Int} {kpid : Nat} {kr kf : Int}
    (hk : kingCoords b qc.other = .ok (kpid, kr, kf))
    (hqr : 0 ≤ qr) (hqr7 : qr ≤ 7) (hqf : 0 ≤ qf) (hqf7 : qf ≤ 7)
    (hkr : 0 ≤ kr) (hkr7 : kr ≤ 7) (hkf : 0 ≤ kf) (hkf7 : kf ≤ 7)
    (hne : ¬(qr = kr ∧ qf = kf)) :
    ∃ w, rookPinned b qc qr qf = .ok w ∧
      ∀ p, (w = some p ↔
        ((qf = kf ∧ qr ≠ kr) ∨ (qr = kr ∧ qf ≠ kf)) ∧ SolePin b (qr, qf) (kr, kf) p) := by
  unfold rookPinned
  rw [hk]
  simp only [except_bind_ok]
  by_cases hff : qf = kf
  · have hrr : qr ≠ kr := fun h => hne ⟨h, hff⟩
    rw [if_pos hff, pyDivE_abs (show kr - qr ≠ 0 by omega), except_bind_ok]
    have hnd : ((pyRange (qr + Int.sign (kr - qr)) kr (Int.sign (kr - qr))).map
        (fun i => (i, kf))).Nodup := by
      rcases lt_trichotomy qr kr with hc | hc | hc
      · rw [show Int.sign (kr - qr) = 1 from Int.sign_eq_one_of_pos (by omega)]
        exact List.Nodup.map (fun i j h => congrArg Prod.fst h) (pyRange_one_nodup _ _)
      · omega
      · rw [show Int.sign (kr - qr) = -1 from Int.sign_eq_neg_one_of_neg (by omega)]
        exact List.Nodup.map (fun i j h => congrArg Prod.fst h) (pyRange_negone_nodup _ _)
    rw [pinScanM_ok none (by
      intro sq hsq
      rw [mem_fileWalk hrr] at hsq
      omega)]
    refine ⟨_, rfl, ?_⟩
    intro p
    rw [soleOcc_none_eq_some, filterMap_eq_singleton hnd]
    constructor
    · rintro ⟨x, hx, hfx, hall⟩
      refine ⟨Or.inl ⟨hff, hrr⟩, x, ?_, hfx, ?_⟩
      · rw [mem_fileWalk hrr] at hx
        obtain ⟨x1, x2⟩ := x
        rw [sbetween_file hff hrr]
        exact hx
      · intro y hy hne2
        refine hall y ?_ hne2
        rw [mem_fileWalk hrr]
        obtain ⟨y1, y2⟩ := y
        rw [sbetween_file hff hrr] at hy
        exact hy
    · rintro ⟨-, x, hsb, hcell, hall⟩
      refine ⟨x, ?_, hcell, ?_⟩
      · rw [mem_fileWalk hrr]
        obtain ⟨x1, x2⟩ := x
        rw [sbetween_file hff hrr] at hsb
        exact hsb
      · intro y hy hne2
        refine hall y ?_ hne2
        rw [mem_fileWalk hrr] at hy
        obtain ⟨y1, y2⟩ := y
        rw [sbetween_file hff hrr]
        exact hy
  · rw [if_neg hff]
    by_cases hrr : qr = kr
    · have hff2 : qf ≠ kf := hff
      rw [if_pos hrr, pyDivE_abs (show kf - qf ≠ 0 by omega), except_bind_ok]
      have hnd : ((pyRange (qf + Int.sign (kf - qf)) kf (Int.sign (kf - qf))).map
          (fun i => (kr, i))).Nodup := by
        rcases lt_trichotomy qf kf with hc | hc | hc
        · rw [show Int.sign (kf - qf) = 1 from Int.sign_eq_one_of_pos (by omega)]
          exact List.Nodup.map (fun i j h => congrArg Prod.snd h) (pyRange_one_nodup _ _)
        · omega
        · rw [show Int.sign (kf - qf) = -1 from Int.sign_eq_neg_one_of_neg (by omega)]
          exact List.Nodup.map (fun i j h => congrArg Prod.snd h) (pyRange_negone_nodup _ _)
      rw [pinScanM_ok none (by
        intro sq hsq
        rw [mem_rankWalk hff2] at hsq
        omega)]
      refine ⟨_, rfl, ?_⟩
      intro p
      rw [soleOcc_none_eq_some, filterMap_eq_singleton hnd]
      constructor
      · rintro ⟨x, hx, hfx, hall⟩
        refine ⟨Or.inr ⟨hrr, hff2⟩, x, ?_, hfx, ?_⟩
        · rw [mem_rankWalk hff2] at hx
          obtain ⟨x1, x2⟩ := x
          rw [sbetween_rank hrr hff2]
          exact hx
        · intro y hy hne2
          refine hall y ?_ hne2
          rw [mem_rankWalk hff2]
          obtain ⟨y1, y2⟩ := y
          rw [sbetween_rank hrr hff2] at hy
          exact hy
      · rintro ⟨-, x, hsb, hcell, hall⟩
        refine ⟨x, ?_, hcell, ?_⟩
        · rw [mem_rankWalk hff2]
          obtain ⟨x1, x2⟩ := x
          rw [sbetween_rank hrr hff2] at hsb
          exact hsb
        · intro y hy hne2
          refine hall y ?_ hne2
          rw [mem_rankWalk hff2] at hy
          obtain ⟨y1, y2⟩ := y
          rw [sbetween_rank hrr hff2]
          exact hy
    · rw [if_neg hrr]
      refine ⟨none, rfl, ?_⟩
      intro p
      constructor
      · intro h
        cases h
      · rintro ⟨hal, -⟩
        rcases hal with ⟨h1, -⟩ | ⟨h1, -⟩
        · exact (hff h1).elim
        · exact (hrr h1).elim

/-- `Bishop.pinned` characterised: reports `p` exactly when the bishop is
diagonal to the king and `p` is alone strictly between. -/
theorem bishopPinned_char {b : Board} {qc : Color} {qr qf : Int} {kpid : Nat} {kr kf : Int}
    (hk : kingCoords b qc.other = .ok (kpid, kr, kf))
    (hqr : 0 ≤ qr) (hqr7 : qr ≤ 7) (hqf : 0 ≤ qf) (hqf7 : qf ≤ 7)
    (hkr : 0 ≤ kr) (hkr7 : kr ≤ 7) (hkf : 0 ≤ kf) (hkf7 : kf ≤ 7)
    (hne : ¬(qr = kr ∧ qf = kf)) :
    ∃ w, bishopPinned b qc qr qf = .ok w ∧
      ∀ p, (w = some p ↔ |qr - kr| = |qf - kf| ∧ SolePin b (qr, qf) (kr, kf) p) := by
  unfold bishopPinned
  rw [hk]
  simp only [except_bind_ok]
  by_cases hd : |qr - kr| = |qf - kf|
  · have hrr : qr ≠ kr := by
      intro h
      rw [h, sub_self, abs_zero] at hd
      have := abs_eq_zero.mp hd.symm
      exact hne ⟨h, by omega⟩
    rw [if_pos hd, fdiv_max_sign, fdiv_max_sign]
    have hs : Int.sign (kr - qr) ≠ 0 := by
      intro h
      rw [Int.sign_eq_zero_iff_zero] at h
      omega
    have hnd : ((pyRange 1 |kr - qr| 1).map
        (fun i => (qr + i * Int.sign (kr - qr), qf + i * Int.sign (kf - qf)))).Nodup := by
      refine List.Nodup.map ?_ (pyRange_one_nodup _ _)
      intro i j h
      have h1 := congrArg Prod.fst h
      simp only [] at h1
      have h2 := add_left_cancel h1
      exact mul_right_cancel₀ hs h2
    rw [pinScanM_ok none (by
      intro sq hsq
      rw [mem_diagWalk hd] at hsq
      obtain ⟨x1, x2⟩ := sq
      rw [sbetween_diag hd] at hsq
      obtain ⟨t, h1, h2, h3, h4⟩ := hsq
      show 0 ≤ x1 ∧ x1 ≤ 7 ∧ 0 ≤ x2 ∧ x2 ≤ 7
      rw [h3, h4]
      exact diagWalk_sq_range hd h1 h2 hqr hqr7 hqf hqf7 hkr hkr7 hkf hkf7)]
    refine ⟨_, rfl, ?_⟩
    intro p
    rw [soleOcc_none_eq_some, filterMap_eq_singleton hnd]
    constructor
    · rintro ⟨x, hx, hfx, hall⟩
      exact ⟨hd, x, (mem_diagWalk hd).mp hx, hfx,
        fun y hy hne2 => hall y ((mem_diagWalk hd).mpr hy) hne2⟩
    · rintro ⟨-, x, hsb, hcell, hall⟩
      exact ⟨x, (mem_diagWalk hd).mpr hsb, hcell,
        fun y hy hne2 => hall y ((mem_diagWalk hd).mp hy) hne2⟩
  · rw [if_neg hd]
    refine ⟨none, rfl, ?_⟩
    intro p
    constructor
    · intro h
      cases h
    · rintro ⟨h1, -⟩
      exact (hd h1).elim

/-- `Queen.pinned` characterised: the rook lines first, else the diagonal. -/
theorem queenPinned_char {b : Board} {qc : Color} {qr qf : Int} {kpid : Nat} {kr kf : Int}
    (hk : kingCoords b qc.other = .ok (kpid, kr, kf))
    (hqr : 0 ≤ qr) (hqr7 : qr ≤ 7) (hqf : 0 ≤ qf) (hqf7 : qf ≤ 7)
    (hkr : 0 ≤ kr) (hkr7 : kr ≤ 7) (hkf : 0 ≤ kf) (hkf7 : kf ≤ 7)
    (hne : ¬(qr = kr ∧ qf = kf)) :
    ∃ w, queenPinned b qc qr qf = .ok w ∧
      ∀ p, (w = some p ↔
        (((qf = kf ∧ qr ≠ kr) ∨ (qr = kr ∧ qf ≠ kf)) ∨
          (qr ≠ kr ∧ qf ≠ kf ∧ |qr - kr| = |qf - kf|)) ∧
        SolePin b (qr, qf) (kr, kf) p) := by
  unfold queenPinned
  rw [hk]
  simp only [except_bind_ok]
  by_cases hff : qf = kf
  · have hrr : qr ≠ kr := fun h => hne ⟨h, hff⟩
    rw [if_pos hff, pyDivE_abs (show kr - qr ≠ 0 by omega), except_bind_ok]
    have hnd : ((pyRange (qr + Int.sign (kr - qr)) kr (Int.sign (kr - qr))).map
        (fun i => (i, kf))).Nodup := by
      rcases lt_trichotomy qr kr with hc | hc | hc
      · rw [show Int.sign (kr - qr) = 1 from Int.sign_eq_one_of_pos (by omega)]
        exact List.Nodup.map (fun i j h => congrArg Prod.fst h) (pyRange_one_nodup _ _)
      · omega
      · rw [show Int.sign (kr - qr) = -1 from Int.sign_eq_neg_one_of_neg (by omega)]
        exact List.Nodup.map (fun i j h => congrArg Prod.fst h) (pyRange_negone_nodup _ _)
    rw [pinScanM_ok none (by
      intro sq hsq
      rw [mem_fileWalk hrr] at hsq
      omega)]
    refine ⟨_, rfl, ?_⟩
    intro p
    rw [soleOcc_none_eq_some, filterMap_eq_singleton hnd]
    constructor
    · rintro ⟨x, hx, hfx, hall⟩
      refine ⟨Or.inl (Or.inl ⟨hff, hrr⟩), x, ?_, hfx, ?_⟩
      · rw [mem_fileWalk hrr] at hx
        obtain ⟨x1, x2⟩ := x
        rw [sbetween_file hff hrr]
        exact hx
      · intro y hy hne2
        refine hall y ?_ hne2
        rw [mem_fileWalk hrr]
        obtain ⟨y1, y2⟩ := y
        rw [sbetween_file hff hrr] at hy
        exact hy
    · rintro ⟨-, x, hsb, hcell, hall⟩
      refine ⟨x, ?_, hcell, ?_⟩
      · rw [mem_fileWalk hrr]
        obtain ⟨x1, x2⟩ := x
        rw [sbetween_file hff hrr] at hsb
        exact hsb
      · intro y hy hne2
        refine hall y ?_ hne2
        rw [mem_fileWalk hrr] at hy
        obtain ⟨y1, y2⟩ := y
        rw [sbetween_file hff hrr]
        exact hy
  · rw [if_neg hff]
    by_cases hrr : qr = kr
    · have hff2 : qf ≠ kf := hff
      rw [if_pos hrr, pyDivE_abs (show kf - qf ≠ 0 by omega), except_bind_ok]
      have hnd : ((pyRange (qf + Int.sign (kf - qf)) kf (Int.sign (kf - qf))).map
          (fun i => (kr, i))).Nodup := by
        rcases lt_trichotomy qf kf with hc | hc | hc
        · rw [show Int.sign (kf - qf) = 1 from Int.sign_eq_one_of_pos (by omega)]
          exact List.Nodup.map (fun i j h => congrArg Prod.snd h) (pyRange_one_nodup _ _)
        · omega
        · rw [show Int.sign (kf - qf) = -1 from Int.sign_eq_neg_one_of_neg (by omega)]
          exact List.Nodup.map (fun i j h => congrArg Prod.snd h) (pyRange_negone_nodup _ _)
      rw [pinScanM_ok none (by
        intro sq hsq
        rw [mem_rankWalk hff2] at hsq
        omega)]
      refine ⟨_, rfl, ?_⟩
      intro p
      rw [soleOcc_none_eq_some, filterMap_eq_singleton hnd]
      constructor
      · rintro ⟨x, hx, hfx, hall⟩
        refine ⟨Or.inl (Or.inr ⟨hrr, hff2⟩), x, ?_, hfx, ?_⟩
        · rw [mem_rankWalk hff2] at hx
          obtain ⟨x1, x2⟩ := x
          rw [sbetween_rank hrr hff2]
          exact hx
        · intro y hy hne2
          refine hall y ?_ hne2
          rw [mem_rankWalk hff2]
          obtain ⟨y1, y2⟩ := y
          rw [sbetween_rank hrr hff2] at hy
          exact hy
      · rintro ⟨-, x, hsb, hcell, hall⟩
        refine ⟨x, ?_, hcell, ?_⟩
        · rw [mem_rankWalk hff2]
          obtain ⟨x1, x2⟩ := x
          rw [sbetween_rank hrr hff2] at hsb
          exact hsb
        · intro y hy hne2
          refine hall y ?_ hne2
          rw [mem_rankWalk hff2] at hy
          obtain ⟨y1, y2⟩ := y
          rw [sbetween_rank hrr hff2]
          exact hy
    · by_cases hd : |qr - kr| = |qf - kf|
      · rw [if_neg hrr, if_pos hd, fdiv_max_sign, fdiv_max_sign]
        have hs : Int.sign (kr - qr) ≠ 0 := by
          intro h
          rw [Int.sign_eq_zero_iff_zero] at h
          omega
        have hnd : ((pyRange 1 |kr - qr| 1).map
            (fun i => (qr + i * Int.sign (kr - qr), qf + i * Int.sign (kf - qf)))).Nodup := by
          refine List.Nodup.map ?_ (pyRange_one_nodup _ _)
          intro i j h
          have h1 := congrArg Prod.fst h
          simp only [] at h1
          have h2 := add_left_cancel h1
          exact mul_right_cancel₀ hs h2
        rw [pinScanM_ok none (by
          intro sq hsq
          rw [mem_diagWalk hd] at hsq
          obtain ⟨x1, x2⟩ := sq
          rw [sbetween_diag hd] at hsq
          obtain ⟨t, h1, h2, h3, h4⟩ := hsq
          show 0 ≤ x1 ∧ x1 ≤ 7 ∧ 0 ≤ x2 ∧ x2 ≤ 7
          rw [h3, h4]
          exact diagWalk_sq_range hd h1 h2 hqr hqr7 hqf hqf7 hkr hkr7 hkf hkf7)]
        refine ⟨_, rfl, ?_⟩
        intro p
        rw [soleOcc_none_eq_some, filterMap_eq_singleton hnd]
        constructor
        · rintro ⟨x, hx, hfx, hall⟩
          exact ⟨Or.inr ⟨hrr, hff, hd⟩, x, (mem_diagWalk hd).mp hx, hfx,
            fun y hy hne2 => hall y ((mem_diagWalk hd).mpr hy) hne2⟩
        · rintro ⟨-, x, hsb, hcell, hall⟩
          exact ⟨x, (mem_diagWalk hd).mpr hsb, hcell,
            fun y hy hne2 => hall y ((mem_diagWalk hd).mp hy) hne2⟩
      · rw [if_neg hrr, if_neg hd]
        refine ⟨none, rfl, ?_⟩
        intro p
        constructor
        · intro h
          cases h
        · rintro ⟨hal, -⟩
          rcases hal with (⟨h1, -⟩ | ⟨h1, -⟩) | ⟨-, -, h1⟩
          · exact (hff h1).elim
          · exact (hrr h1).elim
          · exact (hd h1).elim

theorem sign_eq_sign_iff (a b : Int) :
    Int.sign a = Int.sign b ↔
      ((0 < a ∧ 0 < b) ∨ (a = 0 ∧ b = 0) ∨ (a < 0 ∧ b < 0)) := by
  rcases lt_trichotomy a 0 with h | h | h
  · rw [Int.sign_eq_neg_one_of_neg h]
    rcases lt_trichotomy b 0 with h2 | h2 | h2
    · rw [Int.sign_eq_neg_one_of_neg h2]
      omega
    · rw [h2, Int.sign_zero]
      omega
    · rw [Int.sign_eq_one_of_pos h2]
      omega
  · rw [h, Int.sign_zero]
    rcases lt_trichotomy b 0 with h2 | h2 | h2
    · rw [Int.sign_eq_neg_one_of_neg h2]
      omega
    · rw [h2, Int.sign_zero]
      omega
    · rw [Int.sign_eq_one_of_pos h2]
      omega
  · rw [Int.sign_eq_one_of_pos h]
    rcases lt_trichotomy b 0 with h2 | h2 | h2
    · rw [Int.sign_eq_neg_one_of_neg h2]
      omega
    · rw [h2, Int.sign_zero]
      omega
    · rw [Int.sign_eq_one_of_pos h2]
      omega

/-- The two floor-division sign tests of `_get_pinned`'s diagonal paragraphs
hold exactly when the destination lies strictly between the king and the
pinning piece on their shared diagonal: the code's "moving along the line of
the pin" is the open king-pinner segment, not the full diagonal line. -/
theorem diag_sign_test_iff {kr kf qr qf rank file : Int}
    (hd : |qr - kr| = |qf - kf|) (h1 : qr ≠ kr) (h2 : qf ≠ kf) :
    (|rank - kr| = |file - kf| ∧
     signIdiom (rank - kr) = signIdiom (qr - rank) ∧
     signIdiom (file - kf) = signIdiom (qf - file)) ↔
    SBetween (kr, kf) (qr, qf) (rank, file) := by
  rw [signIdiom_eq_sign, signIdiom_eq_sign, signIdiom_eq_sign, signIdiom_eq_sign]
  rw [sbetween_diag (show |kr - qr| = |kf - qf| by
    rw [abs_sub_comm kr qr, abs_sub_comm kf qf]
    exact hd)]
  rw [sign_eq_sign_iff, sign_eq_sign_iff]
  simp only [Int.abs_eq_natAbs] at hd ⊢
  rcases lt_trichotomy kr qr with hc1 | hc1 | hc1
  · rw [Int.sign_eq_one_of_pos (show (0 : Int) < qr - kr by omega)]
    rcases lt_trichotomy kf qf with hc2 | hc2 | hc2
    · rw [Int.sign_eq_one_of_pos (show (0 : Int) < qf - kf by omega)]
      constructor
      · rintro ⟨ha, hs1, hs2⟩
        exact ⟨rank - kr, by omega, by omega, by omega, by omega⟩
      · rintro ⟨t, ht1, ht2, h3, h4⟩
        exact ⟨by omega, by omega, by omega⟩
    · exact absurd hc2.symm h2
    · rw [Int.sign_eq_neg_one_of_neg (show qf - kf < 0 by omega)]
      constructor
      · rintro ⟨ha, hs1, hs2⟩
        exact ⟨rank - kr, by omega, by omega, by omega, by omega⟩
      · rintro ⟨t, ht1, ht2, h3, h4⟩
        exact ⟨by omega, by omega, by omega⟩
  · exact absurd hc1.symm h1
  · rw [Int.sign_eq_neg_one_of_neg (show qr - kr < 0 by omega)]
    rcases lt_trichotomy kf qf with hc2 | hc2 | hc2
    · rw [Int.sign_eq_one_of_pos (show (0 : Int) < qf - kf by omega)]
      constructor
      · rintro ⟨ha, hs1, hs2⟩
        exact ⟨kr - rank, by omega, by omega, by omega, by omega⟩
      · rintro ⟨t, ht1, ht2, h3, h4⟩
        exact ⟨by omega, by omega, by omega⟩
    · exact absurd hc2.symm h2
    · rw [Int.sign_eq_neg_one_of_neg (show qf - kf < 0 by omega)]
      constructor
      · rintro ⟨ha, hs1, hs2⟩
        exact ⟨kr - rank, by omega, by omega, by omega, by omega⟩
      · rintro ⟨t, ht1, ht2, h3, h4⟩
        exact ⟨by omega, by omega, by omega⟩

/-- Well-formedness of an enemy slider list for the pin scan: every entry has
a heap record of the right kind and color, in-range coordinates, and does not
sit on the mover's king's square. -/
def PinWF (b : Board) (kr kf : Int) (k : Kind) (l : List Nat) : Prop :=
  ∀ q ∈ l, ∃ pc qr qf, heapGet b q = some pc ∧ pc.name = k ∧
    pc.color = b.toPlay.other ∧ pc.rank = some qr ∧ pc.file = some qf ∧
    0 ≤ qr ∧ qr ≤ 7 ∧ 0 ≤ qf ∧ qf ≤ 7 ∧ ¬(qr = kr ∧ qf = kf)

theorem scanRooks_mem {b : Board} {rank file : Int} {kpid : Nat} {kr kf : Int}
    (hk : kingCoords b b.toPlay = .ok (kpid, kr, kf))
    (hkr : 0 ≤ kr) (hkr7 : kr ≤ 7) (hkf : 0 ≤ kf) (hkf7 : kf ≤ 7) :
    ∀ (l : List Nat) (acc : List Nat), PinWF b kr kf Kind.R l →
      ∃ res, scanRooks b rank file l acc = .ok res ∧
        ∀ pid, (pid ∈ res ↔ pid ∈ acc ∨
          ∃ q ∈ l, ∃ pc qr qf, heapGet b q = some pc ∧
            pc.rank = some qr ∧ pc.file = some qf ∧
            ((qf = kf ∧ qr ≠ kr) ∨ (qr = kr ∧ qf ≠ kf)) ∧
            SolePin b (qr, qf) (kr, kf) pid ∧
            ((qr = kr ∧ rank ≠ kr) ∨ (qf = kf ∧ file ≠ kf))) := by
  intro l
  induction l with
  | nil =>
    intro acc _
    refine ⟨acc, rfl, ?_⟩
    intro pid
    simp
  | cons q rest ih =>
    intro acc hwf
    obtain ⟨pc, qr, qf, hq, hname, hcol, hrk, hfl, hqr, hqr7, hqf, hqf7, hne⟩ :=
      hwf q (List.mem_cons_self q rest)
    have hwfr : PinWF b kr kf Kind.R rest := fun x hx => hwf x (List.mem_cons_of_mem q hx)
    have hk2 : kingCoords b pc.color.other = .ok (kpid, kr, kf) := by
      rw [hcol, Color.other_other]
      exact hk
    obtain ⟨w, hw, hwc⟩ := rookPinned_char hk2 hqr hqr7 hqf hqf7 hkr hkr7 hkf hkf7 hne
    have hpp : piecePinned b pc = .ok w := by
      unfold piecePinned
      rw [hname]
      try simp only []
      rw [hrk, hfl]
      try simp only []
      exact hw
    simp only [scanRooks]
    rw [hq]
    try simp only []
    rw [hpp]
    simp only [except_bind_ok]
    rcases w with _ | pn
    · try simp only []
      obtain ⟨res, hres, hmem⟩ := ih acc hwfr
      refine ⟨res, hres, ?_⟩
      intro pid
      rw [hmem pid]
      constructor
      · rintro (h | h)
        · exact Or.inl h
        · right
          obtain ⟨x, hx, r2⟩ := h
          exact ⟨x, List.mem_cons_of_mem q hx, r2⟩
      · rintro (h | h)
        · exact Or.inl h
        · obtain ⟨x, hx, pcx, qrx, qfx, hqx, hrkx, hflx, halx, hsolx, htx⟩ := h
          rcases List.mem_cons.mp hx with heq | hx2
          · subst heq
            rw [hq] at hqx
            injection hqx with e
            subst e
            rw [hrk] at hrkx
            injection hrkx with e1
            subst e1
            rw [hfl] at hflx
            injection hflx with e2
            subst e2
            exact Option.noConfusion ((hwc pid).mpr ⟨halx, hsolx⟩)
          · exact Or.inr ⟨x, hx2, pcx, qrx, qfx, hqx, hrkx, hflx, halx, hsolx, htx⟩
    · try simp only []
      rw [hk]
      simp only [except_bind_ok]
      try simp only []
      rw [hrk, hfl]
      try simp only []
      have hpin := (hwc pn).mp rfl
      by_cases hT : (qr = kr ∧ rank ≠ kr) ∨ (qf = kf ∧ file ≠ kf)
      · rw [if_pos hT]
        obtain ⟨res, hres, hmem⟩ := ih (acc.insert pn) hwfr
        refine ⟨res, hres, ?_⟩
        intro pid
        rw [hmem pid, List.mem_insert_iff]
        constructor
        · rintro ((rfl | hacc) | h)
          · right
            exact ⟨q, List.mem_cons_self q rest, pc, qr, qf, hq, hrk, hfl, hpin.1, hpin.2, hT⟩
          · exact Or.inl hacc
          · right
            obtain ⟨x, hx, r2⟩ := h
            exact ⟨x, List.mem_cons_of_mem q hx, r2⟩
        · rintro (hacc | h)
          · exact Or.inl (Or.inr hacc)
          · obtain ⟨x, hx, pcx, qrx, qfx, hqx, hrkx, hflx, halx, hsolx, htx⟩ := h
            rcases List.mem_cons.mp hx with heq | hx2
            · subst heq
              rw [hq] at hqx
              injection hqx with e
              subst e
              rw [hrk] at hrkx
              injection hrkx with e1
              subst e1
              rw [hfl] at hflx
              injection hflx with e2
              subst e2
              have h3 := (hwc pid).mpr ⟨halx, hsolx⟩
              injection h3 with e3
              exact Or.inl (Or.inl e3.symm)
            · exact Or.inr ⟨x, hx2, pcx, qrx, qfx, hqx, hrkx, hflx, halx, hsolx, htx⟩
      · rw [if_neg hT]
        obtain ⟨res, hres, hmem⟩ := ih acc hwfr
        refine ⟨res, hres, ?_⟩
        intro pid
        rw [hmem pid]
        constructor
        · rintro (h | h)
          · exact Or.inl h
          · right
            obtain ⟨x, hx, r2⟩ := h
            exact ⟨x, List.mem_cons_of_mem q hx, r2⟩
        · rintro (h | h)
          · exact Or.inl h
          · obtain ⟨x, hx, pcx, qrx, qfx, hqx, hrkx, hflx, halx, hsolx, htx⟩ := h
            rcases List.mem_cons.mp hx with heq | hx2
            · subst heq
              rw [hq] at hqx
              injection hqx with e
              subst e
              rw [hrk] at hrkx
              injection hrkx with e1
              subst e1
              rw [hfl] at hflx
              injection hflx with e2
              subst e2
              exact absurd htx hT
            · exact Or.inr ⟨x, hx2, pcx, qrx, qfx, hqx, hrkx, hflx, halx, hsolx, htx⟩

theorem scanBishops_mem {b : Board} {rank file : Int} {kpid : Nat} {kr kf : Int}
    (hk : kingCoords b b.toPlay = .ok (kpid, kr, kf))
    (hkr : 0 ≤ kr) (hkr7 : kr ≤ 7) (hkf : 0 ≤ kf) (hkf7 : kf ≤ 7) :
    ∀ (l : List Nat) (acc : List Nat), PinWF b kr kf Kind.B l →
      ∃ res, scanBishops b rank file l acc = .ok res ∧
        ∀ pid, (pid ∈ res ↔ pid ∈ acc ∨
          ∃ q ∈ l, ∃ pc qr qf, heapGet b q = some pc ∧
            pc.rank = some qr ∧ pc.file = some qf ∧
            |qr - kr| = |qf - kf| ∧
            SolePin b (qr, qf) (kr, kf) pid ∧
            (¬(rank = qr ∧ file = qf) ∧
             ¬SBetween (kr, kf) (qr, qf) (rank, file))) := by
  intro l
  induction l with
  | nil =>
    intro acc _
    refine ⟨acc, rfl, ?_⟩
    intro pid
    simp
  | cons q rest ih =>
    intro acc hwf
    obtain ⟨pc, qr, qf, hq, hname, hcol, hrk, hfl, hqr, hqr7, hqf, hqf7, hne⟩ :=
      hwf q (List.mem_cons_self q rest)
    have hwfr : PinWF b kr kf Kind.B rest := fun x hx => hwf x (List.mem_cons_of_mem q hx)
    have hk2 : kingCoords b pc.color.other = .ok (kpid, kr, kf) := by
      rw [hcol, Color.other_other]
      exact hk
    obtain ⟨w, hw, hwc⟩ := bishopPinned_char hk2 hqr hqr7 hqf hqf7 hkr hkr7 hkf hkf7 hne
    have hpp : piecePinned b pc = .ok w := by
      unfold piecePinned
      rw [hname]
      try simp only []
      rw [hrk, hfl]
      try simp only []
      exact hw
    simp only [scanBishops]
    rw [hq]
    try simp only []
    rw [hpp]
    simp only [except_bind_ok]
    rcases w with _ | pn
    · try simp only []
      obtain ⟨res, hres, hmem⟩ := ih acc hwfr
      refine ⟨res, hres, ?_⟩
      intro pid
      rw [hmem pid]
      constructor
      · rintro (h | h)
        · exact Or.inl h
        · right
          obtain ⟨x, hx, r2⟩ := h
          exact ⟨x, List.mem_cons_of_mem q hx, r2⟩
      · rintro (h | h)
        · exact Or.inl h
        · obtain ⟨x, hx, pcx, qrx, qfx, hqx, hrkx, hflx, hdx, hsolx, htx⟩ := h
          rcases List.mem_cons.mp hx with heq | hx2
          · subst heq
            rw [hq] at hqx
            injection hqx with e
            subst e
            rw [hrk] at hrkx
            injection hrkx with e1
            subst e1
            rw [hfl] at hflx
            injection hflx with e2
            subst e2
            exact Option.noConfusion ((hwc pid).mpr ⟨hdx, hsolx⟩)
          · exact Or.inr ⟨x, hx2, pcx, qrx, qfx, hqx, hrkx, hflx, hdx, hsolx, htx⟩
    · try simp only []
      rw [hk]
      simp only [except_bind_ok]
      try simp only []
      rw [hrk, hfl]
      try simp only []
      have hpin := (hwc pn).mp rfl
      have hqrk : qr ≠ kr := by
        intro h
        rw [h, sub_self, abs_zero] at hpin
        have := abs_eq_zero.mp hpin.1.symm
        exact hne ⟨h, by omega⟩
      have hqfk : qf ≠ kf := by
        intro h
        have hd := hpin.1
        rw [h, sub_self, abs_zero] at hd
        have := abs_eq_zero.mp hd
        exact hne ⟨by omega, h⟩
      have hTiff : (¬(rank = qr ∧ file = qf) ∧
          (|rank - kr| ≠ |file - kf| ∨
           signIdiom (rank - kr) ≠ signIdiom (qr - rank) ∨
           signIdiom (file - kf) ≠ signIdiom (qf - file))) ↔
          (¬(rank = qr ∧ file = qf) ∧
           ¬SBetween (kr, kf) (qr, qf) (rank, file)) := by
        have h := @diag_sign_test_iff kr kf qr qf rank file hpin.1 hqrk hqfk
        tauto
      by_cases hT : ¬(rank = qr ∧ file = qf) ∧
          (|rank - kr| ≠ |file - kf| ∨
           signIdiom (rank - kr) ≠ signIdiom (qr - rank) ∨
           signIdiom (file - kf) ≠ signIdiom (qf - file))
      · rw [if_pos hT]
        obtain ⟨res, hres, hmem⟩ := ih (acc.insert pn) hwfr
        refine ⟨res, hres, ?_⟩
        intro pid
        rw [hmem pid, List.mem_insert_iff]
        constructor
        · rintro ((rfl | hacc) | h)
          · right
            exact ⟨q, List.mem_cons_self q rest, pc, qr, qf, hq, hrk, hfl, hpin.1, hpin.2,
              hTiff.mp hT⟩
          · exact Or.inl hacc
          · right
            obtain ⟨x, hx, r2⟩ := h
            exact ⟨x, List.mem_cons_of_mem q hx, r2⟩
        · rintro (hacc | h)
          · exact Or.inl (Or.inr hacc)
          · obtain ⟨x, hx, pcx, qrx, qfx, hqx, hrkx, hflx, hdx, hsolx, htx⟩ := h
            rcases List.mem_cons.mp hx with heq | hx2
            · subst heq
              rw [hq] at hqx
              injection hqx with e
              subst e
              rw [hrk] at hrkx
              injection hrkx with e1
              subst e1
              rw [hfl] at hflx
              injection hflx with e2
              subst e2
              have h3 := (hwc pid).mpr ⟨hdx, hsolx⟩
              injection h3 with e3
              exact Or.inl (Or.inl e3.symm)
            · exact Or.inr ⟨x, hx2, pcx, qrx, qfx, hqx, hrkx, hflx, hdx, hsolx, htx⟩
      · rw [if_neg hT]
        obtain ⟨res, hres, hmem⟩ := ih acc hwfr
        refine ⟨res, hres, ?_⟩
        intro pid
        rw [hmem pid]
        constructor
        · rintro (h | h)
          · exact Or.inl h
          · right
            obtain ⟨x, hx, r2⟩ := h
            exact ⟨x, List.mem_cons_of_mem q hx, r2⟩
        · rintro (h | h)
          · exact Or.inl h
          · obtain ⟨x, hx, pcx, qrx, qfx, hqx, hrkx, hflx, hdx, hsolx, htx⟩ := h
            rcases List.mem_cons.mp hx with heq | hx2
            · subst heq
              rw [hq] at hqx
              injection hqx with e
              subst e
              rw [hrk] at hrkx
              injection hrkx with e1
              subst e1
              rw [hfl] at hflx
              injection hflx with e2
              subst e2
              exact absurd (hTiff.mpr htx) hT
            · exact Or.inr ⟨x, hx2, pcx, qrx, qfx, hqx, hrkx, hflx, hdx, hsolx, htx⟩

theorem scanQueens_mem {b : Board} {rank file : Int} {kpid : Nat} {kr kf : Int}
    (hk : kingCoords b b.toPlay = .ok (kpid, kr, kf))
    (hkr : 0 ≤ kr) (hkr7 : kr ≤ 7) (hkf : 0 ≤ kf) (hkf7 : kf ≤ 7) :
    ∀ (l : List Nat) (acc : List Nat), PinWF b kr kf Kind.Q l →
      ∃ res, scanQueens b rank file l acc = .ok res ∧
        ∀ pid, (pid ∈ res ↔ pid ∈ acc ∨
          ∃ q ∈ l, ∃ pc qr qf, heapGet b q = some pc ∧
            pc.rank = some qr ∧ pc.file = some qf ∧
            (((qf = kf ∧ qr ≠ kr) ∨ (qr = kr ∧ qf ≠ kf)) ∨
              (qr ≠ kr ∧ qf ≠ kf ∧ |qr - kr| = |qf - kf|)) ∧
            SolePin b (qr, qf) (kr, kf) pid ∧
            (¬(rank = qr ∧ file = qf) ∧
             ((qr = kr ∧ rank ≠ kr) ∨ (qf = kf ∧ file ≠ kf) ∨
              (qr ≠ kr ∧ qf ≠ kf ∧
               ¬SBetween (kr, kf) (qr, qf) (rank, file))))) := by
  intro l
  induction l with
  | nil =>
    intro acc _
    refine ⟨acc, rfl, ?_⟩
    intro pid
    simp
  | cons q rest ih =>
    intro acc hwf
    obtain ⟨pc, qr, qf, hq, hname, hcol, hrk, hfl, hqr, hqr7, hqf, hqf7, hne⟩ :=
      hwf q (List.mem_cons_self q rest)
    have hwfr : PinWF b kr kf Kind.Q rest := fun x hx => hwf x (List.mem_cons_of_mem q hx)
    have hk2 : kingCoords b pc.color.other = .ok (kpid, kr, kf) := by
      rw [hcol, Color.other_other]
      exact hk
    obtain ⟨w, hw, hwc⟩ := queenPinned_char hk2 hqr hqr7 hqf hqf7 hkr hkr7 hkf hkf7 hne
    have hpp : piecePinned b pc = .ok w := by
      unfold piecePinned
      rw [hname]
      try simp only []
      rw [hrk, hfl]
      try simp only []
      exact hw
    simp only [scanQueens]
    rw [hq]
    try simp only []
    rw [hpp]
    simp only [except_bind_ok]
    rcases w with _ | pn
    · try simp only []
      obtain ⟨res, hres, hmem⟩ := ih acc hwfr
      refine ⟨res, hres, ?_⟩
      intro pid
      rw [hmem pid]
      constructor
      · rintro (h | h)
        · exact Or.inl h
        · right
          obtain ⟨x, hx, r2⟩ := h
          exact ⟨x, List.mem_cons_of_mem q hx, r2⟩
      · rintro (h | h)
        · exact Or.inl h
        · obtain ⟨x, hx, pcx, qrx, qfx, hqx, hrkx, hflx, halx, hsolx, htx⟩ := h
          rcases List.mem_cons.mp hx with heq | hx2
          · subst heq
            rw [hq] at hqx
            injection hqx with e
            subst e
            rw [hrk] at hrkx
            injection hrkx with e1
            subst e1
            rw [hfl] at hflx
            injection hflx with e2
            subst e2
            exact Option.noConfusion ((hwc pid).mpr ⟨halx, hsolx⟩)
          · exact Or.inr ⟨x, hx2, pcx, qrx, qfx, hqx, hrkx, hflx, halx, hsolx, htx⟩
    · try simp only []
      rw [hk]
      simp only [except_bind_ok]
      try simp only []
      rw [hrk, hfl]
      try simp only []
      have hpin := (hwc pn).mp rfl
      have hTiff : (¬(rank = qr ∧ file = qf) ∧
          ((qr = kr ∧ rank ≠ kr) ∨ (qf = kf ∧ file ≠ kf) ∨
           ((qr ≠ kr ∧ qf ≠ kf) ∧
            (|rank - kr| ≠ |file - kf| ∨
             signIdiom (rank - kr) ≠ signIdiom (qr - rank) ∨
             signIdiom (file - kf) ≠ signIdiom (qf - file))))) ↔
          (¬(rank = qr ∧ file = qf) ∧
           ((qr = kr ∧ rank ≠ kr) ∨ (qf = kf ∧ file ≠ kf) ∨
            (qr ≠ kr ∧ qf ≠ kf ∧
             ¬SBetween (kr, kf) (qr, qf) (rank, file)))) := by
        rcases hpin.1 with (⟨hff, hrr⟩ | ⟨hrr, hff⟩) | ⟨hrr, hff, hd⟩
        · constructor
          · rintro ⟨hx, hOr⟩
            refine ⟨hx, ?_⟩
            rcases hOr with h1 | h1 | h1
            · exact Or.inl h1
            · exact Or.inr (Or.inl h1)
            · exact absurd hff h1.1.2
          · rintro ⟨hx, hOr⟩
            refine ⟨hx, ?_⟩
            rcases hOr with h1 | h1 | h1
            · exact Or.inl h1
            · exact Or.inr (Or.inl h1)
            · exact absurd hff h1.2.1
        · constructor
          · rintro ⟨hx, hOr⟩
            refine ⟨hx, ?_⟩
            rcases hOr with h1 | h1 | h1
            · exact Or.inl h1
            · exact Or.inr (Or.inl h1)
            · exact absurd hrr h1.1.1
          · rintro ⟨hx, hOr⟩
            refine ⟨hx, ?_⟩
            rcases hOr with h1 | h1 | h1
            · exact Or.inl h1
            · exact Or.inr (Or.inl h1)
            · exact absurd hrr h1.1
        · have h := @diag_sign_test_iff kr kf qr qf rank file hd hrr hff
          have hns : (|rank - kr| ≠ |file - kf| ∨
              signIdiom (rank - kr) ≠ signIdiom (qr - rank) ∨
              signIdiom (file - kf) ≠ signIdiom (qf - file)) ↔
              ¬SBetween (kr, kf) (qr, qf) (rank, file) := by
            rw [← h]
            constructor
            · rintro (h1 | h1 | h1) ⟨a, b, c⟩
              exacts [h1 a, h1 b, h1 c]
            · intro hn
              by_contra hcon
              push_neg at hcon
              exact hn ⟨hcon.1, hcon.2.1, hcon.2.2⟩
          constructor
          · rintro ⟨hx, hOr⟩
            refine ⟨hx, ?_⟩
            rcases hOr with h1 | h1 | h1
            · exact Or.inl h1
            · exact Or.inr (Or.inl h1)
            · exact Or.inr (Or.inr ⟨h1.1.1, h1.1.2, hns.mp h1.2⟩)
          · rintro ⟨hx, hOr⟩
            refine ⟨hx, ?_⟩
            rcases hOr with h1 | h1 | h1
            · exact Or.inl h1
            · exact Or.inr (Or.inl h1)
            · exact Or.inr (Or.inr ⟨⟨h1.1, h1.2.1⟩, hns.mpr h1.2.2⟩)
      by_cases hT : ¬(rank = qr ∧ file = qf) ∧
          ((qr = kr ∧ rank ≠ kr) ∨ (qf = kf ∧ file ≠ kf) ∨
           ((qr ≠ kr ∧ qf ≠ kf) ∧
            (|rank - kr| ≠ |file - kf| ∨
             signIdiom (rank - kr) ≠ signIdiom (qr - rank) ∨
             signIdiom (file - kf) ≠ signIdiom (qf - file))))
      · rw [if_pos hT]
        obtain ⟨res, hres, hmem⟩ := ih (acc.insert pn) hwfr
        refine ⟨res, hres, ?_⟩
        intro pid
        rw [hmem pid, List.mem_insert_iff]
        constructor
        · rintro ((rfl | hacc) | h)
          · right
            exact ⟨q, List.mem_cons_self q rest, pc, qr, qf, hq, hrk, hfl, hpin.1, hpin.2,
              hTiff.mp hT⟩
          · exact Or.inl hacc
          · right
            obtain ⟨x, hx, r2⟩ := h
            exact ⟨x, List.mem_cons_of_mem q hx, r2⟩
        · rintro (hacc | h)
          · exact Or.inl (Or.inr hacc)
          · obtain ⟨x, hx, pcx, qrx, qfx, hqx, hrkx, hflx, halx, hsolx, htx⟩ := h
            rcases List.mem_cons.mp hx with heq | hx2
            · subst heq
              rw [hq] at hqx
              injection hqx with e
              subst e
              rw [hrk] at hrkx
              injection hrkx with e1
              subst e1
              rw [hfl] at hflx
              injection hflx with e2
              subst e2
              have h3 := (hwc pid).mpr ⟨halx, hsolx⟩
              injection h3 with e3
              exact Or.inl (Or.inl e3.symm)
            · exact Or.inr ⟨x, hx2, pcx, qrx, qfx, hqx, hrkx, hflx, halx, hsolx, htx⟩
      · rw [if_neg hT]
        obtain ⟨res, hres, hmem⟩ := ih acc hwfr
        refine ⟨res, hres, ?_⟩
        intro pid
        rw [hmem pid]
        constructor
        · rintro (h | h)
          · exact Or.inl h
          · right
            obtain ⟨x, hx, r2⟩ := h
            exact ⟨x, List.mem_cons_of_mem q hx, r2⟩
        · rintro (h | h)
          · exact Or.inl h
          · obtain ⟨x, hx, pcx, qrx, qfx, hqx, hrkx, hflx, halx, hsolx, htx⟩ := h
            rcases List.mem_cons.mp hx with heq | hx2
            · subst heq
              rw [hq] at hqx
              injection hqx with e
              subst e
              rw [hrk] at hrkx
              injection hrkx with e1
              subst e1
              rw [hfl] at hflx
              injection hflx with e2
              subst e2
              exact absurd (hTiff.mpr htx) hT
            · exact Or.inr ⟨x, hx2, pcx, qrx, qfx, hqx, hrkx, hflx, halx, hsolx, htx⟩

/-- What `_get_pinned(dest)` collects, stated geometrically: a piece alone on
an enemy rook's, bishop's or queen's line to the mover's king, where the
destination fails that slider's stay-on-line test. For a rook the test keeps
any destination on the full shared rank/file line through the king; for a
diagonal (bishop, or queen on neither rook line) it keeps only the pinning
piece's own square and the squares strictly between the king and the pinner. -/
def PinnedSpec (b : Board) (rank file kr kf : Int) (pid : Nat) : Prop :=
  (∃ q ∈ b.bpR.get b.toPlay.other, ∃ pc qr qf, heapGet b q = some pc ∧
    pc.rank = some qr ∧ pc.file = some qf ∧
    ((qf = kf ∧ qr ≠ kr) ∨ (qr = kr ∧ qf ≠ kf)) ∧
    SolePin b (qr, qf) (kr, kf) pid ∧
    ((qr = kr ∧ rank ≠ kr) ∨ (qf = kf ∧ file ≠ kf))) ∨
  (∃ q ∈ b.bpB.get b.toPlay.other, ∃ pc qr qf, heapGet b q = some pc ∧
    pc.rank = some qr ∧ pc.file = some qf ∧
    |qr - kr| = |qf - kf| ∧
    SolePin b (qr, qf) (kr, kf) pid ∧
    (¬(rank = qr ∧ file = qf) ∧ ¬SBetween (kr, kf) (qr, qf) (rank, file))) ∨
  (∃ q ∈ b.bpQ.get b.toPlay.other, ∃ pc qr qf, heapGet b q = some pc ∧
    pc.rank = some qr ∧ pc.file = some qf ∧
    (((qf = kf ∧ qr ≠ kr) ∨ (qr = kr ∧ qf ≠ kf)) ∨
      (qr ≠ kr ∧ qf ≠ kf ∧ |qr - kr| = |qf - kf|)) ∧
    SolePin b (qr, qf) (kr, kf) pid ∧
    (¬(rank = qr ∧ file = qf) ∧
     ((qr = kr ∧ rank ≠ kr) ∨ (qf = kf ∧ file ≠ kf) ∨
      (qr ≠ kr ∧ qf ≠ kf ∧ ¬SBetween (kr, kf) (qr, qf) (rank, file)))))

theorem getPinned_char {b : Board} {rank file : Int} {kpid : Nat} {kr kf : Int}
    (hk : kingCoords b b.toPlay = .ok (kpid, kr, kf))
    (hkr : 0 ≤ kr) (hkr7 : kr ≤ 7) (hkf : 0 ≤ kf) (hkf7 : kf ≤ 7)
    (hwfR : PinWF b kr kf Kind.R (b.bpR.get b.toPlay.other))
    (hwfB : PinWF b kr kf Kind.B (b.bpB.get b.toPlay.other))
    (hwfQ : PinWF b kr kf Kind.Q (b.bpQ.get b.toPlay.other)) :
    ∃ res, getPinned b (rank, file) = .ok res ∧
      ∀ pid, (pid ∈ res ↔ PinnedSpec b rank file kr kf pid) := by
  unfold getPinned
  try simp only []
  obtain ⟨r1, hr1, hm1⟩ :=
    scanRooks_mem hk hkr hkr7 hkf hkf7 (b.bpR.get b.toPlay.other) [] hwfR
  rw [hr1]
  simp only [except_bind_ok]
  obtain ⟨r2, hr2, hm2⟩ :=
    scanBishops_mem hk hkr hkr7 hkf hkf7 (b.bpB.get b.toPlay.other) r1 hwfB
  rw [hr2]
  simp only [except_bind_ok]
  obtain ⟨r3, hr3, hm3⟩ :=
    scanQueens_mem hk hkr hkr7 hkf hkf7 (b.bpQ.get b.toPlay.other) r2 hwfQ
  refine ⟨r3, hr3, ?_⟩
  intro pid
  rw [hm3 pid, hm2 pid, hm1 pid]
  unfold PinnedSpec
  constructor
  · rintro (((hnil | hR) | hB) | hQ)
    · exact absurd hnil (List.not_mem_nil pid)
    · exact Or.inl hR
    · exact Or.inr (Or.inl hB)
    · exact Or.inr (Or.inr hQ)
  · rintro (hR | hB | hQ)
    · exact Or.inl (Or.inl (Or.inr hR))
    · exact Or.inl (Or.inr hB)
    · exact Or.inr hQ

/-- A candidate returned by any of the three `_find_piece` loops is never in
the pinned set. -/
theorem findLoop_not_pinned {b : Board} {dest : Int × Int} {cap : Bool}
    {pinned : List Nat} {pre : Pc → Bool} :
    ∀ {l : List Nat} {pid : Nat},
      findLoop b dest cap pinned pre l = .ok (some pid) → pid ∉ pinned := by
  intro l
  induction l with
  | nil =>
    intro pid h
    simp only [findLoop, except_pure] at h
    injection h with h1
    exact Option.noConfusion h1
  | cons q rest ih =>
    intro pid h
    simp only [findLoop] at h
    rcases hq : heapGet b q with _ | pc <;> rw [hq] at h <;> try simp only [] at h
    · cases h
    by_cases hpre : pre pc = true
    · rw [if_pos hpre] at h
      rcases hr : reachPc b pc dest cap with e | rb <;> rw [hr] at h <;> try simp only [] at h
      · rw [except_bind_error] at h
        cases h
      simp only [except_bind_ok] at h
      by_cases hc : rb = true ∧ ¬(q ∈ pinned)
      · rw [if_pos hc] at h
        rw [except_pure] at h
        injection h with h1
        injection h1 with h2
        exact h2 ▸ hc.2
      · rw [if_neg hc] at h
        exact ih h
    · rw [if_neg hpre] at h
      exact ih h

/-- A non-King piece resolved by `_find_piece` is never in the set that
`_get_pinned(dest)` computed. -/
theorem findPiece_not_pinned {b : Board} {src : Kind} {dest : Int × Int}
    {modifier : Option Char} {capture : Bool} {pinnedL : List Nat} {pid : Nat}
    (hsrc : src ≠ Kind.K)
    (hgp : getPinned b dest = .ok pinnedL)
    (h : findPiece b src dest modifier capture = .ok (some pid)) :
    pid ∉ pinnedL := by
  unfold findPiece at h
  simp only [] at h
  split at h
  · cases h
  · rw [hgp] at h
    simp only [except_bind_ok] at h
    split at h
    · exact findLoop_not_pinned h
    · exact findLoop_not_pinned h
    · exact findLoop_not_pinned h

/-- When `_find_piece` finds no candidate, the regex branch fails with
`IllegalMove`. -/
theorem movePGNParsed_illegal {b : Board} {pm : PM} {cr : Int}
    (h1 : epCaptureRank b pm = .ok cr)
    (h2 : findPiece b (pmSrc pm) (pmRank pm, pmFile pm) pm.g2 pm.g3 = .ok none) :
    movePGNParsed b pm = .error Err.illegalMove := by
  unfold movePGNParsed applyParsedCore
  rw [h1]
  simp only [except_bind_ok]
  rw [h2]
  simp only [except_bind_ok]
  try simp only []
  rw [except_bind_error]

/-- Scenario: White Ke1 and Bd2, Black Ba5 pinning the bishop on the a5-e1
diagonal (plus a black king on h8). -/
def c2BishopBoard : Board :=
  let s := emptyBoard
  let s := (mkPiece s Kind.K 0 4 Color.white 0).2
  let s := (mkPiece s Kind.B 1 3 Color.white 0).2
  let s := (mkPiece s Kind.B 4 0 Color.black 0).2
  let s := (mkPiece s Kind.K 7 7 Color.black 0).2
  s

/-- Scenario: White Ke1 and Re2, Black Re7 pinning the rook on the e-file
(plus a black king on h8). -/
def c2RookBoard : Board :=
  let s := emptyBoard
  let s := (mkPiece s Kind.K 0 4 Color.white 0).2
  let s := (mkPiece s Kind.R 1 4 Color.white 0).2
  let s := (mkPiece s Kind.R 6 4 Color.black 0).2
  let s := (mkPiece s Kind.K 7 7 Color.black 0).2
  s

/-- The parse of "Bxe1". -/
def pmBxe1 : PM := ⟨some 'B', none, true, 'e', '1', none, false⟩

/-- C2 counterexample: no single reading of "stays on the pin ray" matches
both paragraphs. The destination e1 — the mover's own king's square — lies on
the pin line through king and slider in both scenarios, and both pinned
pieces can reach it (`reach` never tests the destination's occupant). The
diagonal paragraph still excludes the pinned bishop (sign test fails beyond
the segment ends), so `Bxe1` fails with `IllegalMove`; the rook paragraph
keeps the full shared line, so the pinned rook is *not* excluded and is
returned as the candidate. -/
theorem c2_ray_test_asymmetry :
    getPinned c2BishopBoard (0, 4) = .ok [1] ∧
    movePGN c2BishopBoard "Bxe1" = .error Err.illegalMove ∧
    getPinned c2RookBoard (0, 4) = .ok [] ∧
    findPiece c2RookBoard Kind.R (0, 4) none true = .ok (some 1) := by
  decide

/-- C2 (amended): for a non-King move the excluded candidates are exactly
`_get_pinned(dest)`, characterised geometrically — a piece alone strictly
between an enemy rook, bishop or queen and the mover's king on a shared line,
whose declared destination fails that slider's stay-on-line test: on the full
shared rank/file line for a rook-type pin, but only on the pinning piece's
square or strictly between king and pinner for a diagonal pin (squares on the
diagonal beyond either end, including the king's own square, stay excluded).
A piece in that set is never returned as the candidate, and when no candidate
is found the move fails with `IllegalMove`. -/
theorem c2_pin_enforcement :
    (∀ (b : Board) (rank file : Int) (kpid : Nat) (kr kf : Int),
      kingCoords b b.toPlay = .ok (kpid, kr, kf) →
      0 ≤ kr → kr ≤ 7 → 0 ≤ kf → kf ≤ 7 →
      PinWF b kr kf Kind.R (b.bpR.get b.toPlay.other) →
      PinWF b kr kf Kind.B (b.bpB.get b.toPlay.other) →
      PinWF b kr kf Kind.Q (b.bpQ.get b.toPlay.other) →
      ∃ res, getPinned b (rank, file) = .ok res ∧
        ∀ pid, (pid ∈ res ↔ PinnedSpec b rank file kr kf pid)) ∧
    (∀ (b : Board) (src : Kind) (dest : Int × Int) (modifier : Option Char)
        (capture : Bool) (pinnedL : List Nat) (pid : Nat),
      src ≠ Kind.K →
      getPinned b dest = .ok pinnedL →
      findPiece b src dest modifier capture = .ok (some pid) →
      pid ∉ pinnedL) ∧
    (∀ (b : Board) (pm : PM) (cr : Int),
      epCaptureRank b pm = .ok cr →
      findPiece b (pmSrc pm) (pmRank pm, pmFile pm) pm.g2 pm.g3 = .ok none →
      movePGNParsed b pm = .error Err.illegalMove) := by
  refine ⟨?_, ?_, ?_⟩
  · intro b rank file kpid kr kf hk h1 h2 h3 h4 hR hB hQ
    exact getPinned_char hk h1 h2 h3 h4 hR hB hQ
  · intro b src dest modifier capture pinnedL pid hsrc hgp h
    exact findPiece_not_pinned hsrc hgp h
  · intro b pm cr h1 h2
    exact movePGNParsed_illegal h1 h2

/-- Witness for `c2_pin_enforcement` on the two pin scenarios: the pinned
bishop is in the characterised set for destination e1 and the move fails with
`IllegalMove`; the resolved rook of the rook scenario is not in the (empty)
pinned set. -/
theorem c2_pin_enforcement_witness :
    (∃ res, getPinned c2BishopBoard (0, 4) = .ok res ∧
      ∀ pid, (pid ∈ res ↔ PinnedSpec c2BishopBoard 0 4 0 4 pid)) ∧
    ((1 : Nat) ∉ ([] : List Nat)) ∧
    movePGNParsed c2BishopBoard pmBxe1 = .error Err.illegalMove := by
  have hR : PinWF c2BishopBoard 0 4 Kind.R
      (c2BishopBoard.bpR.get c2BishopBoard.toPlay.other) := by
    intro q hq
    rw [show c2BishopBoard.bpR.get c2BishopBoard.toPlay.other = [] from by decide] at hq
    cases hq
  have hB : PinWF c2BishopBoard 0 4 Kind.B
      (c2BishopBoard.bpB.get c2BishopBoard.toPlay.other) := by
    intro q hq
    rw [show c2BishopBoard.bpB.get c2BishopBoard.toPlay.other = [2] from by decide] at hq
    rw [List.mem_singleton] at hq
    subst hq
    exact ⟨⟨Kind.B, Color.black, some 4, some 0, 0⟩, 4, 0, by decide, by decide, by decide,
      by decide, by decide, by decide, by decide, by decide, by decide, by decide⟩
  have hQ : PinWF c2BishopBoard 0 4 Kind.Q
      (c2BishopBoard.bpQ.get c2BishopBoard.toPlay.other) := by
    intro q hq
    rw [show c2BishopBoard.bpQ.get c2BishopBoard.toPlay.other = [] from by decide] at hq
    cases hq
  refine ⟨c2_pin_enforcement.1 c2BishopBoard 0 4 0 0 4 (by decide) (by decide) (by decide)
      (by decide) (by decide) hR hB hQ, ?_, ?_⟩
  · exact c2_pin_enforcement.2.1 c2RookBoard Kind.R (0, 4) none true [] 1 (by decide)
      (by decide) (by decide)
  · exact c2_pin_enforcement.2.2 c2BishopBoard pmBxe1 0 (by decide) (by decide)

end Pidgin
